import Mathlib

/-!
# Process table and per-process heap directory of `proc.c`

A shallow embedding of `src/proc.c` (an xv6 derivative with a priority
scheduler, a first-fit heap directory `vm[]`, and clone/join threads).

Conventions of the embedding

* C `int` and `uint` values are `Int`; the development assumes no overflow.
* Pointers into `ptable.proc[]` are `Ptr.proc i` (the index of the record),
  the null pointer is `Ptr.null`, any other address is `Ptr.addr a`.
  `kstack`, `pgdir` and `ustack` are raw addresses (`Nat`, `0` is null).
* `NPROC` (from `param.h`) is the length of the table, `SLOT` and `KERNBASE`
  (from `param.h`, `memlayout.h`) are fields of `consts`.
* The record fields `context`, `ofile`, `cwd`, `name` and `shmva` are
  maintained through the context-switch, file-system, string and
  shared-memory collaborators; none of the operations embedded here reads
  them, and they are left out of `proc`.  Calls into collaborators that do
  not touch the table (`kfree`, `freevm`, `switchuvm`, `myallocuvm`,
  `mydeallocuvm`, `filedup`, ...) are omitted; `kalloc` and `copyuvm` are
  represented by their results, passed as arguments.
* A function that can leave the bounds of `vm[]`, run forever or `panic`
  returns `Option`; `none` stands for those cases.
-/

namespace Proc

/-! ## Data model -/

/-- One record of the heap directory `proc->vm[]`. -/
structure vma where
  next : Int
  address : Int
  length : Int
deriving DecidableEq, Repr

/-- Number of records of `proc->vm[]`. -/
def NVMA : Nat := 10

/-- The states of `enum procstate`. -/
inductive procstate where
  | UNUSED | EMBRYO | SLEEPING | RUNNABLE | RUNNING | ZOMBIE
deriving DecidableEq, Repr

/-- Pointer values stored in `parent`, `pthread`, `chan` and `initproc`. -/
inductive Ptr where
  | null
  | proc (i : Nat)
  | addr (a : Nat)
deriving DecidableEq, Repr

/-- The registers of `struct trapframe` that `proc.c` writes. -/
structure trapframe where
  eax : Int
  eip : Int
  esp : Int
  ebp : Int
deriving DecidableEq, Repr

/-- The fields of `struct proc` used by the table and heap operations. -/
structure proc where
  sz : Int
  pgdir : Nat
  kstack : Nat
  state : procstate
  pid : Int
  parent : Ptr
  tf : trapframe
  chan : Ptr
  killed : Int
  priority : Int
  slot : Int
  vm : List vma
  shm : Int
  shmkeymask : Int
  mqmask : Int
  pthread : Ptr
  ustack : Nat
deriving DecidableEq, Repr

/-- Constants of headers that are not part of `proc.c`. -/
structure consts where
  SLOT : Int
  KERNBASE : Int
deriving DecidableEq, Repr

/-- The globals `ptable.proc`, `nextpid` and `initproc`. -/
structure kernel where
  ptable : List proc
  nextpid : Int
  initproc : Ptr
deriving DecidableEq, Repr

/-! ## Heap directory: `mygrowproc`, `myreduceproc` -/

/-- The C expression `vm[index]`; `none` when `index` is outside the array. -/
def vmAt (vm : List vma) (index : Int) : Option vma :=
  if 0 ≤ index then vm[index.toNat]? else none

/-- Number of loop tests after which a list walk over `vm[]` that has not
    left is caught in a cycle of `next` links. -/
def WALKFUEL : Nat := NVMA + 1

/-- The loop `for(i = p->vm[0].next; i != 0; i = p->vm[i].next)` (as in
    `procdump`): the indices of the records visited, in order. -/
def walk (vm : List vma) : Nat → Int → Option (List Nat)
  | 0, _ => none
  | fuel + 1, index =>
    if index = 0 then some []
    else match vmAt vm index with
      | none => none
      | some v => (walk vm fuel v.next).map (fun l => index.toNat :: l)

/-- Indices of the allocated records, walked from the sentinel `vm[0]`. -/
def nodes (vm : List vma) : Option (List Nat) :=
  match vmAt vm 0 with
  | none => none
  | some v0 => walk vm WALKFUEL v0.next

/-- The `(address, length)` pairs printed by `procdump` for a directory. -/
def allocs (vm : List vma) : Option (List (Int × Int)) :=
  (nodes vm).map (fun l => l.map (fun i =>
    match vm[i]? with
    | some v => (v.address, v.length)
    | none => (0, 0)))

/-- First loop of `mygrowproc`: the values of `(index, start, prev)` when
    the loop is left. -/
def growWalk (vm : List vma) (n : Int) : Nat → Int → Int → Int → Option (Int × Int × Int)
  | 0, _, _, _ => none
  | fuel + 1, index, start, prev =>
    if index = 0 then some (index, start, prev)
    else match vmAt vm index with
      | none => none
      | some v =>
        if start + n < v.address then some (index, start, prev)
        else growWalk vm n fuel v.next (v.address + v.length) index

/-- Second loop of `mygrowproc`, `for(i = 1; i < 10; i++) if(vm[i].next == -1)`:
    the first free record, scanning `fuel` records from `i`. -/
def findFree (vm : List vma) : Nat → Nat → Option Nat
  | 0, _ => none
  | fuel + 1, i =>
    match vm[i]? with
    | none => none
    | some v => if v.next = -1 then some i else findFree vm fuel (i + 1)

/-- The function `mygrowproc(n)` on the current process: the new record and the
    returned value. -/
def mygrowproc (p : proc) (n : Int) : Option (proc × Int) :=
  match vmAt p.vm 0 with
  | none => none
  | some v0 =>
    match growWalk p.vm n WALKFUEL v0.next p.sz 0 with
    | none => none
    | some (index, start, prev) =>
      match findFree p.vm (NVMA - 1) 1 with
      | some i =>
        let vm1 := p.vm.set i { next := index, address := start, length := n }
        match vmAt vm1 prev with
        | none => none
        | some vp =>
          some ({ p with vm := vm1.set prev.toNat { vp with next := (i : Int) } }, start)
      | none => some (p, 0)

/-- The loop of `myreduceproc`: the directory after the loop. -/
def reduceWalk (vm : List vma) (address : Int) : Nat → Int → Int → Option (List vma)
  | 0, _, _ => none
  | fuel + 1, index, prev =>
    if index = 0 then some vm
    else match vmAt vm index with
      | none => none
      | some v =>
        if v.address = address ∧ v.length > 0 then
          match vmAt vm prev with
          | none => none
          | some vp =>
            let vm1 := vm.set prev.toNat { vp with next := v.next }
            match vmAt vm1 index with
            | none => none
            | some vi => some (vm1.set index.toNat { vi with next := -1, length := 0 })
        else reduceWalk vm address fuel v.next index

/-- The function `myreduceproc(address)` on the current process: the new record
    and the returned value. -/
def myreduceproc (p : proc) (address : Int) : Option (proc × Int) :=
  match vmAt p.vm 0 with
  | none => none
  | some v0 =>
    match reduceWalk p.vm address WALKFUEL v0.next 0 with
    | none => none
    | some vm1 => some ({ p with vm := vm1 }, 0)

/-- A call of one of the two heap operations. -/
inductive HeapOp where
  | grow (n : Int)
  | reduce (address : Int)
deriving DecidableEq, Repr

/-- Run a sequence of heap calls; the record after the last call and the
    values returned, in call order. -/
def runHeap : proc → List HeapOp → Option (proc × List Int)
  | p, [] => some (p, [])
  | p, HeapOp.grow n :: ops =>
    match mygrowproc p n with
    | none => none
    | some (p1, r) => (runHeap p1 ops).map (fun x => (x.1, r :: x.2))
  | p, HeapOp.reduce a :: ops =>
    match myreduceproc p a with
    | none => none
    | some (p1, r) => (runHeap p1 ops).map (fun x => (x.1, r :: x.2))

/-- Directory initialisation of `allocproc` (lines 59-63): every record gets
    `next = -1`, `length = 0`, then `vm[0].next = 0`. -/
def vm_init (vm : List vma) : List vma :=
  let vm1 := (List.range NVMA).foldl
    (fun vm i => match vm[i]? with
      | some v => vm.set i { v with next := -1, length := 0 }
      | none => vm) vm
  match vm1[0]? with
  | some v => vm1.set 0 { v with next := 0 }
  | none => vm1

/-- The function `growproc(n)` on the current process; `newsz` is the result
    of `allocuvm` (for `n > 0`) or `deallocuvm` (for `n < 0`). -/
def growproc (p : proc) (n : Int) (newsz : Int) : proc × Int :=
  if n > 0 then
    if newsz = 0 then (p, -1) else ({ p with sz := newsz }, 0)
  else if n < 0 then
    if newsz = 0 then (p, -1) else ({ p with sz := newsz }, 0)
  else (p, 0)

/-! ## Process table -/

open procstate

/-- The search loop `for(p = ptable.proc; p < &ptable.proc[NPROC]; p++)` that
    leaves at the first record passing `test`: the index of that record. -/
def scan (test : proc → Bool) : List proc → Option Nat
  | [] => none
  | p :: ps => if test p then some 0 else (scan test ps).map (fun i => i + 1)

/-- Apply the assignments `f` to record `i` of the table. -/
def upd (t : List proc) (i : Nat) (f : proc → proc) : List proc :=
  match t[i]? with
  | some p => t.set i (f p)
  | none => t

/-- The assignments of `allocproc` after the label `found`; `kstack` is the
    result of `kalloc()`. -/
def allocproc_found (c : consts) (nextpid : Int) (kstack : Nat) (p : proc) : proc :=
  let p1 := { p with
    state := EMBRYO, pid := nextpid, vm := vm_init p.vm, mqmask := 0,
    slot := c.SLOT, priority := 10, shm := c.KERNBASE, shmkeymask := 0,
    kstack := kstack }
  if kstack = 0 then { p1 with state := UNUSED } else p1

/-- The function `allocproc()`: the new globals and the index of the record
    returned (`none` for the null pointer). -/
def allocproc (c : consts) (k : kernel) (kstack : Nat) : kernel × Option Nat :=
  match scan (fun p => p.state = UNUSED) k.ptable with
  | none => (k, none)
  | some i =>
    ({ k with
        ptable := upd k.ptable i (allocproc_found c k.nextpid kstack),
        nextpid := k.nextpid + 1 },
      if kstack = 0 then none else some i)

/-- The assignments of `fork()` on the new record `q` when `copyuvm` fails. -/
def fork_undo (q : proc) : proc :=
  { q with pgdir := 0, kstack := 0, state := UNUSED }

/-- The assignments of `fork()` on the new record `q`; `pr` is the record of
    the caller, at index `cur`. -/
def fork_child (pr : proc) (cur pgdir : Nat) (q : proc) : proc :=
  { q with
    pgdir := pgdir, shm := pr.shm, shmkeymask := pr.shmkeymask, sz := pr.sz,
    parent := Ptr.proc cur, tf := { pr.tf with eax := 0 },
    mqmask := pr.mqmask, state := RUNNABLE }

/-- The function `fork()` called by the process at index `cur`; `kstack` and
    `pgdir` are the results of `kalloc()` and `copyuvm()`. -/
def fork (c : consts) (k : kernel) (cur kstack pgdir : Nat) : Option (kernel × Int) :=
  match allocproc c k kstack with
  | (k1, none) => some (k1, -1)
  | (k1, some np) =>
    match k1.ptable[cur]?, k1.ptable[np]? with
    | some pr, some q =>
      if pgdir = 0 then
        some ({ k1 with ptable := k1.ptable.set np (fork_undo q) }, -1)
      else
        some ({ k1 with ptable := k1.ptable.set np (fork_child pr cur pgdir q) }, q.pid)
    | _, _ => none

/-- The assignments of `clone()` on the new record `q`; `pr` is the record of
    the caller, at index `cur`. -/
def clone_child (pr : proc) (cur : Nat) (fcn : Int) (stack : Nat) (q : proc) : proc :=
  let sp : Int := (stack : Int) + 4096 - 8
  { q with
    pgdir := pr.pgdir, sz := pr.sz, pthread := Ptr.proc cur, ustack := stack,
    parent := Ptr.null,
    tf := { pr.tf with eip := fcn, esp := sp, ebp := sp, eax := 0 },
    state := RUNNABLE }

/-- The function `clone(fcn, arg, stack)` called by the process at index `cur`. -/
def clone (c : consts) (k : kernel) (cur kstack : Nat) (fcn : Int) (stack : Nat) :
    Option (kernel × Int) :=
  match allocproc c k kstack with
  | (k1, none) => some (k1, -1)
  | (k1, some np) =>
    match k1.ptable[cur]?, k1.ptable[np]? with
    | some pr, some q =>
      some ({ k1 with ptable := k1.ptable.set np (clone_child pr cur fcn stack q) }, q.pid)
    | _, _ => none

/-- The assignments of `sleep(chan, lk)` on the calling record before `sched()`. -/
def sleep_enter (chan : Ptr) (q : proc) : proc :=
  { q with chan := chan, state := SLEEPING }

/-- The function `wakeup1(chan)`. -/
def wakeup1 (chan : Ptr) : List proc → List proc
  | [] => []
  | p :: ps =>
    (if p.state = SLEEPING ∧ p.chan = chan then { p with state := RUNNABLE } else p)
      :: wakeup1 chan ps

/-- The function `wakeup(chan)`. -/
def wakeup (k : kernel) (chan : Ptr) : kernel :=
  { k with ptable := wakeup1 chan k.ptable }

/-- The function `wakeup1p(chan)`: only the first sleeper on `chan` is woken. -/
def wakeup1p (k : kernel) (chan : Ptr) : kernel :=
  match scan (fun p => p.state = SLEEPING ∧ p.chan = chan) k.ptable with
  | some i => { k with ptable := upd k.ptable i (fun p => { p with state := RUNNABLE }) }
  | none => k

/-- The reparenting loop of `exit()`, from index `i`, for `fuel` records. -/
def exit_loop (cur init : Ptr) : Nat → Nat → List proc → List proc
  | 0, _, t => t
  | fuel + 1, i, t =>
    match t[i]? with
    | none => t
    | some p =>
      if p.parent = cur then
        let t1 := t.set i { p with parent := init }
        exit_loop cur init fuel (i + 1) (if p.state = ZOMBIE then wakeup1 init t1 else t1)
      else exit_loop cur init fuel (i + 1) t

/-- The locked section of `exit()` called by the process at index `cur`;
    `none` is `panic("init exiting")` or a caller outside the table. -/
def exit (k : kernel) (cur : Nat) : Option kernel :=
  if Ptr.proc cur = k.initproc then none
  else
    match k.ptable[cur]? with
    | none => none
    | some pr =>
      let t1 := wakeup1 pr.parent k.ptable
      let t2 := exit_loop (Ptr.proc cur) k.initproc t1.length 0 t1
      some { k with ptable := upd t2 cur (fun q => { q with state := ZOMBIE }) }

/-- The assignments of `wait()` on the zombie child it found. -/
def wait_reap (p : proc) : proc :=
  { p with kstack := 0, mqmask := 0, pid := 0, parent := Ptr.null, killed := 0,
           state := UNUSED }

/-- One scan of `wait()` called by the process at index `cur`: the new
    globals and the value returned, `none` when the caller goes to
    `sleep(proc, &ptable.lock)` instead of returning.  The scan leaves at
    the first record with `parent == proc` in state ZOMBIE; when there is
    none it has visited the whole table and `havekids` is set exactly if
    some record has `parent == proc`. -/
def wait (k : kernel) (cur : Nat) : Option (kernel × Option Int) :=
  match k.ptable[cur]? with
  | none => none
  | some pr =>
    match scan (fun p => p.parent = Ptr.proc cur ∧ p.state = ZOMBIE) k.ptable with
    | some i =>
      match k.ptable[i]? with
      | some ch => some ({ k with ptable := k.ptable.set i (wait_reap ch) }, some ch.pid)
      | none => none
    | none =>
      if (¬ k.ptable.any (fun p => p.parent = Ptr.proc cur)) ∨ pr.killed ≠ 0 then
        some (k, some (-1))
      else
        some ({ k with ptable := upd k.ptable cur (sleep_enter (Ptr.proc cur)) }, none)

/-- The assignments of `join()` on the zombie thread it found. -/
def join_reap (p : proc) : proc :=
  { p with kstack := 0, state := UNUSED, pid := 0, parent := Ptr.null,
           pthread := Ptr.null, killed := 0 }

/-- One scan of `join(stack)` called by the process at index `cur`: the new
    globals, the value returned (`none` when the caller goes to sleep) and
    the value stored through `stack`, if any.  As in `wait`, `havekids` is
    set exactly if some record has `pthread == curproc`. -/
def join (k : kernel) (cur : Nat) : Option (kernel × Option Int × Option Nat) :=
  match k.ptable[cur]? with
  | none => none
  | some pr =>
    match scan (fun p => p.pthread = Ptr.proc cur ∧ p.state = ZOMBIE) k.ptable with
    | some i =>
      match k.ptable[i]? with
      | some th =>
        some ({ k with ptable := k.ptable.set i (join_reap th) }, some th.pid, some th.ustack)
      | none => none
    | none =>
      if (¬ k.ptable.any (fun p => p.pthread = Ptr.proc cur)) ∨ pr.killed ≠ 0 then
        some (k, some (-1), none)
      else
        some ({ k with ptable := upd k.ptable cur (sleep_enter (Ptr.proc cur)) }, none, none)

/-- The assignments of `kill()` on the record it found. -/
def kill_found (p : proc) : proc :=
  let p1 := { p with killed := 1 }
  if p1.state = SLEEPING then { p1 with state := RUNNABLE } else p1

/-- The function `kill(pid)`: the new globals and the value returned. -/
def kill (k : kernel) (pid : Int) : kernel × Int :=
  match scan (fun p => p.pid = pid) k.ptable with
  | some i => ({ k with ptable := upd k.ptable i kill_found }, 0)
  | none => (k, -1)

/-- The function `chpri(pid, priority)`: the new globals and the value returned. -/
def chpri (k : kernel) (pid priority : Int) : kernel × Int :=
  match scan (fun p => p.pid = pid) k.ptable with
  | some i => ({ k with ptable := upd k.ptable i (fun p => { p with priority := priority }) }, pid)
  | none => (k, pid)

/-! ## Scheduler -/

/-- First loop of a scheduler round: `priority` after the scan over `temp`. -/
def sched_min (t : List proc) : Int :=
  t.foldl (fun priority temp =>
    if temp.state = RUNNABLE ∧ temp.priority < priority then temp.priority else priority) 19

/-- Second loop of a scheduler round over the records from index `i` on with
    the current value of `priority`: the indices switched to `RUNNING`, in
    the order they are run, and the records afterwards.  `swtch i p` is the
    record of process `i` when it hands the processor back. -/
def sched_pass (swtch : Nat → proc → proc) : Nat → Int → List proc → List Nat × List proc
  | _, _, [] => ([], [])
  | i, priority, p :: ps =>
    if p.state ≠ RUNNABLE then
      let r := sched_pass swtch (i + 1) priority ps
      (r.1, p :: r.2)
    else if p.priority > priority then
      let r := sched_pass swtch (i + 1) priority ps
      (r.1, p :: r.2)
    else
      let r := sched_pass swtch (i + 1) p.priority ps
      (i :: r.1, swtch i { p with state := RUNNING } :: r.2)

/-- One iteration of the `for(;;)` of `scheduler()`. -/
def scheduler_round (swtch : Nat → proc → proc) (t : List proc) : List Nat × List proc :=
  sched_pass swtch 0 (sched_min t) t

/-! ## Sequences of table operations -/

/-- A call of one of the table operations; `cur` is the index of the calling
    process, `kstack` and `pgdir` the results of `kalloc()` and `copyuvm()`. -/
inductive Op where
  | allocproc (kstack : Nat)
  | fork (cur kstack pgdir : Nat)
  | clone (cur kstack : Nat) (fcn : Int) (stack : Nat)
  | exit (cur : Nat)
  | wait (cur : Nat)
  | join (cur : Nat)
  | kill (pid : Int)
  | chpri (pid priority : Int)
  | wakeup (chan : Ptr)
deriving DecidableEq, Repr

/-- The record at index `cur` is a process (its state is not `UNUSED`). -/
def live (k : kernel) (cur : Nat) : Bool :=
  match k.ptable[cur]? with
  | some p => p.state ≠ UNUSED
  | none => false

/-- One table operation: the new globals and the pid handed out by a
    successful allocation, if any.  A caller must be a process; `none` is
    a step that cannot be taken or that panics. -/
def step (c : consts) (k : kernel) : Op → Option (kernel × Option Int)
  | Op.allocproc kstack =>
    match allocproc c k kstack with
    | (k1, some _) => some (k1, some k.nextpid)
    | (k1, none) => some (k1, none)
  | Op.fork cur kstack pgdir =>
    if live k cur then
      (fork c k cur kstack pgdir).map (fun r => (r.1, if r.2 = -1 then none else some r.2))
    else none
  | Op.clone cur kstack fcn stack =>
    if live k cur then
      (clone c k cur kstack fcn stack).map (fun r => (r.1, if r.2 = -1 then none else some r.2))
    else none
  | Op.exit cur => if live k cur then (exit k cur).map (fun k1 => (k1, none)) else none
  | Op.wait cur => if live k cur then (wait k cur).map (fun r => (r.1, none)) else none
  | Op.join cur => if live k cur then (join k cur).map (fun r => (r.1, none)) else none
  | Op.kill pid => some ((kill k pid).1, none)
  | Op.chpri pid priority => some ((chpri k pid priority).1, none)
  | Op.wakeup chan => some (wakeup k chan, none)

/-- Run a sequence of table operations: the globals after the last one and
    the pids handed out, oldest first. -/
def run (c : consts) : kernel → List Op → Option (kernel × List Int)
  | k, [] => some (k, [])
  | k, op :: ops =>
    match step c k op with
    | none => none
    | some (k1, r) => (run c k1 ops).map (fun x => (x.1, r.toList ++ x.2))


/-! ## Specification predicates for the heap directory -/

/-- Following `next` from record `p` visits exactly the records `l`, none of
    them the sentinel, and then reaches the terminator `0`. -/
def seg (vm : List vma) : Nat → List Nat → Prop
  | p, [] => ∃ v, vm[p]? = some v ∧ v.next = 0
  | p, i :: l => i ≠ 0 ∧ (∃ v, vm[p]? = some v ∧ v.next = (i : Int)) ∧ seg vm i l

/-- The records `l`, in this order, have positive lengths, start at or above
    `lo`, and each starts at or above the end of the one before. -/
def ordered (vm : List vma) : Int → List Nat → Prop
  | _, [] => True
  | lo, i :: l =>
    ∃ v, vm[i]? = some v ∧ lo ≤ v.address ∧ 0 < v.length ∧ ordered vm (v.address + v.length) l

/-- Structural well-formedness of a heap directory whose allocated records are
    `l`: ten records, the list from the sentinel is `l`, and a record other
    than the sentinel is free (`next = -1`) exactly when it is not in `l`. -/
structure WF (vm : List vma) (l : List Nat) : Prop where
  len : vm.length = NVMA
  chain : seg vm 0 l
  free : ∀ j v, 1 ≤ j → vm[j]? = some v → (v.next = -1 ↔ j ∉ l)


/-- Record `j` passes the test of the loop of `myreduceproc(a)`: its address
    is `a` and its length is positive. -/
def hit (vm : List vma) (a : Int) (j : Nat) : Prop :=
  ∃ v, vm[j]? = some v ∧ v.address = a ∧ 0 < v.length

/-- The directory after `myreduceproc` has unlinked record `j` (content `vj`)
    from its predecessor `prev` (content `vq`). -/
def unlinked (vm : List vma) (prev : Nat) (vq : vma) (j : Nat) (vj : vma) : List vma :=
  (vm.set prev { vq with next := vj.next }).set j { vj with next := -1, length := 0 }

/-- Invariant of the heap directory of `p` with allocated records `l`: it is
    well formed and its records are in address order above `p.sz`. -/
def HeapInv (p : proc) (l : List Nat) : Prop :=
  WF p.vm l ∧ ordered p.vm p.sz l

/-- The `(address, length)` pair of record `i`, as `allocs` reads it. -/
def pairAt (vm : List vma) (i : Nat) : Int × Int :=
  match vm[i]? with
  | some v => (v.address, v.length)
  | none => (0, 0)


/-! ## Specification predicates for the process table -/

/-- Indices, ascending from `i`, of the records that pass `test`. -/
def idxs (test : proc → Bool) : Nat → List proc → List Nat
  | _, [] => []
  | i, p :: ps => if test p then i :: idxs test (i + 1) ps else idxs test (i + 1) ps

/-- Tables `t` and `t2` have the same length and their records at equal
    indices are related by `R`. -/
def PW (R : proc → proc → Prop) (t t2 : List proc) : Prop :=
  t2.length = t.length ∧
  ∀ (i : Nat) (p : proc), t[i]? = some p → ∃ q, t2[i]? = some q ∧ R p q

/-- The record `q` is in use only if `p` was, with the same pid. -/
def keeps (p q : proc) : Prop :=
  q.state ≠ UNUSED → p.state ≠ UNUSED ∧ q.pid = p.pid

/-- The record `q` has the pid of `p` and is in use exactly if `p` is. -/
def same (p q : proc) : Prop :=
  q.pid = p.pid ∧ (q.state = UNUSED ↔ p.state = UNUSED)

/-- Pid invariant of the table: `nextpid` is positive, every record in use has
    a positive pid below `nextpid`, and two distinct records in use have
    distinct pids. -/
def PidInv (k : kernel) : Prop :=
  0 < k.nextpid ∧
  (∀ (i : Nat) (p : proc), k.ptable[i]? = some p → p.state ≠ UNUSED →
    0 < p.pid ∧ p.pid < k.nextpid) ∧
  (∀ (i j : Nat) (p q : proc), i ≠ j → k.ptable[i]? = some p → k.ptable[j]? = some q →
    p.state ≠ UNUSED → q.state ≠ UNUSED → p.pid ≠ q.pid)


/-- The records `l`, in this order, have lengths that are not negative and
    each ends at or below the start of every later one. -/
def sortedNN (vm : List vma) : List Nat → Prop
  | [] => True
  | j :: l =>
    (∀ vj, vm[j]? = some vj → 0 ≤ vj.length ∧
      ∀ q ∈ l, ∀ vq, vm[q]? = some vq → vj.address + vj.length ≤ vq.address) ∧
    sortedNN vm l

/-- The record `p` with its `parent` and `state` fields replaced. -/
def setPS (p : proc) (parent : Ptr) (state : procstate) : proc :=
  { p with parent := parent, state := state }

/-- Some record of the table has `parent` equal to record `cur` and is ZOMBIE. -/
def zombie_child (cur : Nat) (t : List proc) : Bool :=
  t.any (fun p => p.parent = Ptr.proc cur ∧ p.state = ZOMBIE)


/-- The record `p` with state UNUSED, pid 0, parent and pthread null, killed 0
    and kstack 0, all other fields as in `p`. -/
def setReaped (p : proc) : proc :=
  { p with state := UNUSED, pid := 0, parent := Ptr.null, pthread := Ptr.null, killed := 0, kstack := 0 }

/-! ## Concrete records used to exercise the definitions -/

/-- A zero-filled record, as the table holds before first use. -/
def blank : proc :=
  { sz := 0, pgdir := 0, kstack := 0, state := UNUSED, pid := 0, parent := Ptr.null,
    tf := ⟨0, 0, 0, 0⟩, chan := Ptr.null, killed := 0, priority := 0, slot := 0,
    vm := List.replicate 10 ⟨0, 0, 0⟩, shm := 0, shmkeymask := 0, mqmask := 0,
    pthread := Ptr.null, ustack := 0 }

/-- Header constants as in stock xv6 (`KERNBASE = 0x80000000`), `SLOT = 5`. -/
def exConsts : consts := ⟨5, 2147483648⟩

/-- A process as `allocproc` hands it out, with one page of memory (`sz = 4096`). -/
def exProc : proc :=
  { allocproc_found exConsts 1 1 blank with sz := 4096 }

/-- The process `exProc` after allocating 10, 20 and 5 bytes. -/
def exProc3 : proc :=
  match runHeap exProc [HeapOp.grow 10, HeapOp.grow 20, HeapOp.grow 5] with
  | some (p, _) => p
  | none => exProc

/-- A runnable process with the given pid and priority. -/
def mkRunnable (pid priority : Int) : proc :=
  { blank with state := RUNNABLE, pid := pid, priority := priority, kstack := 1 }

/-- The process returns to the scheduler through `yield()`. -/
def yields (_ : Nat) (p : proc) : proc :=
  { p with state := RUNNABLE }

/-- A table holding one running process (pid 1) and one slot never used. -/
def exTable : kernel :=
  { ptable := [{ blank with state := RUNNING, pid := 1, priority := 10, kstack := 1 }, blank],
    nextpid := 2, initproc := Ptr.proc 0 }

/-- A table of four records never used, with `nextpid = 1`. -/
def exBoot : kernel :=
  { ptable := [blank, blank, blank, blank], nextpid := 1, initproc := Ptr.null }

/-- A sequence of table operations run from `exBoot`. -/
def exOps : List Op :=
  [Op.allocproc 1, Op.fork 0 2 3, Op.fork 0 4 0, Op.fork 1 5 6, Op.exit 1, Op.wait 0,
   Op.kill 0, Op.chpri 4 3, Op.wakeup (Ptr.proc 0), Op.clone 0 6 64 8192, Op.join 0]

/-- The globals after running `exOps` from `exBoot`. -/
def exAfter : kernel :=
  match run exConsts exBoot exOps with
  | some r => r.1
  | none => exBoot


/-- A table in which the process at index 2 (parent: index 1) has a zombie
    child at index 3, while the init process (index 0) and the process at
    index 4 both sleep on channel `initproc`. -/
def exExit : kernel :=
  { ptable :=
      [{ blank with state := SLEEPING, pid := 1, chan := Ptr.proc 0, kstack := 1 },
       { blank with state := SLEEPING, pid := 2, parent := Ptr.proc 0, chan := Ptr.proc 1, kstack := 1 },
       { blank with state := RUNNING, pid := 3, parent := Ptr.proc 1, kstack := 1 },
       { blank with state := ZOMBIE, pid := 4, parent := Ptr.proc 2, kstack := 1 },
       { blank with state := SLEEPING, pid := 5, parent := Ptr.proc 0, chan := Ptr.proc 0, kstack := 1 }],
    nextpid := 6, initproc := Ptr.proc 0 }

/-- A table holding the init process (index 0), a running process (index 1)
    and one slot never used. -/
def exThreads : kernel :=
  { ptable :=
      [{ blank with state := RUNNABLE, pid := 1, kstack := 1 },
       { blank with state := RUNNING, pid := 2, parent := Ptr.proc 0, kstack := 1 },
       blank],
    nextpid := 3, initproc := Ptr.proc 0 }

/-- A running process (pid 2) whose `killed` flag is set. -/
def exKilled : proc :=
  { blank with state := RUNNING, pid := 2, parent := Ptr.proc 0, killed := 1, kstack := 1 }

/-- A zombie thread (pid 3) created by the process at index 1. -/
def exThread : proc :=
  { blank with state := ZOMBIE, pid := 3, pthread := Ptr.proc 1, ustack := 8192, kstack := 7 }

/-- A table in which the process at index 1 has its `killed` flag set and
    its thread at index 2 is a zombie. -/
def exJoin : kernel :=
  { ptable :=
      [{ blank with state := RUNNABLE, pid := 1, kstack := 1 },
       exKilled,
       exThread],
    nextpid := 4, initproc := Ptr.proc 0 }

/-- The globals after `fork` by the process at index 0 of `exTable`. -/
def exForked : kernel :=
  match fork exConsts exTable 0 7 3 with
  | some r => r.1
  | none => exTable

/-- The globals after `exit` by the child at index 1 of `exForked`. -/
def exExited : kernel :=
  match exit exForked 1 with
  | some k => k
  | none => exForked


/-- The process `exProc` after `mygrowproc(10)`, `growproc(10)` (which moves
    `sz` to 4106) and `mygrowproc(-10)`. -/
def exProcNeg : proc :=
  match runHeap exProc [HeapOp.grow 10] with
  | some (p, _) =>
    match runHeap (growproc p 10 4106).1 [HeapOp.grow (-10)] with
    | some (q, _) => q
    | none => exProc
  | none => exProc


/-! ## Lemmas on the heap directory -/

theorem vmAt_cast (vm : List vma) (i : Nat) : vmAt vm (i : Int) = vm[i]? := by
  simp [vmAt]

theorem vmAt_zero (vm : List vma) : vmAt vm 0 = vm[0]? := by
  simp [vmAt]

theorem seg_congr {vm vm2 : List vma} :
    ∀ (l : List Nat) (p : Nat), (∀ j ∈ p :: l, ∀ v, vm[j]? = some v →
      ∃ w, vm2[j]? = some w ∧ w.next = v.next) → seg vm p l → seg vm2 p l := by
  intro l
  induction l with
  | nil =>
    intro p h hs
    obtain ⟨v, hv, hn⟩ := hs
    obtain ⟨w, hw, hwn⟩ := h p (by simp) v hv
    exact ⟨w, hw, by rw [hwn, hn]⟩
  | cons i l ih =>
    intro p h hs
    obtain ⟨hi, ⟨v, hv, hn⟩, hrest⟩ := hs
    obtain ⟨w, hw, hwn⟩ := h p (by simp) v hv
    refine ⟨hi, ⟨w, hw, by rw [hwn, hn]⟩, ih i ?_ hrest⟩
    intro j hj
    exact h j (List.mem_cons_of_mem _ hj)

theorem ordered_congr {vm vm2 : List vma} :
    ∀ (l : List Nat) (lo : Int), (∀ j ∈ l, ∀ v, vm[j]? = some v →
      ∃ w, vm2[j]? = some w ∧ w.address = v.address ∧ w.length = v.length) →
      ordered vm lo l → ordered vm2 lo l := by
  intro l
  induction l with
  | nil => intro lo _ _; trivial
  | cons i l ih =>
    intro lo h ho
    obtain ⟨v, hv, h1, h2, h3⟩ := ho
    obtain ⟨w, hw, hwa, hwl⟩ := h i (by simp) v hv
    refine ⟨w, hw, by omega, by omega, ?_⟩
    rw [hwa, hwl]
    exact ih _ (fun j hj => h j (List.mem_cons_of_mem _ hj)) h3

theorem ordered_mono {vm : List vma} :
    ∀ (l : List Nat) (lo lo2 : Int), lo2 ≤ lo → ordered vm lo l → ordered vm lo2 l := by
  intro l
  cases l with
  | nil => intro _ _ _ _; trivial
  | cons i l =>
    intro lo lo2 h ho
    obtain ⟨v, hv, h1, h2, h3⟩ := ho
    exact ⟨v, hv, by omega, h2, h3⟩

theorem seg_det {vm : List vma} :
    ∀ (l1 l2 : List Nat) (p : Nat), seg vm p l1 → seg vm p l2 → l1 = l2 := by
  intro l1
  induction l1 with
  | nil =>
    intro l2 p h1 h2
    cases l2 with
    | nil => rfl
    | cons i l2 =>
      obtain ⟨v, hv, hn⟩ := h1
      obtain ⟨hi, ⟨w, hw, hwn⟩, _⟩ := h2
      rw [hv] at hw
      cases hw
      omega
  | cons i l1 ih =>
    intro l2 p h1 h2
    obtain ⟨hi, ⟨v, hv, hn⟩, hrest⟩ := h1
    cases l2 with
    | nil =>
      obtain ⟨w, hw, hwn⟩ := h2
      rw [hv] at hw
      cases hw
      omega
    | cons j l2 =>
      obtain ⟨hj, ⟨w, hw, hwn⟩, hrest2⟩ := h2
      rw [hv] at hw
      cases hw
      have hij : i = j := by omega
      subst hij
      rw [ih l2 i hrest hrest2]

theorem seg_tail {vm : List vma} :
    ∀ (a : List Nat) (p i : Nat) (b : List Nat), seg vm p (a ++ i :: b) → seg vm i b := by
  intro a
  induction a with
  | nil => intro p i b h; exact h.2.2
  | cons x a ih => intro p i b h; exact ih x i b h.2.2

theorem seg_not_mem {vm : List vma} (p : Nat) (l : List Nat) (h : seg vm p l) : p ∉ l := by
  intro hp
  obtain ⟨a, b, hab⟩ := List.append_of_mem hp
  have h2 : seg vm p b := by
    rw [hab] at h
    exact seg_tail a p p b h
  have := seg_det l b p h h2
  rw [hab] at this
  have hl := congrArg List.length this
  simp at hl
  omega

theorem seg_nodup {vm : List vma} :
    ∀ (l : List Nat) (p : Nat), seg vm p l → (p :: l).Nodup := by
  intro l
  induction l with
  | nil => intro p _; simp
  | cons i l ih =>
    intro p h
    exact List.nodup_cons.2 ⟨seg_not_mem p _ h, ih i h.2.2⟩

theorem seg_mem_lt {vm : List vma} :
    ∀ (l : List Nat) (p : Nat), seg vm p l → ∀ j ∈ p :: l, j < vm.length := by
  intro l
  induction l with
  | nil =>
    intro p h j hj
    obtain ⟨v, hv, _⟩ := h
    simp at hj
    subst hj
    exact (List.getElem?_eq_some.1 hv).1
  | cons i l ih =>
    intro p h j hj
    obtain ⟨_, ⟨v, hv, _⟩, hrest⟩ := h
    rcases List.mem_cons.1 hj with hj | hj
    · subst hj
      exact (List.getElem?_eq_some.1 hv).1
    · exact ih i hrest j hj

theorem seg_ne_zero {vm : List vma} :
    ∀ (l : List Nat) (p : Nat), seg vm p l → ∀ j ∈ l, j ≠ 0 := by
  intro l
  induction l with
  | nil => intro p _ j hj; simp at hj
  | cons i l ih =>
    intro p h j hj
    rcases List.mem_cons.1 hj with hj | hj
    · subst hj; exact h.1
    · exact ih i h.2.2 j hj

theorem seg_head {vm : List vma} {p : Nat} {l : List Nat} (h : seg vm p l) :
    ∃ v, vm[p]? = some v := by
  cases l with
  | nil => obtain ⟨v, hv, _⟩ := h; exact ⟨v, hv⟩
  | cons i l => obtain ⟨_, ⟨v, hv, _⟩, _⟩ := h; exact ⟨v, hv⟩

theorem walk_of_seg {vm : List vma} :
    ∀ (l : List Nat) (p fuel : Nat) (vp : vma), seg vm p l → l.length < fuel →
      vm[p]? = some vp → walk vm fuel vp.next = some l := by
  intro l
  induction l with
  | nil =>
    intro p fuel vp h hf hp
    obtain ⟨v, hv, hn⟩ := h
    rw [hp] at hv
    cases hv
    cases fuel with
    | zero => simp at hf
    | succ f => simp [walk, hn]
  | cons i l ih =>
    intro p fuel vp h hf hp
    obtain ⟨hi, ⟨v, hv, hn⟩, hrest⟩ := h
    rw [hp] at hv
    cases hv
    obtain ⟨vi, hvi⟩ := seg_head hrest
    cases fuel with
    | zero => simp at hf
    | succ f =>
      have hf2 : l.length < f := by simp at hf; omega
      have hne : ¬ ((i : Int) = 0) := by omega
      simp [walk, hn, hne, vmAt_cast, hvi, ih i f vi hrest hf2 hvi]

theorem seg_of_walk {vm : List vma} :
    ∀ (fuel : Nat) (index : Int) (l : List Nat) (p : Nat) (vp : vma),
      walk vm fuel index = some l → vm[p]? = some vp → vp.next = index → seg vm p l := by
  intro fuel
  induction fuel with
  | zero => intro index l p vp h; simp [walk] at h
  | succ f ih =>
    intro index l p vp h hp hn
    unfold walk at h
    by_cases h0 : index = 0
    · simp [h0] at h
      subst h
      exact ⟨vp, hp, by rw [hn, h0]⟩
    · simp only [h0, if_false] at h
      cases hv : vmAt vm index with
      | none => simp [hv] at h
      | some v =>
        simp only [hv, Option.map_eq_some'] at h
        obtain ⟨l2, hl2, hl⟩ := h
        subst hl
        have hnn : 0 ≤ index := by
          by_contra hneg
          simp [vmAt, hneg] at hv
        have hc : ((index.toNat : Nat) : Int) = index := Int.toNat_of_nonneg hnn
        have hv2 : vm[index.toNat]? = some v := by
          simpa [vmAt, hnn] using hv
        refine ⟨by omega, ⟨vp, hp, by rw [hn, hc]⟩, ih v.next l2 index.toNat v hl2 hv2 rfl⟩

theorem findFree_some {vm : List vma} :
    ∀ (fuel i r : Nat), findFree vm fuel i = some r →
      i ≤ r ∧ r < i + fuel ∧ ∃ v, vm[r]? = some v ∧ v.next = -1 := by
  intro fuel
  induction fuel with
  | zero => intro i r h; simp [findFree] at h
  | succ f ih =>
    intro i r h
    unfold findFree at h
    cases hv : vm[i]? with
    | none => simp [hv] at h
    | some v =>
      simp only [hv] at h
      by_cases hn : v.next = -1
      · simp [hn] at h
        subst h
        exact ⟨le_refl _, by omega, v, hv, hn⟩
      · simp only [hn, if_false] at h
        obtain ⟨h1, h2, h3⟩ := ih (i + 1) r h
        exact ⟨by omega, by omega, h3⟩

theorem findFree_none {vm : List vma} :
    ∀ (fuel i : Nat), i + fuel ≤ vm.length → findFree vm fuel i = none →
      ∀ j v, i ≤ j → j < i + fuel → vm[j]? = some v → v.next ≠ -1 := by
  intro fuel
  induction fuel with
  | zero => intro i _ _ j v h1 h2; omega
  | succ f ih =>
    intro i hlen h j v h1 h2 hj
    unfold findFree at h
    cases hv : vm[i]? with
    | none =>
      have := List.getElem?_eq_none_iff.1 hv
      omega
    | some w =>
      simp only [hv] at h
      by_cases hn : w.next = -1
      · simp [hn] at h
      · simp only [hn, if_false] at h
        by_cases hij : j = i
        · subst hij
          rw [hv] at hj
          cases hj
          exact hn
        · exact ih (i + 1) (by omega) h j v (by omega) (by omega) hj

theorem set2_at_new {vm : List vma} {i prev : Nat} (a b : vma) (hi : i < vm.length)
    (hne : prev ≠ i) : ((vm.set i a).set prev b)[i]? = some a := by
  simp [List.getElem?_set, hne, hi]

theorem set2_at_prev {vm : List vma} {i prev : Nat} (a b : vma) (hp : prev < vm.length) :
    ((vm.set i a).set prev b)[prev]? = some b := by
  simp [List.getElem?_set, hp]

theorem set2_other {vm : List vma} {i prev x : Nat} (a b : vma) (h1 : x ≠ i)
    (h2 : x ≠ prev) : ((vm.set i a).set prev b)[x]? = vm[x]? := by
  simp [List.getElem?_set, Ne.symm h1, Ne.symm h2]

theorem growWalk_spec {vm : List vma} (n : Int) (i : Nat) (hi : i < vm.length) (hi0 : i ≠ 0) :
    ∀ (l : List Nat) (p : Nat) (start : Int) (fuel : Nat) (vp : vma),
      l.length < fuel → seg vm p l → i ∉ p :: l → vm[p]? = some vp →
      ∃ (index start2 : Int) (prev : Nat) (vq : vma) (l1 l2 : List Nat),
        growWalk vm n fuel vp.next start (p : Int) = some (index, start2, (prev : Int)) ∧
        vm[prev]? = some vq ∧ prev ≠ i ∧ prev ∈ p :: l ∧ l = l1 ++ l2 ∧
        index = ((l2.headD 0 : Nat) : Int) ∧ (p :: l1).getLast? = some prev ∧
        seg ((vm.set i ⟨index, start2, n⟩).set prev { vq with next := (i : Int) }) p
          (l1 ++ i :: l2) ∧
        (0 < n → ordered vm start l →
          ordered ((vm.set i ⟨index, start2, n⟩).set prev { vq with next := (i : Int) }) start
            (l1 ++ i :: l2)) := by
  intro l
  induction l with
  | nil =>
    intro p start fuel vp hf hs hni hp
    obtain ⟨v, hv, hn⟩ := hs
    rw [hp] at hv
    cases hv
    have hpi : p ≠ i := by
      intro h; apply hni; simp [h]
    have hpl : p < vm.length := (List.getElem?_eq_some.1 hp).1
    cases fuel with
    | zero => simp at hf
    | succ f =>
      refine ⟨0, start, p, vp, [], [], by simp [growWalk, hn], hp, hpi, by simp, rfl, rfl, rfl,
        ?_, ?_⟩
      · refine ⟨hi0, ⟨_, set2_at_prev _ _ hpl, rfl⟩, ⟨_, set2_at_new _ _ hi hpi, rfl⟩⟩
      · intro hn0 _
        exact ⟨_, set2_at_new _ _ hi hpi, le_refl _, hn0, trivial⟩
  | cons j l ih =>
    intro p start fuel vp hf hs hni hp
    have hpnot : p ∉ j :: l := seg_not_mem p _ hs
    obtain ⟨hj0, ⟨v, hv, hn⟩, hrest⟩ := hs
    rw [hp] at hv
    cases hv
    obtain ⟨vj, hvj⟩ := seg_head hrest
    have hpi : p ≠ i := by
      intro h; apply hni; simp [h]
    have hji : j ≠ i := by
      intro h; apply hni; simp [h]
    have hil : i ∉ l := by
      intro h; apply hni; simp [h]
    have hpj : p ≠ j := by
      intro h; apply hpnot; simp [h]
    have hpl2 : p ∉ l := by
      intro h; apply hpnot; simp [h]
    have hpl : p < vm.length := (List.getElem?_eq_some.1 hp).1
    cases fuel with
    | zero => simp at hf
    | succ f =>
      have hf2 : l.length < f := by simp at hf; omega
      have hne : ¬ ((j : Int) = 0) := by omega
      by_cases hbr : start + n < vj.address
      · -- the loop breaks in front of record j
        refine ⟨(j : Int), start, p, vp, [], j :: l,
          by simp [growWalk, hn, hne, vmAt_cast, hvj, hbr], hp, hpi, by simp, rfl, rfl, rfl,
          ?_, ?_⟩
        · refine ⟨hi0, ⟨_, set2_at_prev _ _ hpl, rfl⟩, hj0, ⟨_, set2_at_new _ _ hi hpi, rfl⟩, ?_⟩
          apply seg_congr l j _ hrest
          intro x hx w hw
          have hxi : x ≠ i := by
            intro h; subst h; exact hni (List.mem_cons_of_mem _ hx)
          have hxp : x ≠ p := by
            intro h; subst h; exact hpnot hx
          exact ⟨w, by rw [set2_other _ _ hxi hxp]; exact hw, rfl⟩
        · intro hn0 ho
          refine ⟨_, set2_at_new _ _ hi hpi, le_refl _, hn0, ?_⟩
          obtain ⟨v2, hv2, h1, h2, h3⟩ := ho
          rw [hvj] at hv2
          cases hv2
          have ho2 : ordered vm (start + n) (j :: l) := ⟨vj, hvj, by omega, h2, h3⟩
          apply ordered_congr (j :: l) _ _ ho2
          intro x hx w hw
          have hxi : x ≠ i := by
            intro h; subst h; exact hni (List.mem_cons_of_mem _ hx)
          have hxp : x ≠ p := by
            intro h; subst h; exact hpnot hx
          exact ⟨w, by rw [set2_other _ _ hxi hxp]; exact hw, rfl, rfl⟩
      · -- the loop moves on past record j
        obtain ⟨index, start2, prev, vq, l1, l2, hg, hq, hqi, hqm, hl, hidx, hlast, hseg, hord⟩ :=
          ih j (vj.address + vj.length) f vj hf2 hrest (by simp [Ne.symm hji, hil]) hvj
        have hpq : p ≠ prev := by
          intro h; subst h; exact hpnot hqm
        have hql : prev < vm.length := (List.getElem?_eq_some.1 hq).1
        refine ⟨index, start2, prev, vq, j :: l1, l2,
          by simp [growWalk, hn, hne, vmAt_cast, hvj, hbr, hg], hq, hqi,
          List.mem_cons_of_mem _ hqm, by simp [hl], hidx,
          by rw [List.getLast?_cons_cons]; exact hlast, ?_, ?_⟩
        · exact ⟨hj0, ⟨vp, by rw [set2_other _ _ hpi hpq]; exact hp, hn⟩, hseg⟩
        · intro hn0 ho
          obtain ⟨v2, hv2, h1, h2, h3⟩ := ho
          rw [hvj] at hv2
          cases hv2
          have hrec := hord hn0 h3
          by_cases hjq : j = prev
          · subst hjq
            rw [hvj] at hq
            cases hq
            exact ⟨_, set2_at_prev _ _ hql, h1, h2, hrec⟩
          · exact ⟨vj, by rw [set2_other _ _ hji hjq]; exact hvj, h1, h2, hrec⟩

theorem wf_nodup {vm : List vma} {l : List Nat} (h : WF vm l) : (0 :: l).Nodup :=
  seg_nodup l 0 h.chain

theorem wf_mem_range {vm : List vma} {l : List Nat} (h : WF vm l) :
    ∀ j ∈ l, 1 ≤ j ∧ j < NVMA := by
  intro j hj
  have h1 := seg_ne_zero l 0 h.chain j hj
  have h2 := seg_mem_lt l 0 h.chain j (List.mem_cons_of_mem _ hj)
  rw [h.len] at h2
  exact ⟨by omega, h2⟩

theorem wf_length {vm : List vma} {l : List Nat} (h : WF vm l) : l.length ≤ NVMA - 1 := by
  have hsub : (0 :: l) ⊆ List.range NVMA := by
    intro x hx
    have := seg_mem_lt l 0 h.chain x hx
    rw [h.len] at this
    exact List.mem_range.2 this
  have := (List.subperm_of_subset (wf_nodup h) hsub).length_le
  simp at this
  simp [NVMA] at *
  omega

theorem wf_nodes {vm : List vma} {l : List Nat} (h : WF vm l) : nodes vm = some l := by
  obtain ⟨v0, hv0⟩ := seg_head h.chain
  have hl := wf_length h
  unfold nodes
  rw [vmAt_zero, hv0]
  exact walk_of_seg l 0 WALKFUEL v0 h.chain (by simp [WALKFUEL, NVMA] at *; omega) hv0

theorem growWalk_total {vm : List vma} (n : Int) :
    ∀ (l : List Nat) (q : Nat) (start : Int) (fuel : Nat) (vq : vma),
      l.length < fuel → seg vm q l → vm[q]? = some vq →
      ∃ r, growWalk vm n fuel vq.next start (q : Int) = some r := by
  intro l
  induction l with
  | nil =>
    intro q start fuel vq hfu hs hq
    obtain ⟨v, hv, hn⟩ := hs
    rw [hq] at hv; cases hv
    cases fuel with
    | zero => simp at hfu
    | succ f => exact ⟨(0, start, (q : Int)), by simp [growWalk, hn]⟩
  | cons j l ih =>
    intro q start fuel vq hfu hs hq
    obtain ⟨hj0, ⟨v, hv, hn⟩, hrest⟩ := hs
    rw [hq] at hv; cases hv
    obtain ⟨vj, hvj⟩ := seg_head hrest
    cases fuel with
    | zero => simp at hfu
    | succ f =>
      have hne : ¬ ((j : Int) = 0) := by omega
      by_cases hbr : start + n < vj.address
      · exact ⟨((j : Int), start, (q : Int)), by simp [growWalk, hn, hne, vmAt_cast, hvj, hbr]⟩
      · obtain ⟨r, hr⟩ := ih j (vj.address + vj.length) f vj
          (by simp at hfu; omega) hrest hvj
        exact ⟨r, by simp [growWalk, hn, hne, vmAt_cast, hvj, hbr, hr]⟩

theorem mygrowproc_full {p : proc} {l : List Nat} (n : Int) (h : WF p.vm l)
    (hfull : findFree p.vm (NVMA - 1) 1 = none) : mygrowproc p n = some (p, 0) := by
  obtain ⟨v0, hv0⟩ := seg_head h.chain
  have hl := wf_length h
  cases hf : findFree p.vm (NVMA - 1) 1 with
  | some i => rw [hf] at hfull; cases hfull
  | none =>
    unfold mygrowproc
    rw [vmAt_zero, hv0]
    simp only [hf]
    have hterm : ∃ r, growWalk p.vm n WALKFUEL v0.next p.sz 0 = some r := by
      have := growWalk_total n l 0 p.sz WALKFUEL v0
        (by simp [WALKFUEL, NVMA] at *; omega) h.chain hv0
      simpa using this
    obtain ⟨⟨index, start, prev⟩, hr⟩ := hterm
    rw [hr]

theorem mygrowproc_free {p : proc} {l : List Nat} (n : Int) (h : WF p.vm l) {i : Nat}
    (hfree : findFree p.vm (NVMA - 1) 1 = some i) :
    ∃ (vm2 : List vma) (start : Int) (l1 l2 : List Nat),
      mygrowproc p n = some ({ p with vm := vm2 }, start) ∧ l = l1 ++ l2 ∧
      WF vm2 (l1 ++ i :: l2) ∧ i ∉ l ∧
      vm2[i]? = some ⟨((l2.headD 0 : Nat) : Int), start, n⟩ ∧
      (∀ x v, x ≠ i → p.vm[x]? = some v →
        ∃ w, vm2[x]? = some w ∧ w.address = v.address ∧ w.length = v.length) ∧
      (0 < n → ordered p.vm p.sz l → ordered vm2 p.sz (l1 ++ i :: l2)) := by
  obtain ⟨v0, hv0⟩ := seg_head h.chain
  have hl := wf_length h
  obtain ⟨hi1, hi2, vi, hvi, hvin⟩ := findFree_some _ _ _ hfree
  have hilt : i < p.vm.length := (List.getElem?_eq_some.1 hvi).1
  have hi0 : i ≠ 0 := by omega
  have hil : i ∉ l := ((h.free i vi hi1 hvi).1 hvin)
  have hni : i ∉ (0 :: l) := by
    intro hm
    rcases List.mem_cons.1 hm with hm | hm
    · exact hi0 hm
    · exact hil hm
  obtain ⟨index, start, prev, vq, l1, l2, hg, hq, hqi, hqm, hlsplit, hidx, _, hseg, hord⟩ :=
    growWalk_spec n i hilt hi0 l 0 p.sz WALKFUEL v0
      (by simp [WALKFUEL, NVMA] at *; omega) h.chain hni hv0
  have hql : prev < p.vm.length := (List.getElem?_eq_some.1 hq).1
  have hg2 : growWalk p.vm n WALKFUEL v0.next p.sz 0 = some (index, start, (prev : Int)) := by
    simpa using hg
  have hq2 : (p.vm.set i ⟨index, start, n⟩)[prev]? = some vq := by
    rw [List.getElem?_set_ne (Ne.symm hqi)]; exact hq
  refine ⟨(p.vm.set i ⟨index, start, n⟩).set prev { vq with next := (i : Int) }, start, l1, l2,
    ?_, hlsplit, ⟨?_, hseg, ?_⟩, hil, ?_, ?_, hord⟩
  · unfold mygrowproc
    rw [vmAt_zero, hv0]
    simp only [hg2, hfree, vmAt_cast, hq2, Int.toNat_ofNat]
  · simp [h.len]
  · intro x v hx hxv
    by_cases hxi : x = i
    · subst hxi
      rw [set2_at_new _ _ hilt hqi] at hxv
      cases hxv
      simp only [List.mem_append, List.mem_cons, true_or, or_true, not_true_eq_false, iff_false]
      rw [hidx]
      omega
    · by_cases hxq : x = prev
      · subst hxq
        rw [set2_at_prev _ _ hql] at hxv
        cases hxv
        have hxl : x ∈ l := by
          rcases List.mem_cons.1 hqm with hm | hm
          · omega
          · exact hm
        rw [hlsplit] at hxl
        have : x ∈ l1 ++ i :: l2 := by
          simp only [List.mem_append, List.mem_cons] at hxl ⊢
          tauto
        simp only [this, not_true_eq_false, iff_false]
        show ¬ ((i : Int) = -1)
        omega
      · rw [set2_other _ _ hxi hxq] at hxv
        rw [h.free x v hx hxv, hlsplit]
        simp only [List.mem_append, List.mem_cons, hxi, false_or]
  · rw [hidx]; exact set2_at_new _ _ hilt hqi
  · intro x v hxi hxv
    by_cases hxq : x = prev
    · subst hxq
      rw [hq] at hxv
      cases hxv
      exact ⟨_, set2_at_prev _ _ hql, rfl, rfl⟩
    · exact ⟨v, by rw [set2_other _ _ hxi hxq]; exact hxv, rfl, rfl⟩

theorem walk_length {vm : List vma} :
    ∀ (fuel : Nat) (index : Int) (l : List Nat), walk vm fuel index = some l →
      l.length < fuel := by
  intro fuel
  induction fuel with
  | zero => intro index l h; simp [walk] at h
  | succ f ih =>
    intro index l h
    unfold walk at h
    by_cases h0 : index = 0
    · simp [h0] at h
      subst h
      simp
    · simp only [h0, if_false] at h
      cases hv : vmAt vm index with
      | none => simp [hv] at h
      | some v =>
        simp only [hv, Option.map_eq_some'] at h
        obtain ⟨l2, hl2, hl⟩ := h
        subst hl
        have := ih _ _ hl2
        simp
        omega

theorem nodes_seg {vm : List vma} {l : List Nat} (h : nodes vm = some l) :
    seg vm 0 l ∧ l.length < WALKFUEL := by
  unfold nodes at h
  rw [vmAt_zero] at h
  cases hv : vm[0]? with
  | none => simp [hv] at h
  | some v0 =>
    simp only [hv] at h
    exact ⟨seg_of_walk _ _ _ 0 v0 h hv rfl, walk_length _ _ _ h⟩

theorem seg_nodes {vm : List vma} {l : List Nat} (h : seg vm 0 l) (hl : l.length < WALKFUEL) :
    nodes vm = some l := by
  obtain ⟨v0, hv0⟩ := seg_head h
  unfold nodes
  rw [vmAt_zero, hv0]
  exact walk_of_seg l 0 WALKFUEL v0 h hl hv0

theorem first_hit (vm : List vma) (a : Int) :
    ∀ (l : List Nat), (∀ j ∈ l, ¬ hit vm a j) ∨
      ∃ l1 j l2, l = l1 ++ j :: l2 ∧ (∀ x ∈ l1, ¬ hit vm a x) ∧ hit vm a j := by
  intro l
  induction l with
  | nil => left; intro j hj; simp at hj
  | cons x l ih =>
    by_cases hx : hit vm a x
    · right; exact ⟨[], x, l, rfl, by simp, hx⟩
    · rcases ih with h | ⟨l1, j, l2, hl, h1, h2⟩
      · left
        intro j hj
        rcases List.mem_cons.1 hj with hj | hj
        · subst hj; exact hx
        · exact h j hj
      · right
        refine ⟨x :: l1, j, l2, by simp [hl], ?_, h2⟩
        intro y hy
        rcases List.mem_cons.1 hy with hy | hy
        · subst hy; exact hx
        · exact h1 y hy

theorem reduceWalk_miss {vm : List vma} (a : Int) :
    ∀ (l : List Nat) (p fuel : Nat) (vp : vma), l.length < fuel → seg vm p l →
      vm[p]? = some vp → (∀ j ∈ l, ¬ hit vm a j) →
      reduceWalk vm a fuel vp.next (p : Int) = some vm := by
  intro l
  induction l with
  | nil =>
    intro p fuel vp hf hs hp _
    obtain ⟨v, hv, hn⟩ := hs
    rw [hp] at hv; cases hv
    cases fuel with
    | zero => simp at hf
    | succ f => simp [reduceWalk, hn]
  | cons j l ih =>
    intro p fuel vp hf hs hp hmiss
    obtain ⟨hj0, ⟨v, hv, hn⟩, hrest⟩ := hs
    rw [hp] at hv; cases hv
    obtain ⟨vj, hvj⟩ := seg_head hrest
    cases fuel with
    | zero => simp at hf
    | succ f =>
      have hne : ¬ ((j : Int) = 0) := by omega
      have hno : ¬ (vj.address = a ∧ vj.length > 0) := by
        intro hc
        exact hmiss j (by simp) ⟨vj, hvj, hc.1, hc.2⟩
      have hrec := ih j f vj (by simp at hf; omega) hrest hvj
        (fun x hx => hmiss x (List.mem_cons_of_mem _ hx))
      simp only [reduceWalk, hn, hne, if_false, vmAt_cast, hvj, hno]
      exact hrec

theorem reduceWalk_hit {vm : List vma} (a : Int) (j : Nat) (l2 : List Nat) (vj : vma)
    (hvj : vm[j]? = some vj) (ha : vj.address = a) (hlen : 0 < vj.length) :
    ∀ (l1 : List Nat) (p fuel : Nat) (vp : vma), (l1 ++ j :: l2).length < fuel →
      seg vm p (l1 ++ j :: l2) → vm[p]? = some vp → (∀ x ∈ l1, ¬ hit vm a x) →
      ∃ (prev : Nat) (vq : vma), (p :: l1).getLast? = some prev ∧ prev ∈ p :: l1 ∧
        vm[prev]? = some vq ∧ prev ≠ j ∧
        reduceWalk vm a fuel vp.next (p : Int) =
          some ((vm.set prev { vq with next := vj.next }).set j
            { vj with next := -1, length := 0 }) ∧
        seg ((vm.set prev { vq with next := vj.next }).set j
            { vj with next := -1, length := 0 }) p (l1 ++ l2) := by
  intro l1
  induction l1 with
  | nil =>
    intro p fuel vp hf hs hp _
    have hpnot : p ∉ j :: l2 := seg_not_mem p _ hs
    obtain ⟨hj0, ⟨v, hv, hn⟩, hrest⟩ := hs
    rw [hp] at hv; cases hv
    have hjnot : j ∉ l2 := seg_not_mem j _ hrest
    have hpj : p ≠ j := by
      intro h; apply hpnot; simp [h]
    have hpl : p < vm.length := (List.getElem?_eq_some.1 hp).1
    have hjl : j < vm.length := (List.getElem?_eq_some.1 hvj).1
    cases fuel with
    | zero => simp at hf
    | succ f =>
      have hne : ¬ ((j : Int) = 0) := by omega
      have hyes : vj.address = a ∧ vj.length > 0 := ⟨ha, hlen⟩
      have hj2 : (vm.set p { vp with next := vj.next })[j]? = some vj := by
        rw [List.getElem?_set_ne hpj]; exact hvj
      refine ⟨p, vp, rfl, by simp, hp, hpj, ?_, ?_⟩
      · simp only [List.nil_append, reduceWalk, hn, hne, if_false, vmAt_cast, hvj, hyes,
          and_self, if_true, hp, Int.toNat_ofNat, hj2]
      · have hpnew : ((vm.set p { vp with next := vj.next }).set j
            { vj with next := -1, length := 0 })[p]? = some { vp with next := vj.next } :=
          set2_at_new _ _ hpl (Ne.symm hpj)
        have hother : ∀ x ∈ l2, ((vm.set p { vp with next := vj.next }).set j
            { vj with next := -1, length := 0 })[x]? = vm[x]? := by
          intro x hx
          apply set2_other
          · intro h; subst h; exact hpnot (List.mem_cons_of_mem _ hx)
          · intro h; subst h; exact hjnot hx
        cases l2 with
        | nil =>
          obtain ⟨w, hw, hwn⟩ := hrest
          rw [hvj] at hw; cases hw
          exact ⟨_, hpnew, hwn⟩
        | cons k l2 =>
          obtain ⟨hk0, ⟨w, hw, hwn⟩, hrest2⟩ := hrest
          rw [hvj] at hw; cases hw
          refine ⟨hk0, ⟨_, hpnew, hwn⟩, ?_⟩
          apply seg_congr l2 k _ hrest2
          intro x hx w2 hw2
          exact ⟨w2, by rw [hother x hx]; exact hw2, rfl⟩
  | cons x l1 ih =>
    intro p fuel vp hf hs hp hmiss
    have hpnot : p ∉ x :: (l1 ++ j :: l2) := seg_not_mem p _ hs
    obtain ⟨hx0, ⟨v, hv, hn⟩, hrest⟩ := hs
    rw [hp] at hv; cases hv
    obtain ⟨vx, hvx⟩ := seg_head hrest
    cases fuel with
    | zero => simp at hf
    | succ f =>
      have hne : ¬ ((x : Int) = 0) := by omega
      have hno : ¬ (vx.address = a ∧ vx.length > 0) := by
        intro hc
        exact hmiss x (by simp) ⟨vx, hvx, hc.1, hc.2⟩
      obtain ⟨prev, vq, hlast, hmem, hq, hqj, hrw, hseg⟩ :=
        ih x f vx (by simp at hf ⊢; omega) hrest hvx
          (fun y hy => hmiss y (List.mem_cons_of_mem _ hy))
      have hpq : p ≠ prev := by
        intro h; subst h
        apply hpnot
        rcases List.mem_cons.1 hmem with hm | hm
        · simp [hm]
        · simp [hm]
      have hpj : p ≠ j := by
        intro h; subst h
        apply hpnot
        simp
      refine ⟨prev, vq, by rw [List.getLast?_cons_cons]; exact hlast,
        List.mem_cons_of_mem _ hmem, hq, hqj, ?_, ?_⟩
      · simp only [List.cons_append, reduceWalk, hn, hne, if_false, vmAt_cast, hvx, hno]
        exact hrw
      · exact ⟨hx0, ⟨vp, by rw [set2_other _ _ hpq hpj]; exact hp, hn⟩, hseg⟩

theorem ordered_erase {vm : List vma} (j : Nat) (l2 : List Nat) :
    ∀ (l1 : List Nat) (lo : Int), ordered vm lo (l1 ++ j :: l2) → ordered vm lo (l1 ++ l2) := by
  intro l1
  induction l1 with
  | nil =>
    intro lo h
    obtain ⟨v, _, h1, h2, h3⟩ := h
    exact ordered_mono l2 _ lo (by omega) h3
  | cons x l1 ih =>
    intro lo h
    obtain ⟨v, hv, h1, h2, h3⟩ := h
    exact ⟨v, hv, h1, h2, ih _ h3⟩

theorem myreduceproc_miss {p : proc} {l : List Nat} (a : Int) (h : nodes p.vm = some l)
    (hmiss : ∀ j ∈ l, ¬ hit p.vm a j) : myreduceproc p a = some (p, 0) := by
  obtain ⟨hs, hl⟩ := nodes_seg h
  obtain ⟨v0, hv0⟩ := seg_head hs
  have := reduceWalk_miss a l 0 WALKFUEL v0 hl hs hv0 hmiss
  unfold myreduceproc
  rw [vmAt_zero, hv0]
  simp only [Nat.cast_zero] at this
  simp only [this]

theorem myreduceproc_hit {p : proc} {l1 l2 : List Nat} {j : Nat} {vj : vma} (a : Int)
    (h : nodes p.vm = some (l1 ++ j :: l2)) (hmiss : ∀ x ∈ l1, ¬ hit p.vm a x)
    (hvj : p.vm[j]? = some vj) (ha : vj.address = a) (hlen : 0 < vj.length) :
    ∃ (prev : Nat) (vq : vma), (0 :: l1).getLast? = some prev ∧ prev ∈ 0 :: l1 ∧
      p.vm[prev]? = some vq ∧ prev ≠ j ∧
      myreduceproc p a =
        some ({ p with vm := unlinked p.vm prev vq j vj }, 0) ∧
      seg (unlinked p.vm prev vq j vj) 0 (l1 ++ l2) := by
  obtain ⟨hs, hl⟩ := nodes_seg h
  obtain ⟨v0, hv0⟩ := seg_head hs
  obtain ⟨prev, vq, h1, h2, h3, h4, h5, h6⟩ :=
    reduceWalk_hit a j l2 vj hvj ha hlen l1 0 WALKFUEL v0 hl hs hv0 hmiss
  refine ⟨prev, vq, h1, h2, h3, h4, ?_, h6⟩
  unfold myreduceproc
  rw [vmAt_zero, hv0]
  simp only [Nat.cast_zero] at h5
  simp only [h5, unlinked]

theorem wf_reduce {vm : List vma} {l1 l2 : List Nat} {j prev : Nat} {vj vq : vma}
    (h : WF vm (l1 ++ j :: l2)) (hvj : vm[j]? = some vj) (hq : vm[prev]? = some vq)
    (hqm : prev ∈ 0 :: l1) (hqj : prev ≠ j)
    (hseg : seg (unlinked vm prev vq j vj) 0 (l1 ++ l2)) :
    WF (unlinked vm prev vq j vj) (l1 ++ l2) := by
  have hnd := wf_nodup h
  have hjl : j < vm.length := (List.getElem?_eq_some.1 hvj).1
  have hql : prev < vm.length := (List.getElem?_eq_some.1 hq).1
  have hjnot : j ∉ l1 ++ l2 := by
    have := (List.nodup_cons.1 hnd).2
    have h2 := List.nodup_middle.1 this
    exact (List.nodup_cons.1 h2).1
  have hjtail : seg vm j l2 := seg_tail l1 0 j l2 h.chain
  have hvjn : vj.next ≠ -1 := by
    cases l2 with
    | nil =>
      obtain ⟨w, hw, hwn⟩ := hjtail
      rw [hvj] at hw
      rw [Option.some.inj hw]
      omega
    | cons k l2 =>
      obtain ⟨_, ⟨w, hw, hwn⟩, _⟩ := hjtail
      rw [hvj] at hw
      rw [Option.some.inj hw]
      omega
  refine ⟨by simp [unlinked, h.len], hseg, ?_⟩
  intro x v hx hxv
  unfold unlinked at hxv
  by_cases hxj : x = j
  · subst hxj
    rw [set2_at_prev _ _ hjl] at hxv
    cases hxv
    simp [hjnot]
  · by_cases hxq : x = prev
    · subst hxq
      rw [set2_at_new _ _ hql (Ne.symm hqj)] at hxv
      cases hxv
      have hxl : x ∈ l1 := by
        rcases List.mem_cons.1 hqm with hm | hm
        · omega
        · exact hm
      have hmem : x ∈ l1 ++ l2 := List.mem_append_left _ hxl
      simp only [hmem, not_true_eq_false, iff_false]
      exact hvjn
    · rw [set2_other _ _ hxq hxj] at hxv
      rw [h.free x v hx hxv]
      simp only [List.mem_append, List.mem_cons, hxj, false_or]

theorem vm_init_eq (a0 a1 a2 a3 a4 a5 a6 a7 a8 a9 : vma) :
    vm_init [a0, a1, a2, a3, a4, a5, a6, a7, a8, a9] =
      [⟨0, a0.address, 0⟩, ⟨-1, a1.address, 0⟩, ⟨-1, a2.address, 0⟩, ⟨-1, a3.address, 0⟩,
       ⟨-1, a4.address, 0⟩, ⟨-1, a5.address, 0⟩, ⟨-1, a6.address, 0⟩, ⟨-1, a7.address, 0⟩,
       ⟨-1, a8.address, 0⟩, ⟨-1, a9.address, 0⟩] := by
  have hr : List.range NVMA = [0, 1, 2, 3, 4, 5, 6, 7, 8, 9] := by decide
  unfold vm_init
  rw [hr]
  simp [List.foldl]

theorem length_ten {α : Type} (l : List α) (h : l.length = 10) :
    ∃ a0 a1 a2 a3 a4 a5 a6 a7 a8 a9, l = [a0, a1, a2, a3, a4, a5, a6, a7, a8, a9] := by
  match l, h with
  | [a0, a1, a2, a3, a4, a5, a6, a7, a8, a9], _ => exact ⟨a0, a1, a2, a3, a4, a5, a6, a7, a8, a9, rfl⟩

theorem vm_init_wf (vm0 : List vma) (h : vm0.length = NVMA) : WF (vm_init vm0) [] := by
  obtain ⟨a0, a1, a2, a3, a4, a5, a6, a7, a8, a9, rfl⟩ := length_ten vm0 h
  rw [vm_init_eq]
  refine ⟨rfl, ⟨_, rfl, rfl⟩, ?_⟩
  intro j v hj hv
  simp only [List.not_mem_nil, not_false_eq_true, iff_true]
  match j, hj, hv with
  | 1, _, hv => simp at hv; subst hv; rfl
  | 2, _, hv => simp at hv; subst hv; rfl
  | 3, _, hv => simp at hv; subst hv; rfl
  | 4, _, hv => simp at hv; subst hv; rfl
  | 5, _, hv => simp at hv; subst hv; rfl
  | 6, _, hv => simp at hv; subst hv; rfl
  | 7, _, hv => simp at hv; subst hv; rfl
  | 8, _, hv => simp at hv; subst hv; rfl
  | 9, _, hv => simp at hv; subst hv; rfl
  | n + 10, _, hv => simp at hv

theorem unlinked_other {vm : List vma} {prev j x : Nat} {vq vj v : vma}
    (hq : vm[prev]? = some vq) (hxj : x ≠ j) (hx : vm[x]? = some v) :
    ∃ w, (unlinked vm prev vq j vj)[x]? = some w ∧ w.address = v.address ∧
      w.length = v.length := by
  have hql : prev < vm.length := (List.getElem?_eq_some.1 hq).1
  unfold unlinked
  by_cases hxq : x = prev
  · subst hxq
    rw [hq] at hx
    have hvq : vq = v := Option.some.inj hx
    subst hvq
    refine ⟨{ vq with next := vj.next }, ?_, rfl, rfl⟩
    rw [List.getElem?_set_ne (Ne.symm hxj), List.getElem?_set_self hql]
  · exact ⟨v, by rw [set2_other _ _ hxq hxj]; exact hx, rfl, rfl⟩

theorem heapinv_grow {p : proc} {l : List Nat} (n : Int) (hn : 0 < n) (h : HeapInv p l) :
    ∃ p2 r l2, mygrowproc p n = some (p2, r) ∧ p2.sz = p.sz ∧ HeapInv p2 l2 := by
  cases hf : findFree p.vm (NVMA - 1) 1 with
  | none => exact ⟨p, 0, l, mygrowproc_full n h.1 hf, rfl, h⟩
  | some i =>
    obtain ⟨vm2, start, l1, l2, hrun, _, hwf, _, _, _, hord⟩ := mygrowproc_free n h.1 hf
    exact ⟨_, start, l1 ++ i :: l2, hrun, rfl, hwf, hord hn h.2⟩

theorem heapinv_reduce {p : proc} {l : List Nat} (a : Int) (h : HeapInv p l) :
    ∃ p2 l2, myreduceproc p a = some (p2, 0) ∧ p2.sz = p.sz ∧ HeapInv p2 l2 := by
  rcases first_hit p.vm a l with hmiss | ⟨l1, j, l2, hl, hmiss, vj, hvj, ha, hlen⟩
  · exact ⟨p, l, myreduceproc_miss a (wf_nodes h.1) hmiss, rfl, h⟩
  · subst hl
    obtain ⟨prev, vq, _, hqm, hq, hqj, hrun, hseg⟩ :=
      myreduceproc_hit a (wf_nodes h.1) hmiss hvj ha hlen
    refine ⟨_, l1 ++ l2, hrun, rfl, wf_reduce h.1 hvj hq hqm hqj hseg, ?_⟩
    have hnd := wf_nodup h.1
    have hjnot : j ∉ l1 ++ l2 := by
      have h2 := List.nodup_middle.1 (List.nodup_cons.1 hnd).2
      exact (List.nodup_cons.1 h2).1
    apply ordered_congr (l1 ++ l2) _ _ (ordered_erase j l2 l1 _ h.2)
    intro x hx v hv
    exact unlinked_other hq (fun hxj => hjnot (hxj ▸ hx)) hv

theorem runHeap_inv :
    ∀ (ops : List HeapOp) (p : proc) (l : List Nat), HeapInv p l →
      (∀ n, HeapOp.grow n ∈ ops → 0 < n) →
      ∃ p2 rets l2, runHeap p ops = some (p2, rets) ∧ p2.sz = p.sz ∧ HeapInv p2 l2 := by
  intro ops
  induction ops with
  | nil => intro p l h _; exact ⟨p, [], l, rfl, rfl, h⟩
  | cons op ops ih =>
    intro p l h hpos
    have hpos2 : ∀ n, HeapOp.grow n ∈ ops → 0 < n :=
      fun n hn => hpos n (List.mem_cons_of_mem _ hn)
    cases op with
    | grow n =>
      obtain ⟨p1, r, l1, hrun, hsz, hinv⟩ := heapinv_grow n (hpos n (by simp)) h
      obtain ⟨p2, rets, l2, hrun2, hsz2, hinv2⟩ := ih p1 l1 hinv hpos2
      exact ⟨p2, r :: rets, l2, by simp [runHeap, hrun, hrun2], by rw [hsz2, hsz], hinv2⟩
    | reduce a =>
      obtain ⟨p1, l1, hrun, hsz, hinv⟩ := heapinv_reduce a h
      obtain ⟨p2, rets, l2, hrun2, hsz2, hinv2⟩ := ih p1 l1 hinv hpos2
      exact ⟨p2, 0 :: rets, l2, by simp [runHeap, hrun, hrun2], by rw [hsz2, hsz], hinv2⟩

theorem ordered_pairwise {vm : List vma} :
    ∀ (l : List Nat) (lo : Int), ordered vm lo l →
      (l.map (pairAt vm)).Pairwise (fun x y => x.1 < y.1 ∧ x.1 + x.2 ≤ y.1) ∧
      ∀ x ∈ l.map (pairAt vm), lo ≤ x.1 := by
  intro l
  induction l with
  | nil => intro lo _; simp
  | cons i l ih =>
    intro lo h
    obtain ⟨v, hv, h1, h2, h3⟩ := h
    obtain ⟨hp, hb⟩ := ih _ h3
    have hpi : pairAt vm i = (v.address, v.length) := by simp [pairAt, hv]
    constructor
    · rw [List.map_cons, List.pairwise_cons]
      refine ⟨?_, hp⟩
      intro y hy
      have := hb y hy
      rw [hpi]
      constructor
      · show v.address < y.1
        omega
      · exact this
    · intro x hx
      rw [List.map_cons] at hx
      rcases List.mem_cons.1 hx with hx | hx
      · rw [hx, hpi]; exact h1
      · have := hb x hx
        omega

theorem allocs_eq {vm : List vma} {l : List Nat} (h : nodes vm = some l) :
    allocs vm = some (l.map (pairAt vm)) := by
  unfold allocs
  rw [h]
  rfl

theorem findFree_of_room {p : proc} {l : List Nat} (h : WF p.vm l)
    (hroom : l.length < NVMA - 1) : ∃ i, findFree p.vm (NVMA - 1) 1 = some i := by
  cases hf : findFree p.vm (NVMA - 1) 1 with
  | some i => exact ⟨i, rfl⟩
  | none =>
    exfalso
    have hall : ∀ j, 1 ≤ j → j < NVMA → j ∈ l := by
      intro j h1 h2
      have hjl : j < p.vm.length := by rw [h.len]; exact h2
      have hj : p.vm[j]? = some p.vm[j] := List.getElem?_eq_getElem hjl
      have hne := findFree_none (NVMA - 1) 1 (by rw [h.len]; simp [NVMA]) hf j _ h1
        (by simp [NVMA] at *; omega) hj
      by_contra hnot
      exact hne ((h.free j _ h1 hj).2 hnot)
    have hsub : List.range' 1 (NVMA - 1) ⊆ l := by
      intro x hx
      rw [List.mem_range'_1] at hx
      exact hall x hx.1 (by simp [NVMA] at *; omega)
    have := (List.subperm_of_subset (List.nodup_range' 1 (NVMA - 1)) hsub).length_le
    simp at this
    omega

theorem findFree_none_of_full {p : proc} {l : List Nat} (h : WF p.vm l)
    (hfull : l.length = NVMA - 1) : findFree p.vm (NVMA - 1) 1 = none := by
  cases hf : findFree p.vm (NVMA - 1) 1 with
  | none => rfl
  | some i =>
    exfalso
    obtain ⟨vm2, start, l1, l2, _, hl, hwf, _⟩ := mygrowproc_free 0 h hf
    have := wf_length hwf
    rw [hl] at hfull
    simp at this hfull
    omega

theorem grow_many :
    ∀ (ns : List Int) (p : proc) (l : List Nat), WF p.vm l →
      l.length + ns.length ≤ NVMA - 1 →
      ∃ p2 rets l2, runHeap p (ns.map HeapOp.grow) = some (p2, rets) ∧ WF p2.vm l2 ∧
        l2.length = l.length + ns.length ∧
        List.Forall₂ (fun r n => (r, n) ∈ l2.map (pairAt p2.vm)) rets ns ∧
        ∀ x ∈ l, x ∈ l2 ∧ pairAt p2.vm x = pairAt p.vm x := by
  intro ns
  induction ns with
  | nil =>
    intro p l h _
    exact ⟨p, [], l, rfl, h, by simp, List.Forall₂.nil, fun x hx => ⟨hx, rfl⟩⟩
  | cons n ns ih =>
    intro p l h hroom
    obtain ⟨i, hf⟩ := findFree_of_room h (by simp at hroom; omega)
    obtain ⟨vm2, start, l1, l2, hrun, hl, hwf, hil, hnew, hkeep, _⟩ := mygrowproc_free n h hf
    obtain ⟨p2, rets, l3, hrun2, hwf2, hlen2, hall2, hkeep2⟩ :=
      ih { p with vm := vm2 } (l1 ++ i :: l2) hwf (by
        rw [hl] at hroom
        simp at hroom ⊢
        omega)
    refine ⟨p2, start :: rets, l3, by simp [runHeap, hrun, hrun2], hwf2, ?_, ?_, ?_⟩
    · rw [hlen2, hl]
      simp
      omega
    · refine List.Forall₂.cons ?_ hall2
      obtain ⟨hmem, hpair⟩ := hkeep2 i (by simp)
      have : pairAt p2.vm i = (start, n) := by
        rw [hpair]
        simp [pairAt, hnew]
      rw [← this]
      exact List.mem_map_of_mem _ hmem
    · intro x hx
      have hxi : x ≠ i := fun hxi => hil (hxi ▸ hx)
      have hx2 : x ∈ l1 ++ i :: l2 := by
        rw [hl] at hx
        simp only [List.mem_append, List.mem_cons] at hx ⊢
        tauto
      obtain ⟨hmem, hpair⟩ := hkeep2 x hx2
      refine ⟨hmem, ?_⟩
      rw [hpair]
      have hxl : x < p.vm.length := by
        have := (wf_mem_range h x hx).2
        rw [h.len]; exact this
      obtain ⟨w, hw, hwa, hwl⟩ := hkeep x _ hxi (List.getElem?_eq_getElem hxl)
      simp [pairAt, hw, hwa, hwl, List.getElem?_eq_getElem hxl]

/-! ## Lemmas on the process table -/

theorem scan_some {test : proc → Bool} :
    ∀ (t : List proc) (i : Nat), scan test t = some i →
      ∃ p, t[i]? = some p ∧ test p = true ∧
        ∀ j q, j < i → t[j]? = some q → test q = false := by
  intro t
  induction t with
  | nil => intro i h; simp [scan] at h
  | cons p ps ih =>
    intro i h
    unfold scan at h
    by_cases hp : test p = true
    · simp [hp] at h
      subst h
      exact ⟨p, by simp, hp, fun j q hj _ => absurd hj (Nat.not_lt_zero j)⟩
    · simp only [hp, Bool.false_eq_true, if_false, Option.map_eq_some'] at h
      obtain ⟨i2, hi2, hi⟩ := h
      subst hi
      obtain ⟨q, hq, hqt, hmin⟩ := ih i2 hi2
      refine ⟨q, by simpa using hq, hqt, ?_⟩
      intro j r hj hr
      cases j with
      | zero =>
        simp at hr
        subst hr
        simpa using hp
      | succ j =>
        simp at hr
        exact hmin j r (by omega) hr

theorem scan_none {test : proc → Bool} :
    ∀ (t : List proc), scan test t = none ↔ ∀ p ∈ t, test p = false := by
  intro t
  induction t with
  | nil => simp [scan]
  | cons p ps ih =>
    unfold scan
    by_cases hp : test p = true
    · simp [hp]
    · simp only [hp, Bool.false_eq_true, if_false, Option.map_eq_none', ih, List.mem_cons,
        forall_eq_or_imp]
      simp at hp
      simp [hp]

theorem scan_first {test : proc → Bool} :
    ∀ (t : List proc) (i : Nat) (p : proc), t[i]? = some p → test p = true →
      (∀ j q, j < i → t[j]? = some q → test q = false) → scan test t = some i := by
  intro t i p hp ht hmin
  cases hs : scan test t with
  | none =>
    have := (scan_none t).1 hs p (List.getElem?_mem hp)
    rw [ht] at this
    cases this
  | some i2 =>
    obtain ⟨q, hq, hqt, hmin2⟩ := scan_some t i2 hs
    rcases Nat.lt_trichotomy i i2 with h | h | h
    · have := hmin2 i p h hp
      rw [ht] at this
      cases this
    · rw [h]
    · have := hmin i2 q h hq
      rw [hqt] at this
      cases this

theorem upd_length (t : List proc) (i : Nat) (f : proc → proc) :
    (upd t i f).length = t.length := by
  unfold upd
  cases t[i]? <;> simp

theorem upd_at {t : List proc} {i : Nat} {p : proc} (f : proc → proc) (h : t[i]? = some p) :
    upd t i f = t.set i (f p) := by
  unfold upd
  rw [h]

theorem upd_get_self {t : List proc} {i : Nat} {p : proc} (f : proc → proc)
    (h : t[i]? = some p) : (upd t i f)[i]? = some (f p) := by
  rw [upd_at f h]
  exact List.getElem?_set_self (List.getElem?_eq_some.1 h).1

theorem upd_get_ne (t : List proc) {i j : Nat} (f : proc → proc) (h : i ≠ j) :
    (upd t i f)[j]? = t[j]? := by
  unfold upd
  cases t[i]? with
  | none => rfl
  | some p => exact List.getElem?_set_ne h

theorem wakeup1_length (chan : Ptr) :
    ∀ (t : List proc), (wakeup1 chan t).length = t.length := by
  intro t
  induction t with
  | nil => rfl
  | cons p ps ih => simp [wakeup1, ih]

theorem wakeup1_get (chan : Ptr) :
    ∀ (t : List proc) (i : Nat) (p : proc), t[i]? = some p →
      (wakeup1 chan t)[i]? =
        some (if p.state = SLEEPING ∧ p.chan = chan then { p with state := RUNNABLE } else p) := by
  intro t
  induction t with
  | nil => intro i p h; simp at h
  | cons q qs ih =>
    intro i p h
    cases i with
    | zero =>
      simp at h
      subst h
      simp [wakeup1]
    | succ i =>
      simp at h
      simpa [wakeup1] using ih i p h

theorem wakeup1_idem (chan : Ptr) :
    ∀ (t : List proc), wakeup1 chan (wakeup1 chan t) = wakeup1 chan t := by
  intro t
  induction t with
  | nil => rfl
  | cons p ps ih =>
    by_cases h : p.state = SLEEPING ∧ p.chan = chan
    · simp [wakeup1, h, ih]
    · simp [wakeup1, h, ih]

theorem sched_min_foldl :
    ∀ (t : List proc) (init : Int),
      let m := t.foldl (fun priority temp =>
        if temp.state = RUNNABLE ∧ temp.priority < priority then temp.priority else priority) init
      m ≤ init ∧ (∀ p ∈ t, p.state = RUNNABLE → m ≤ p.priority) ∧
      (m = init ∨ ∃ p ∈ t, p.state = RUNNABLE ∧ p.priority = m) := by
  intro t
  induction t with
  | nil => intro init; simp
  | cons q qs ih =>
    intro init
    simp only [List.foldl_cons]
    by_cases hq : q.state = RUNNABLE ∧ q.priority < init
    · simp only [hq, and_self, if_true]
      obtain ⟨h1, h2, h3⟩ := ih q.priority
      refine ⟨by omega, ?_, ?_⟩
      · intro p hp hr
        rcases List.mem_cons.1 hp with hp | hp
        · subst hp; exact h1
        · exact h2 p hp hr
      · right
        rcases h3 with h3 | ⟨p, hp, hr, he⟩
        · exact ⟨q, by simp, hq.1, h3.symm⟩
        · exact ⟨p, List.mem_cons_of_mem _ hp, hr, he⟩
    · simp only [hq, if_false]
      obtain ⟨h1, h2, h3⟩ := ih init
      refine ⟨h1, ?_, ?_⟩
      · intro p hp hr
        rcases List.mem_cons.1 hp with hp | hp
        · subst hp
          have : ¬ (p.priority < init) := fun hlt => hq ⟨hr, hlt⟩
          omega
        · exact h2 p hp hr
      · rcases h3 with h3 | ⟨p, hp, hr, he⟩
        · left; exact h3
        · right; exact ⟨p, List.mem_cons_of_mem _ hp, hr, he⟩

theorem sched_min_spec (t : List proc) :
    sched_min t ≤ 19 ∧ (∀ p ∈ t, p.state = RUNNABLE → sched_min t ≤ p.priority) ∧
    (sched_min t = 19 ∨ ∃ p ∈ t, p.state = RUNNABLE ∧ p.priority = sched_min t) :=
  sched_min_foldl t 19

theorem sched_pass_runs (swtch : Nat → proc → proc) :
    ∀ (ps : List proc) (i : Nat) (pr : Int),
      (∀ p ∈ ps, p.state = RUNNABLE → pr ≤ p.priority) →
      (sched_pass swtch i pr ps).1 =
        idxs (fun p => p.state = RUNNABLE ∧ p.priority = pr) i ps := by
  intro ps
  induction ps with
  | nil => intro i pr _; rfl
  | cons p ps ih =>
    intro i pr hmin
    have hrest : ∀ q ∈ ps, q.state = RUNNABLE → pr ≤ q.priority :=
      fun q hq => hmin q (List.mem_cons_of_mem _ hq)
    unfold sched_pass idxs
    by_cases hs : p.state = RUNNABLE
    · have hle := hmin p (by simp) hs
      by_cases hgt : p.priority > pr
      · have hne : ¬ (p.priority = pr) := by omega
        simp [hs, hgt, hne, ih (i + 1) pr hrest]
      · have heq : p.priority = pr := by omega
        simp [hs, heq, ih (i + 1) pr hrest]
    · simp [hs, ih (i + 1) pr hrest]

theorem scheduler_round_runs (swtch : Nat → proc → proc) (t : List proc) :
    (scheduler_round swtch t).1 =
      idxs (fun p => p.state = RUNNABLE ∧ p.priority = sched_min t) 0 t :=
  sched_pass_runs swtch t 0 (sched_min t) (sched_min_spec t).2.1

theorem kill_found_spec (p : proc) :
    kill_found p =
      { p with killed := 1, state := if p.state = SLEEPING then RUNNABLE else p.state } := by
  unfold kill_found
  by_cases h : p.state = SLEEPING <;> simp [h]

theorem kill_hit (k : kernel) (pid : Int) (i : Nat) (p : proc) (hp : k.ptable[i]? = some p)
    (hpid : p.pid = pid) (hmin : ∀ j q, j < i → k.ptable[j]? = some q → q.pid ≠ pid) :
    kill k pid = ({ k with ptable := k.ptable.set i (kill_found p) }, 0) := by
  have hs : scan (fun p => p.pid = pid) k.ptable = some i := by
    apply scan_first _ i p hp (by simp [hpid])
    intro j q hj hq
    simp [hmin j q hj hq]
  unfold kill
  rw [hs]
  simp [upd_at kill_found hp]

theorem kill_miss (k : kernel) (pid : Int) (h : ∀ p ∈ k.ptable, p.pid ≠ pid) :
    kill k pid = (k, -1) := by
  have hs : scan (fun p => p.pid = pid) k.ptable = none := by
    rw [scan_none]
    intro p hp
    simp [h p hp]
  unfold kill
  rw [hs]

theorem chpri_ret (k : kernel) (pid priority : Int) : (chpri k pid priority).2 = pid := by
  unfold chpri
  cases scan (fun p => p.pid = pid) k.ptable <;> rfl

theorem chpri_hit (k : kernel) (pid priority : Int) (i : Nat) (p : proc)
    (hp : k.ptable[i]? = some p) (hpid : p.pid = pid)
    (hmin : ∀ j q, j < i → k.ptable[j]? = some q → q.pid ≠ pid) :
    chpri k pid priority =
      ({ k with ptable := k.ptable.set i { p with priority := priority } }, pid) := by
  have hs : scan (fun p => p.pid = pid) k.ptable = some i := by
    apply scan_first _ i p hp (by simp [hpid])
    intro j q hj hq
    simp [hmin j q hj hq]
  unfold chpri
  rw [hs]
  simp [upd_at _ hp]

theorem chpri_miss (k : kernel) (pid priority : Int) (h : ∀ p ∈ k.ptable, p.pid ≠ pid) :
    chpri k pid priority = (k, pid) := by
  have hs : scan (fun p => p.pid = pid) k.ptable = none := by
    rw [scan_none]
    intro p hp
    simp [h p hp]
  unfold chpri
  rw [hs]

theorem same_refl (p : proc) : same p p := ⟨rfl, Iff.rfl⟩

theorem same_trans {p q r : proc} (h1 : same p q) (h2 : same q r) : same p r :=
  ⟨h2.1.trans h1.1, h2.2.trans h1.2⟩

theorem keeps_refl (p : proc) : keeps p p := fun h => ⟨h, rfl⟩

theorem keeps_trans {p q r : proc} (h1 : keeps p q) (h2 : keeps q r) : keeps p r := by
  intro h
  obtain ⟨hq, e2⟩ := h2 h
  obtain ⟨hp, e1⟩ := h1 hq
  exact ⟨hp, e2.trans e1⟩

theorem keeps_of_same {p q : proc} (h : same p q) : keeps p q :=
  fun hq => ⟨fun hp => hq (h.2.2 hp), h.1⟩

theorem keeps_of_unused {p q : proc} (h : q.state = UNUSED) : keeps p q :=
  fun hq => absurd h hq

theorem PW_refl {R : proc → proc → Prop} (hR : ∀ p, R p p) (t : List proc) : PW R t t :=
  ⟨rfl, fun _ p hp => ⟨p, hp, hR p⟩⟩

theorem PW_trans {R : proc → proc → Prop} (hR : ∀ p q r, R p q → R q r → R p r)
    {t1 t2 t3 : List proc} (h1 : PW R t1 t2) (h2 : PW R t2 t3) : PW R t1 t3 := by
  refine ⟨h2.1.trans h1.1, ?_⟩
  intro i p hp
  obtain ⟨q, hq, hpq⟩ := h1.2 i p hp
  obtain ⟨r, hr, hqr⟩ := h2.2 i q hq
  exact ⟨r, hr, hR p q r hpq hqr⟩

theorem PW_mono {R S : proc → proc → Prop} (hRS : ∀ p q, R p q → S p q)
    {t1 t2 : List proc} (h : PW R t1 t2) : PW S t1 t2 := by
  refine ⟨h.1, ?_⟩
  intro i p hp
  obtain ⟨q, hq, hpq⟩ := h.2 i p hp
  exact ⟨q, hq, hRS p q hpq⟩

theorem PW_set {R : proc → proc → Prop} (hR : ∀ p, R p p) {t : List proc} {i : Nat}
    {p q : proc} (hp : t[i]? = some p) (hpq : R p q) : PW R t (t.set i q) := by
  refine ⟨by simp, ?_⟩
  intro j r hr
  by_cases hij : i = j
  · subst hij
    rw [hp] at hr
    cases hr
    exact ⟨q, List.getElem?_set_self (List.getElem?_eq_some.1 hp).1, hpq⟩
  · exact ⟨r, by rw [List.getElem?_set_ne hij]; exact hr, hR r⟩

theorem PW_upd {R : proc → proc → Prop} (hR : ∀ p, R p p) (t : List proc) (i : Nat)
    (f : proc → proc) (hf : ∀ p, t[i]? = some p → R p (f p)) : PW R t (upd t i f) := by
  unfold upd
  cases hp : t[i]? with
  | none => exact PW_refl hR t
  | some p => exact PW_set hR hp (hf p hp)

theorem PW_same_trans {t1 t2 t3 : List proc} (h1 : PW same t1 t2) (h2 : PW same t2 t3) :
    PW same t1 t3 :=
  @PW_trans same (fun _ _ _ h1 h2 => same_trans h1 h2) t1 t2 t3 h1 h2

theorem PW_keeps_trans {t1 t2 t3 : List proc} (h1 : PW keeps t1 t2) (h2 : PW keeps t2 t3) :
    PW keeps t1 t3 :=
  @PW_trans keeps (fun _ _ _ h1 h2 => keeps_trans h1 h2) t1 t2 t3 h1 h2

theorem PW_keeps_of_same {t1 t2 : List proc} (h : PW same t1 t2) : PW keeps t1 t2 :=
  @PW_mono same keeps (fun _ _ h => keeps_of_same h) t1 t2 h

theorem PW_wakeup1 (chan : Ptr) (t : List proc) : PW same t (wakeup1 chan t) := by
  refine ⟨wakeup1_length chan t, ?_⟩
  intro i p hp
  refine ⟨_, wakeup1_get chan t i p hp, ?_⟩
  by_cases h : p.state = SLEEPING ∧ p.chan = chan
  · simp only [h, and_self, if_true]
    exact ⟨rfl, by simp [h.1]⟩
  · simp only [h, if_false]
    exact same_refl p

theorem PW_exit_loop (cur init : Ptr) :
    ∀ (fuel i : Nat) (t : List proc), PW same t (exit_loop cur init fuel i t) := by
  intro fuel
  induction fuel with
  | zero => intro i t; exact PW_refl same_refl t
  | succ f ih =>
    intro i t
    unfold exit_loop
    cases hp : t[i]? with
    | none => exact PW_refl same_refl t
    | some p =>
      simp only
      by_cases hpar : p.parent = cur
      · rw [if_pos hpar]
        have h1 : PW same t (t.set i { p with parent := init }) :=
          PW_set same_refl hp ⟨rfl, Iff.rfl⟩
        by_cases hz : p.state = ZOMBIE
        · rw [if_pos hz]
          exact PW_same_trans h1 (PW_same_trans (PW_wakeup1 init _) (ih _ _))
        · rw [if_neg hz]
          exact PW_same_trans h1 (ih _ _)
      · rw [if_neg hpar]
        exact ih _ _

theorem PidInv_of_PW {k : kernel} {t : List proc} (ip : Ptr) (h : PW keeps k.ptable t)
    (hinv : PidInv k) : PidInv { ptable := t, nextpid := k.nextpid, initproc := ip } := by
  obtain ⟨hpos, hrange, hdist⟩ := hinv
  have back : ∀ (i : Nat) (q : proc), t[i]? = some q → q.state ≠ UNUSED →
      ∃ p, k.ptable[i]? = some p ∧ p.state ≠ UNUSED ∧ q.pid = p.pid := by
    intro i q hq hqs
    have hi : i < k.ptable.length := by
      rw [← h.1]; exact (List.getElem?_eq_some.1 hq).1
    obtain ⟨q2, hq2, hk⟩ := h.2 i _ (List.getElem?_eq_getElem hi)
    rw [hq] at hq2
    cases hq2
    obtain ⟨hp, he⟩ := hk hqs
    exact ⟨_, List.getElem?_eq_getElem hi, hp, he⟩
  refine ⟨hpos, ?_, ?_⟩
  · intro i q hq hqs
    obtain ⟨p, hp, hps, he⟩ := back i q hq hqs
    rw [he]
    exact hrange i p hp hps
  · intro i j q1 q2 hij hq1 hq2 hs1 hs2
    obtain ⟨p1, hp1, hps1, he1⟩ := back i q1 hq1 hs1
    obtain ⟨p2, hp2, hps2, he2⟩ := back j q2 hq2 hs2
    rw [he1, he2]
    exact hdist i j p1 p2 hij hp1 hp2 hps1 hps2

theorem PidInv_fresh {k : kernel} {i : Nat} {p q : proc} (ip : Ptr) (hinv : PidInv k)
    (hp : k.ptable[i]? = some p)
    (hq : q.state ≠ UNUSED → q.pid = k.nextpid) :
    PidInv { ptable := k.ptable.set i q, nextpid := k.nextpid + 1, initproc := ip } := by
  obtain ⟨hpos, hrange, hdist⟩ := hinv
  have hil : i < k.ptable.length := (List.getElem?_eq_some.1 hp).1
  refine ⟨by show 0 < k.nextpid + 1; omega, ?_, ?_⟩
  · intro j r hr hrs
    show 0 < r.pid ∧ r.pid < k.nextpid + 1
    by_cases hij : i = j
    · subst hij
      simp only [List.getElem?_set_self hil] at hr
      cases hr
      rw [hq hrs]
      omega
    · simp only [List.getElem?_set_ne hij] at hr
      have := hrange j r hr hrs
      omega
  · intro j1 j2 r1 r2 hj hr1 hr2 hs1 hs2
    simp only at hr1 hr2
    by_cases h1 : i = j1
    · subst h1
      rw [List.getElem?_set_self hil] at hr1
      cases hr1
      rw [List.getElem?_set_ne hj] at hr2
      have := hrange j2 r2 hr2 hs2
      rw [hq hs1]
      omega
    · rw [List.getElem?_set_ne h1] at hr1
      by_cases h2 : i = j2
      · subst h2
        rw [List.getElem?_set_self hil] at hr2
        cases hr2
        have := hrange j1 r1 hr1 hs1
        rw [hq hs2]
        omega
      · rw [List.getElem?_set_ne h2] at hr2
        exact hdist j1 j2 r1 r2 hj hr1 hr2 hs1 hs2

theorem allocproc_hit (c : consts) (k : kernel) (kstack i : Nat) (p : proc)
    (hp : k.ptable[i]? = some p) (hfree : p.state = UNUSED)
    (hmin : ∀ j q, j < i → k.ptable[j]? = some q → q.state ≠ UNUSED) :
    allocproc c k kstack =
      ({ k with ptable := k.ptable.set i (allocproc_found c k.nextpid kstack p),
                nextpid := k.nextpid + 1 },
        if kstack = 0 then none else some i) := by
  have hs : scan (fun p => p.state = UNUSED) k.ptable = some i := by
    apply scan_first _ i p hp (by simp [hfree])
    intro j q hj hq
    simp [hmin j q hj hq]
  unfold allocproc
  rw [hs]
  simp [upd_at _ hp]

theorem allocproc_miss (c : consts) (k : kernel) (kstack : Nat)
    (h : ∀ p ∈ k.ptable, p.state ≠ UNUSED) : allocproc c k kstack = (k, none) := by
  have hs : scan (fun p => p.state = UNUSED) k.ptable = none := by
    rw [scan_none]
    intro p hp
    simp [h p hp]
  unfold allocproc
  rw [hs]

theorem allocproc_cases (c : consts) (k : kernel) (kstack : Nat) :
    ((∀ p ∈ k.ptable, p.state ≠ UNUSED) ∧ allocproc c k kstack = (k, none)) ∨
    ∃ i p, k.ptable[i]? = some p ∧ p.state = UNUSED ∧
      (∀ j q, j < i → k.ptable[j]? = some q → q.state ≠ UNUSED) ∧
      allocproc c k kstack =
        ({ k with ptable := k.ptable.set i (allocproc_found c k.nextpid kstack p),
                  nextpid := k.nextpid + 1 },
          if kstack = 0 then none else some i) := by
  cases hs : scan (fun p => decide (p.state = UNUSED)) k.ptable with
  | none =>
    left
    have hall : ∀ p ∈ k.ptable, p.state ≠ UNUSED := by
      intro p hp
      have := (scan_none _).1 hs p hp
      simpa using this
    exact ⟨hall, allocproc_miss c k kstack hall⟩
  | some i =>
    right
    obtain ⟨p, hp, ht, hmin⟩ := scan_some _ i hs
    have hfree : p.state = UNUSED := by simpa using ht
    have hmin2 : ∀ j q, j < i → k.ptable[j]? = some q → q.state ≠ UNUSED := by
      intro j q hj hq
      have := hmin j q hj hq
      simpa using this
    exact ⟨i, p, hp, hfree, hmin2, allocproc_hit c k kstack i p hp hfree hmin2⟩

theorem allocproc_found_pid (c : consts) (n : Int) (kstack : Nat) (p : proc) :
    (allocproc_found c n kstack p).pid = n := by
  unfold allocproc_found
  by_cases h : kstack = 0 <;> simp [h]

theorem allocproc_found_state (c : consts) (n : Int) (kstack : Nat) (p : proc) :
    (allocproc_found c n kstack p).state = if kstack = 0 then UNUSED else EMBRYO := by
  unfold allocproc_found
  by_cases h : kstack = 0 <;> simp [h]

theorem allocproc_inv (c : consts) (k : kernel) (kstack : Nat) :
    ∃ k1 r, allocproc c k kstack = (k1, r) ∧ (PidInv k → PidInv k1) ∧
      k.nextpid ≤ k1.nextpid ∧
      ∀ np, r = some np → ∃ q, k1.ptable[np]? = some q ∧ q.state = EMBRYO ∧
        q.pid = k.nextpid ∧ k1.nextpid = k.nextpid + 1 := by
  rcases allocproc_cases c k kstack with ⟨_, h⟩ | ⟨i, p, hp, hfree, _, h⟩
  · exact ⟨k, none, h, id, le_refl _, fun np hnp => by cases hnp⟩
  · refine ⟨_, _, h, ?_, by show k.nextpid ≤ k.nextpid + 1; omega, ?_⟩
    · intro hinv
      exact PidInv_fresh k.initproc hinv hp (fun _ => allocproc_found_pid c _ _ _)
    · intro np hnp
      by_cases hk : kstack = 0
      · simp [hk] at hnp
      · simp only [hk, if_false, Option.some.injEq] at hnp
        subst hnp
        refine ⟨_, List.getElem?_set_self (List.getElem?_eq_some.1 hp).1, ?_,
          allocproc_found_pid c _ _ _, rfl⟩
        rw [allocproc_found_state]
        simp [hk]

theorem live_iff (k : kernel) (cur : Nat) :
    live k cur = true ↔ ∃ p, k.ptable[cur]? = some p ∧ p.state ≠ UNUSED := by
  unfold live
  cases h : k.ptable[cur]? with
  | none => simp
  | some p => simp

theorem PidInv_table {k : kernel} {t : List proc} (h : PW keeps k.ptable t)
    (hinv : PidInv k) : PidInv { k with ptable := t } :=
  PidInv_of_PW k.initproc h hinv

theorem fork_inv (c : consts) (k k2 : kernel) (cur kstack pgdir : Nat) (r : Int)
    (hinv : PidInv k) (h : fork c k cur kstack pgdir = some (k2, r)) :
    PidInv k2 ∧ k.nextpid ≤ k2.nextpid ∧
      (r ≠ -1 → r = k.nextpid ∧ k2.nextpid = k.nextpid + 1) := by
  obtain ⟨k1, a, halloc, hinv1, hle, hnew⟩ := allocproc_inv c k kstack
  have hinv1 := hinv1 hinv
  unfold fork at h
  rw [halloc] at h
  cases a with
  | none =>
    simp only [Option.some.injEq, Prod.mk.injEq] at h
    obtain ⟨h1, h2⟩ := h
    subst h1 h2
    exact ⟨hinv1, hle, fun hr => absurd rfl hr⟩
  | some np =>
    obtain ⟨q, hq, hqs, hqpid, hnext⟩ := hnew np rfl
    simp only [hq] at h
    cases hcur : k1.ptable[cur]? with
    | none => simp [hcur] at h
    | some pr =>
      simp only [hcur] at h
      by_cases hpg : pgdir = 0
      · simp only [hpg, if_true, Option.some.injEq, Prod.mk.injEq] at h
        obtain ⟨h1, h2⟩ := h
        subst h1 h2
        refine ⟨PidInv_table (PW_set keeps_refl hq (keeps_of_unused rfl)) hinv1, hle,
          fun hr => absurd rfl hr⟩
      · simp only [hpg, if_false, Option.some.injEq, Prod.mk.injEq] at h
        obtain ⟨h1, h2⟩ := h
        subst h1 h2
        refine ⟨PidInv_table (PW_set keeps_refl hq ?_) hinv1, hle, fun _ => ⟨hqpid, hnext⟩⟩
        intro _
        exact ⟨by rw [hqs]; decide, rfl⟩

theorem clone_inv (c : consts) (k k2 : kernel) (cur kstack : Nat) (fcn : Int) (stack : Nat)
    (r : Int) (hinv : PidInv k) (h : clone c k cur kstack fcn stack = some (k2, r)) :
    PidInv k2 ∧ k.nextpid ≤ k2.nextpid ∧
      (r ≠ -1 → r = k.nextpid ∧ k2.nextpid = k.nextpid + 1) := by
  obtain ⟨k1, a, halloc, hinv1, hle, hnew⟩ := allocproc_inv c k kstack
  have hinv1 := hinv1 hinv
  unfold clone at h
  rw [halloc] at h
  cases a with
  | none =>
    simp only [Option.some.injEq, Prod.mk.injEq] at h
    obtain ⟨h1, h2⟩ := h
    subst h1 h2
    exact ⟨hinv1, hle, fun hr => absurd rfl hr⟩
  | some np =>
    obtain ⟨q, hq, hqs, hqpid, hnext⟩ := hnew np rfl
    simp only [hq] at h
    cases hcur : k1.ptable[cur]? with
    | none => simp [hcur] at h
    | some pr =>
      simp only [hcur, Option.some.injEq, Prod.mk.injEq] at h
      obtain ⟨h1, h2⟩ := h
      subst h1 h2
      refine ⟨PidInv_table (PW_set keeps_refl hq ?_) hinv1, hle, fun _ => ⟨hqpid, hnext⟩⟩
      intro _
      exact ⟨by rw [hqs]; decide, rfl⟩

theorem exit_keeps (k k1 : kernel) (cur : Nat) (hlive : live k cur = true)
    (h : exit k cur = some k1) :
    PW keeps k.ptable k1.ptable ∧ k1.nextpid = k.nextpid := by
  obtain ⟨pr, hpr, hprs⟩ := (live_iff k cur).1 hlive
  unfold exit at h
  by_cases hinit : Ptr.proc cur = k.initproc
  · simp [hinit] at h
  · simp only [hinit, if_false, hpr, Option.some.injEq] at h
    subst h
    refine ⟨?_, rfl⟩
    have h12 : PW same k.ptable
        (exit_loop (Ptr.proc cur) k.initproc (wakeup1 pr.parent k.ptable).length 0
          (wakeup1 pr.parent k.ptable)) :=
      PW_same_trans (PW_wakeup1 _ _) (PW_exit_loop _ _ _ _ _)
    obtain ⟨q, hq, hsame⟩ := h12.2 cur pr hpr
    apply PW_keeps_trans (PW_keeps_of_same h12)
    apply PW_upd keeps_refl
    intro q2 hq2
    rw [hq] at hq2
    cases hq2
    intro _
    exact ⟨fun hu => hprs (hsame.2.1 hu), rfl⟩

theorem wait_keeps (k k1 : kernel) (cur : Nat) (r : Option Int) (hlive : live k cur = true)
    (h : wait k cur = some (k1, r)) :
    PW keeps k.ptable k1.ptable ∧ k1.nextpid = k.nextpid := by
  obtain ⟨pr, hpr, hprs⟩ := (live_iff k cur).1 hlive
  unfold wait at h
  simp only [hpr] at h
  cases hs : scan (fun p => decide (p.parent = Ptr.proc cur ∧ p.state = ZOMBIE)) k.ptable with
  | some i =>
    simp only [hs] at h
    cases hch : k.ptable[i]? with
    | none => simp [hch] at h
    | some ch =>
      simp only [hch, Option.some.injEq, Prod.mk.injEq] at h
      obtain ⟨h1, _⟩ := h
      subst h1
      exact ⟨PW_set keeps_refl hch (keeps_of_unused rfl), rfl⟩
  | none =>
    simp only [hs] at h
    by_cases hc : (¬ k.ptable.any (fun p => p.parent = Ptr.proc cur)) ∨ pr.killed ≠ 0
    · rw [if_pos hc] at h
      simp only [Option.some.injEq, Prod.mk.injEq] at h
      obtain ⟨h1, _⟩ := h
      subst h1
      exact ⟨PW_refl keeps_refl _, rfl⟩
    · rw [if_neg hc] at h
      simp only [Option.some.injEq, Prod.mk.injEq] at h
      obtain ⟨h1, _⟩ := h
      subst h1
      refine ⟨PW_upd keeps_refl _ _ _ ?_, rfl⟩
      intro q hq
      rw [hpr] at hq
      cases hq
      intro _
      exact ⟨hprs, rfl⟩

theorem join_keeps (k k1 : kernel) (cur : Nat) (r : Option Int × Option Nat)
    (hlive : live k cur = true) (h : join k cur = some (k1, r)) :
    PW keeps k.ptable k1.ptable ∧ k1.nextpid = k.nextpid := by
  obtain ⟨pr, hpr, hprs⟩ := (live_iff k cur).1 hlive
  unfold join at h
  simp only [hpr] at h
  cases hs : scan (fun p => decide (p.pthread = Ptr.proc cur ∧ p.state = ZOMBIE)) k.ptable with
  | some i =>
    simp only [hs] at h
    cases hch : k.ptable[i]? with
    | none => simp [hch] at h
    | some ch =>
      simp only [hch, Option.some.injEq, Prod.mk.injEq] at h
      obtain ⟨h1, _⟩ := h
      subst h1
      exact ⟨PW_set keeps_refl hch (keeps_of_unused rfl), rfl⟩
  | none =>
    simp only [hs] at h
    by_cases hc : (¬ k.ptable.any (fun p => p.pthread = Ptr.proc cur)) ∨ pr.killed ≠ 0
    · rw [if_pos hc] at h
      simp only [Option.some.injEq, Prod.mk.injEq] at h
      obtain ⟨h1, _⟩ := h
      subst h1
      exact ⟨PW_refl keeps_refl _, rfl⟩
    · rw [if_neg hc] at h
      simp only [Option.some.injEq, Prod.mk.injEq] at h
      obtain ⟨h1, _⟩ := h
      subst h1
      refine ⟨PW_upd keeps_refl _ _ _ ?_, rfl⟩
      intro q hq
      rw [hpr] at hq
      cases hq
      intro _
      exact ⟨hprs, rfl⟩

theorem kill_same (k : kernel) (pid : Int) :
    PW same k.ptable (kill k pid).1.ptable ∧ (kill k pid).1.nextpid = k.nextpid := by
  unfold kill
  cases scan (fun p => decide (p.pid = pid)) k.ptable with
  | none => exact ⟨PW_refl same_refl _, rfl⟩
  | some i =>
    refine ⟨PW_upd same_refl _ _ _ ?_, rfl⟩
    intro p _
    rw [kill_found_spec]
    refine ⟨rfl, ?_⟩
    by_cases hs : p.state = SLEEPING
    · simp [hs]
    · simp [hs]

theorem chpri_same (k : kernel) (pid priority : Int) :
    PW same k.ptable (chpri k pid priority).1.ptable ∧
      (chpri k pid priority).1.nextpid = k.nextpid := by
  unfold chpri
  cases scan (fun p => decide (p.pid = pid)) k.ptable with
  | none => exact ⟨PW_refl same_refl _, rfl⟩
  | some i =>
    refine ⟨PW_upd same_refl _ _ _ ?_, rfl⟩
    intro p _
    exact ⟨rfl, Iff.rfl⟩

theorem PidInv_next {k k1 : kernel} (h : PW keeps k.ptable k1.ptable)
    (hn : k1.nextpid = k.nextpid) (hinv : PidInv k) : PidInv k1 := by
  have := PidInv_of_PW k1.initproc h hinv
  rw [← hn] at this
  exact this

theorem step_inv (c : consts) (k k1 : kernel) (op : Op) (r : Option Int) (hinv : PidInv k)
    (h : step c k op = some (k1, r)) :
    PidInv k1 ∧ k.nextpid ≤ k1.nextpid ∧
      (∀ x, r = some x → x = k.nextpid ∧ k1.nextpid = k.nextpid + 1) := by
  cases op with
  | allocproc kstack =>
    obtain ⟨k2, a, halloc, hinv2, hle, hnew⟩ := allocproc_inv c k kstack
    simp only [step, halloc] at h
    cases a with
    | none =>
      simp only [Option.some.injEq, Prod.mk.injEq] at h
      obtain ⟨h1, h2⟩ := h
      subst h1 h2
      exact ⟨hinv2 hinv, hle, fun x hx => by cases hx⟩
    | some np =>
      simp only [Option.some.injEq, Prod.mk.injEq] at h
      obtain ⟨h1, h2⟩ := h
      subst h1 h2
      obtain ⟨q, _, _, _, hnext⟩ := hnew np rfl
      refine ⟨hinv2 hinv, hle, fun x hx => ?_⟩
      cases hx
      exact ⟨rfl, hnext⟩
  | fork cur kstack pgdir =>
    simp only [step] at h
    by_cases hl : live k cur = true
    · simp only [hl, if_true, Option.map_eq_some'] at h
      obtain ⟨⟨k2, ret⟩, hf, he⟩ := h
      simp only [Prod.mk.injEq] at he
      obtain ⟨h1, h2⟩ := he
      subst h1
      obtain ⟨hi, hle, hret⟩ := fork_inv c k k2 cur kstack pgdir ret hinv hf
      refine ⟨hi, hle, fun x hx => ?_⟩
      subst h2
      by_cases hm : ret = -1
      · simp [hm] at hx
      · simp only [hm, if_false, Option.some.injEq] at hx
        subst hx
        exact hret hm
    · simp [hl] at h
  | clone cur kstack fcn stack =>
    simp only [step] at h
    by_cases hl : live k cur = true
    · simp only [hl, if_true, Option.map_eq_some'] at h
      obtain ⟨⟨k2, ret⟩, hf, he⟩ := h
      simp only [Prod.mk.injEq] at he
      obtain ⟨h1, h2⟩ := he
      subst h1
      obtain ⟨hi, hle, hret⟩ := clone_inv c k k2 cur kstack fcn stack ret hinv hf
      refine ⟨hi, hle, fun x hx => ?_⟩
      subst h2
      by_cases hm : ret = -1
      · simp [hm] at hx
      · simp only [hm, if_false, Option.some.injEq] at hx
        subst hx
        exact hret hm
    · simp [hl] at h
  | exit cur =>
    simp only [step] at h
    by_cases hl : live k cur = true
    · simp only [hl, if_true, Option.map_eq_some'] at h
      obtain ⟨k2, hf, he⟩ := h
      simp only [Prod.mk.injEq] at he
      obtain ⟨h1, h2⟩ := he
      subst h1 h2
      obtain ⟨hpw, hn⟩ := exit_keeps k k2 cur hl hf
      exact ⟨PidInv_next hpw hn hinv, by rw [hn], fun x hx => by cases hx⟩
    · simp [hl] at h
  | wait cur =>
    simp only [step] at h
    by_cases hl : live k cur = true
    · simp only [hl, if_true, Option.map_eq_some'] at h
      obtain ⟨⟨k2, ret⟩, hf, he⟩ := h
      simp only [Prod.mk.injEq] at he
      obtain ⟨h1, h2⟩ := he
      subst h1 h2
      obtain ⟨hpw, hn⟩ := wait_keeps k k2 cur ret hl hf
      exact ⟨PidInv_next hpw hn hinv, by rw [hn], fun x hx => by cases hx⟩
    · simp [hl] at h
  | join cur =>
    simp only [step] at h
    by_cases hl : live k cur = true
    · simp only [hl, if_true, Option.map_eq_some'] at h
      obtain ⟨⟨k2, ret⟩, hf, he⟩ := h
      simp only [Prod.mk.injEq] at he
      obtain ⟨h1, h2⟩ := he
      subst h1 h2
      obtain ⟨hpw, hn⟩ := join_keeps k k2 cur ret hl hf
      exact ⟨PidInv_next hpw hn hinv, by rw [hn], fun x hx => by cases hx⟩
    · simp [hl] at h
  | kill pid =>
    simp only [step, Option.some.injEq, Prod.mk.injEq] at h
    obtain ⟨h1, h2⟩ := h
    subst h1 h2
    obtain ⟨hpw, hn⟩ := kill_same k pid
    exact ⟨PidInv_next (PW_keeps_of_same hpw) hn hinv, by rw [hn], fun x hx => by cases hx⟩
  | chpri pid priority =>
    simp only [step, Option.some.injEq, Prod.mk.injEq] at h
    obtain ⟨h1, h2⟩ := h
    subst h1 h2
    obtain ⟨hpw, hn⟩ := chpri_same k pid priority
    exact ⟨PidInv_next (PW_keeps_of_same hpw) hn hinv, by rw [hn], fun x hx => by cases hx⟩
  | wakeup chan =>
    simp only [step, Option.some.injEq, Prod.mk.injEq] at h
    obtain ⟨h1, h2⟩ := h
    subst h1 h2
    exact ⟨PidInv_next (PW_keeps_of_same (PW_wakeup1 chan k.ptable)) rfl hinv, le_refl _,
      fun x hx => by cases hx⟩

theorem run_inv (c : consts) :
    ∀ (ops : List Op) (k k2 : kernel) (pids : List Int), PidInv k →
      run c k ops = some (k2, pids) →
      PidInv k2 ∧ k.nextpid ≤ k2.nextpid ∧
        (∀ x ∈ pids, k.nextpid ≤ x ∧ x < k2.nextpid) ∧ pids.Pairwise (fun a b => a < b) := by
  intro ops
  induction ops with
  | nil =>
    intro k k2 pids hinv h
    simp only [run, Option.some.injEq, Prod.mk.injEq] at h
    obtain ⟨h1, h2⟩ := h
    subst h1 h2
    exact ⟨hinv, le_refl _, by simp, List.Pairwise.nil⟩
  | cons op ops ih =>
    intro k k2 pids hinv h
    unfold run at h
    cases hs : step c k op with
    | none => simp [hs] at h
    | some res =>
      obtain ⟨k1, r⟩ := res
      simp only [hs, Option.map_eq_some'] at h
      obtain ⟨⟨k3, rest⟩, hrun, he⟩ := h
      simp only [Prod.mk.injEq] at he
      obtain ⟨h1, h2⟩ := he
      subst h1 h2
      obtain ⟨hinv1, hle1, hr⟩ := step_inv c k k1 op r hinv hs
      obtain ⟨hinv3, hle3, hrange, hsorted⟩ := ih k1 k3 rest hinv1 hrun
      refine ⟨hinv3, by omega, ?_, ?_⟩
      · intro x hx
        rcases List.mem_append.1 hx with hx | hx
        · have hx2 : r = some x := by
            cases r with
            | none => simp at hx
            | some y => simp at hx; rw [hx]
          obtain ⟨e1, e2⟩ := hr x hx2
          omega
        · have := hrange x hx
          omega
      · rw [List.pairwise_append]
        refine ⟨?_, hsorted, ?_⟩
        · cases r with
          | none => simp
          | some y => simp
        · intro a ha b hb
          have ha2 : r = some a := by
            cases r with
            | none => simp at ha
            | some y => simp at ha; rw [ha]
          obtain ⟨e1, e2⟩ := hr a ha2
          have := hrange b hb
          omega

/-! ## Theorems on the heap directory -/

theorem runHeap_wf :
    ∀ (ops : List HeapOp) (p : proc) (l : List Nat), WF p.vm l →
      ∃ p2 rets l2, runHeap p ops = some (p2, rets) ∧ WF p2.vm l2 := by
  intro ops
  induction ops with
  | nil => intro p l h; exact ⟨p, [], l, rfl, h⟩
  | cons op ops ih =>
    intro p l h
    cases op with
    | grow n =>
      cases hf : findFree p.vm (NVMA - 1) 1 with
      | none =>
        obtain ⟨p2, rets, l2, hrun2, hwf2⟩ := ih p l h
        exact ⟨p2, 0 :: rets, l2, by simp [runHeap, mygrowproc_full n h hf, hrun2], hwf2⟩
      | some i =>
        obtain ⟨vm2, start, l1, l2, hrun, _, hwf, _⟩ := mygrowproc_free n h hf
        obtain ⟨p2, rets, l3, hrun2, hwf2⟩ := ih { p with vm := vm2 } _ hwf
        exact ⟨p2, start :: rets, l3, by simp [runHeap, hrun, hrun2], hwf2⟩
    | reduce a =>
      rcases first_hit p.vm a l with hmiss | ⟨l1, j, l2, hl, hmiss, vj, hvj, ha, hlen⟩
      · obtain ⟨p2, rets, l2, hrun2, hwf2⟩ := ih p l h
        exact ⟨p2, 0 :: rets, l2,
          by simp [runHeap, myreduceproc_miss a (wf_nodes h) hmiss, hrun2], hwf2⟩
      · subst hl
        obtain ⟨prev, vq, _, hqm, hq, hqj, hrun, hseg⟩ :=
          myreduceproc_hit a (wf_nodes h) hmiss hvj ha hlen
        obtain ⟨p2, rets, l3, hrun2, hwf2⟩ :=
          ih { p with vm := unlinked p.vm prev vq j vj } _ (wf_reduce h hvj hq hqm hqj hseg)
        exact ⟨p2, 0 :: rets, l3, by simp [runHeap, hrun, hrun2], hwf2⟩

/-- C1: from the directory set up by `allocproc`, every sequence of
    `mygrowproc(n)` calls with `n > 0` and `myreduceproc(a)` calls runs to
    completion with `sz` unchanged, and the walk from the sentinel then lists
    records with strictly increasing addresses, each ending at or below the
    start of every later one, all at or above `sz`. -/
theorem heap_order_invariant (p0 : proc) (vm0 : List vma) (ops : List HeapOp)
    (hlen : vm0.length = NVMA) (hinit : p0.vm = vm_init vm0)
    (hpos : ∀ n, HeapOp.grow n ∈ ops → 0 < n) :
    ∃ p rets al, runHeap p0 ops = some (p, rets) ∧ p.sz = p0.sz ∧
      allocs p.vm = some al ∧
      al.Pairwise (fun x y => x.1 < y.1 ∧ x.1 + x.2 ≤ y.1) ∧ ∀ x ∈ al, p0.sz ≤ x.1 := by
  have h0 : HeapInv p0 [] := by
    refine ⟨?_, trivial⟩
    rw [hinit]
    exact vm_init_wf vm0 hlen
  obtain ⟨p, rets, l, hrun, hsz, hinv⟩ := runHeap_inv ops p0 [] h0 hpos
  obtain ⟨hpw, hlo⟩ := ordered_pairwise l p.sz hinv.2
  refine ⟨p, rets, l.map (pairAt p.vm), hrun, hsz, allocs_eq (wf_nodes hinv.1), hpw, ?_⟩
  rw [← hsz]
  exact hlo

theorem heap_order_invariant_witness :
    ∃ p rets al,
      runHeap exProc [HeapOp.grow 10, HeapOp.grow 20, HeapOp.grow 5, HeapOp.reduce 4106,
        HeapOp.grow 15] = some (p, rets) ∧ p.sz = exProc.sz ∧
      allocs p.vm = some al ∧
      al.Pairwise (fun x y => x.1 < y.1 ∧ x.1 + x.2 ≤ y.1) ∧ ∀ x ∈ al, exProc.sz ≤ x.1 :=
  heap_order_invariant exProc blank.vm _ (by decide) (by decide)
    (by intro n hn; simp at hn; omega)

/-- C2: evaluation at the failing input.  After allocating 10, 20 and 5 bytes
    and freeing the 20-byte block the records are `(4096, 10)` and `(4126, 5)`,
    so the gap `[4106, 4126)` holds exactly 20 bytes; `mygrowproc(15)` is placed
    in the gap at 4106, but `mygrowproc(20)` is placed after the last record,
    at 4131. -/
theorem first_fit_skips_exact_gap :
    (runHeap exProc [HeapOp.grow 10, HeapOp.grow 20, HeapOp.grow 5,
        HeapOp.reduce 4106]).map (fun x => allocs x.1.vm)
      = some (some [(4096, 10), (4126, 5)]) ∧
    (runHeap exProc [HeapOp.grow 10, HeapOp.grow 20, HeapOp.grow 5,
        HeapOp.reduce 4106, HeapOp.grow 15]).map (fun x => (x.2, allocs x.1.vm))
      = some ([4096, 4106, 4126, 0, 4106], some [(4096, 10), (4106, 15), (4126, 5)]) ∧
    (runHeap exProc [HeapOp.grow 10, HeapOp.grow 20, HeapOp.grow 5,
        HeapOp.reduce 4106, HeapOp.grow 20]).map (fun x => (x.2, allocs x.1.vm))
      = some ([4096, 4106, 4126, 0, 4131], some [(4096, 10), (4126, 5), (4131, 20)]) := by
  decide

/-- C3 (as stated, refuted): from the directory set up by `allocproc` with
    `sz = 4096`, ten calls `mygrowproc(1)` return 4096 .. 4104 and then 0: the
    tenth call fails and only nine allocations are recorded. -/
theorem tenth_grow_fails :
    (runHeap exProc (List.replicate 10 (HeapOp.grow 1))).map (fun x => (x.2, allocs x.1.vm))
      = some ([4096, 4097, 4098, 4099, 4100, 4101, 4102, 4103, 4104, 0],
          some [(4096, 1), (4097, 1), (4098, 1), (4099, 1), (4100, 1), (4101, 1),
            (4102, 1), (4103, 1), (4104, 1)]) := by
  decide

/-- C3 (amended): from the directory set up by `allocproc`, nine successive
    `mygrowproc` calls all succeed, each returned address being recorded with
    its size among the nine live allocations, and every further call returns
    0 and leaves the record unchanged; and in every directory reached by
    `mygrowproc` and `myreduceproc` calls, `mygrowproc` fails exactly when
    all nine records `vm[1..9]` are allocated, and otherwise adds one record. -/
theorem heap_capacity (p0 : proc) (vm0 : List vma) (ns : List Int)
    (hlen : vm0.length = NVMA) (hinit : p0.vm = vm_init vm0) (h9 : ns.length = 9) :
    (∃ p rets al, runHeap p0 (ns.map HeapOp.grow) = some (p, rets) ∧
        allocs p.vm = some al ∧ al.length = 9 ∧
        List.Forall₂ (fun r n => (r, n) ∈ al) rets ns ∧
        ∀ n, mygrowproc p n = some (p, 0)) ∧
    (∀ (ops : List HeapOp) (q : proc) (rets : List Int) (n : Int),
        runHeap p0 ops = some (q, rets) →
        ∃ l, nodes q.vm = some l ∧
          ((l.length = 9 ∧ mygrowproc q n = some (q, 0)) ∨
           (l.length < 9 ∧ ∃ q2 start l2, mygrowproc q n = some (q2, start) ∧
              nodes q2.vm = some l2 ∧ l2.length = l.length + 1))) := by
  have h0 : WF p0.vm [] := by
    rw [hinit]
    exact vm_init_wf vm0 hlen
  constructor
  · obtain ⟨p, rets, l, hrun, hwf, hl, hall, _⟩ :=
      grow_many ns p0 [] h0 (by simp [h9, NVMA])
    have hl9 : l.length = 9 := by simp [hl, h9]
    refine ⟨p, rets, l.map (pairAt p.vm), hrun, allocs_eq (wf_nodes hwf), by simp [hl9],
      hall, ?_⟩
    intro n
    exact mygrowproc_full n hwf (findFree_none_of_full hwf (by simp [hl9, NVMA]))
  · intro ops q rets n hrun
    obtain ⟨q1, rets1, l, hrun1, hwf⟩ := runHeap_wf ops p0 [] h0
    rw [hrun] at hrun1
    have hq : q = q1 := by
      have := Option.some.inj hrun1
      exact congrArg Prod.fst this
    subst hq
    refine ⟨l, wf_nodes hwf, ?_⟩
    have hle := wf_length hwf
    by_cases hfull : l.length = 9
    · left
      exact ⟨hfull, mygrowproc_full n hwf (findFree_none_of_full hwf (by simp [hfull, NVMA]))⟩
    · right
      have hlt : l.length < 9 := by simp [NVMA] at hle; omega
      obtain ⟨i, hf⟩ := findFree_of_room hwf (by simp [NVMA]; omega)
      obtain ⟨vm2, start, l1, l2, hrun2, hl, hwf2, _⟩ := mygrowproc_free n hwf hf
      refine ⟨hlt, _, start, l1 ++ i :: l2, hrun2, wf_nodes hwf2, ?_⟩
      rw [hl]
      simp
      omega

theorem heap_capacity_witness :
    (∃ p rets al, runHeap exProc ([1, 2, 3, 4, 5, 6, 7, 8, 9].map HeapOp.grow) = some (p, rets) ∧
        allocs p.vm = some al ∧ al.length = 9 ∧
        List.Forall₂ (fun r n => (r, n) ∈ al) rets [1, 2, 3, 4, 5, 6, 7, 8, 9] ∧
        ∀ n, mygrowproc p n = some (p, 0)) ∧
    (∀ (ops : List HeapOp) (q : proc) (rets : List Int) (n : Int),
        runHeap exProc ops = some (q, rets) →
        ∃ l, nodes q.vm = some l ∧
          ((l.length = 9 ∧ mygrowproc q n = some (q, 0)) ∨
           (l.length < 9 ∧ ∃ q2 start l2, mygrowproc q n = some (q2, start) ∧
              nodes q2.vm = some l2 ∧ l2.length = l.length + 1))) :=
  heap_capacity exProc blank.vm [1, 2, 3, 4, 5, 6, 7, 8, 9] (by decide) (by decide) (by decide)

/-- C4 (as stated, refuted): after `mygrowproc(0)` the walk from the sentinel
    reaches a record with address 4096, yet `myreduceproc(4096)` leaves it
    linked; and after `mygrowproc(0)`, `mygrowproc(5)` two reachable records
    have address 4096 and `myreduceproc(4096)` unlinks the second one, not the
    first. -/
theorem reduce_skips_empty_record :
    (runHeap exProc [HeapOp.grow 0]).map (fun x => allocs x.1.vm)
      = some (some [(4096, 0)]) ∧
    (runHeap exProc [HeapOp.grow 0, HeapOp.reduce 4096]).map (fun x => allocs x.1.vm)
      = some (some [(4096, 0)]) ∧
    (runHeap exProc [HeapOp.grow 0, HeapOp.grow 5]).map (fun x => allocs x.1.vm)
      = some (some [(4096, 0), (4096, 5)]) ∧
    (runHeap exProc [HeapOp.grow 0, HeapOp.grow 5, HeapOp.reduce 4096]).map
        (fun x => allocs x.1.vm)
      = some (some [(4096, 0)]) := by
  decide

/-- C4 (amended): on a directory whose walk from the sentinel is well formed,
    `myreduceproc(a)` returns 0; if no reachable record has address `a` and a
    positive length the record of the process is unchanged; otherwise the
    first such record `j` is unlinked: its predecessor takes over its `next`,
    record `j` gets `next = -1` and `length = 0`, every other record is
    unchanged and the walk lists the remaining records in the same order. -/
theorem myreduceproc_spec (p : proc) (l : List Nat) (a : Int) (hwf : nodes p.vm = some l) :
    ((∀ j ∈ l, ¬ hit p.vm a j) → myreduceproc p a = some (p, 0)) ∧
    (∀ (l1 : List Nat) (j : Nat) (l2 : List Nat) (vj : vma),
        l = l1 ++ j :: l2 → (∀ x ∈ l1, ¬ hit p.vm a x) →
        p.vm[j]? = some vj → vj.address = a → 0 < vj.length →
        ∃ (prev : Nat) (vq : vma) (vm2 : List vma),
          (0 :: l1).getLast? = some prev ∧ p.vm[prev]? = some vq ∧
          myreduceproc p a = some ({ p with vm := vm2 }, 0) ∧
          nodes vm2 = some (l1 ++ l2) ∧
          vm2[j]? = some { vj with next := -1, length := 0 } ∧
          vm2[prev]? = some { vq with next := vj.next } ∧
          ∀ x, x ≠ j → x ≠ prev → vm2[x]? = p.vm[x]?) := by
  constructor
  · intro hmiss
    exact myreduceproc_miss a hwf hmiss
  · intro l1 j l2 vj hl hmiss hvj ha hlen
    subst hl
    obtain ⟨prev, vq, hlast, hqm, hq, hqj, hrun, hseg⟩ :=
      myreduceproc_hit a hwf hmiss hvj ha hlen
    have hjl : j < p.vm.length := (List.getElem?_eq_some.1 hvj).1
    have hql : prev < p.vm.length := (List.getElem?_eq_some.1 hq).1
    have hlt := (nodes_seg hwf).2
    refine ⟨prev, vq, unlinked p.vm prev vq j vj, hlast, hq, hrun, ?_, ?_, ?_, ?_⟩
    · apply seg_nodes hseg
      simp at hlt ⊢
      omega
    · exact set2_at_prev _ _ hjl
    · exact set2_at_new _ _ hql (Ne.symm hqj)
    · intro x hxj hxq
      exact set2_other _ _ hxq hxj

theorem myreduceproc_spec_witness :
    nodes exProc3.vm = some [1, 2, 3] ∧
    (((∀ j ∈ [1, 2, 3], ¬ hit exProc3.vm 4106 j) → myreduceproc exProc3 4106 = some (exProc3, 0)) ∧
    (∀ (l1 : List Nat) (j : Nat) (l2 : List Nat) (vj : vma),
        [1, 2, 3] = l1 ++ j :: l2 → (∀ x ∈ l1, ¬ hit exProc3.vm 4106 x) →
        exProc3.vm[j]? = some vj → vj.address = 4106 → 0 < vj.length →
        ∃ (prev : Nat) (vq : vma) (vm2 : List vma),
          (0 :: l1).getLast? = some prev ∧ exProc3.vm[prev]? = some vq ∧
          myreduceproc exProc3 4106 = some ({ exProc3 with vm := vm2 }, 0) ∧
          nodes vm2 = some (l1 ++ l2) ∧
          vm2[j]? = some { vj with next := -1, length := 0 } ∧
          vm2[prev]? = some { vq with next := vj.next } ∧
          ∀ x, x ≠ j → x ≠ prev → vm2[x]? = exProc3.vm[x]?)) :=
  ⟨by decide, myreduceproc_spec exProc3 [1, 2, 3] 4106 (by decide)⟩

/-! ## Theorems on the process table -/

/-- C5: evaluation at the failing input.  With one RUNNABLE record of priority
    20 (or two, of priorities 25 and 30) a scheduler round switches to no
    record at all, although the minimum priority over the RUNNABLE records is
    20 (25); such a table arises from `chpri(1, 20)` on a process of default
    priority 10.  With priorities 10, 3, 3, 7 the round runs records 1 and 2. -/
theorem scheduler_round_above_19 :
    (scheduler_round yields [mkRunnable 1 20]).1 = [] ∧
    (scheduler_round yields [mkRunnable 1 25, mkRunnable 2 30]).1 = [] ∧
    (chpri { exTable with ptable := [mkRunnable 1 10] } 1 20).1.ptable = [mkRunnable 1 20] ∧
    (scheduler_round yields [mkRunnable 1 10]).1 = [0] ∧
    (scheduler_round yields
      [mkRunnable 1 10, mkRunnable 2 3, mkRunnable 3 3, mkRunnable 4 7]).1 = [1, 2] := by
  decide

/-- C6: `wakeup(chan)` changes only the table; the table keeps its length,
    each record that was SLEEPING on `chan` becomes the same record with
    state RUNNABLE, every other record is unchanged, and a second
    `wakeup(chan)` changes nothing. -/
theorem wakeup_spec (k : kernel) (chan : Ptr) :
    (wakeup k chan).nextpid = k.nextpid ∧ (wakeup k chan).initproc = k.initproc ∧
    (wakeup k chan).ptable.length = k.ptable.length ∧
    (∀ (i : Nat) (p : proc), k.ptable[i]? = some p →
      (p.state = SLEEPING ∧ p.chan = chan →
        (wakeup k chan).ptable[i]? = some { p with state := RUNNABLE }) ∧
      (¬ (p.state = SLEEPING ∧ p.chan = chan) → (wakeup k chan).ptable[i]? = some p)) ∧
    wakeup (wakeup k chan) chan = wakeup k chan := by
  refine ⟨rfl, rfl, wakeup1_length chan k.ptable, ?_, ?_⟩
  · intro i p hp
    have := wakeup1_get chan k.ptable i p hp
    constructor
    · intro h
      simpa [wakeup, h] using this
    · intro h
      simpa [wakeup, h] using this
  · simp [wakeup, wakeup1_idem]

/-- C7: evaluation at the failing input.  In a table holding a running
    process with pid 1 and a record never used (state UNUSED, pid 0),
    `kill(0)` returns 0 and sets the `killed` flag of the unused record; the
    process that `allocproc` next creates in that record is EMBRYO with
    `killed = 1`. -/
theorem kill_zero_marks_unused :
    kill exTable 0 =
      ({ exTable with ptable :=
          [{ blank with state := RUNNING, pid := 1, priority := 10, kstack := 1 },
           { blank with killed := 1 }] }, 0) ∧
    ((allocproc exConsts (kill exTable 0).1 7).1.ptable[1]?).map
        (fun p => (p.state, p.pid, p.killed)) = some (EMBRYO, 2, 1) := by
  decide

/-- C8: evaluation at the failing input.  In a table where only pid 1 exists,
    `chpri(7, 5)` leaves the table unchanged and returns 7, and `chpri(1, 5)`
    sets the priority and returns 1: the value returned is the pid passed in,
    whether or not a record carries it. -/
theorem chpri_returns_pid :
    chpri exTable 7 5 = (exTable, 7) ∧
    chpri exTable 1 5 =
      ({ exTable with ptable :=
          [{ blank with state := RUNNING, pid := 1, priority := 5, kstack := 1 }, blank] }, 1) ∧
    (chpri { exTable with ptable := [mkRunnable 7 10] } 7 5).2 = 7 := by
  decide

theorem vm_init_spec (vm0 : List vma) (h : vm0.length = NVMA) :
    (vm_init vm0).length = NVMA ∧
    (∃ v, (vm_init vm0)[0]? = some v ∧ v.next = 0 ∧ v.length = 0) ∧
    (∀ j v, 1 ≤ j → (vm_init vm0)[j]? = some v → v.next = -1 ∧ v.length = 0) := by
  obtain ⟨a0, a1, a2, a3, a4, a5, a6, a7, a8, a9, rfl⟩ := length_ten vm0 h
  rw [vm_init_eq]
  refine ⟨rfl, ⟨_, rfl, rfl, rfl⟩, ?_⟩
  intro j v hj hv
  match j, hj, hv with
  | 1, _, hv => simp at hv; subst hv; exact ⟨rfl, rfl⟩
  | 2, _, hv => simp at hv; subst hv; exact ⟨rfl, rfl⟩
  | 3, _, hv => simp at hv; subst hv; exact ⟨rfl, rfl⟩
  | 4, _, hv => simp at hv; subst hv; exact ⟨rfl, rfl⟩
  | 5, _, hv => simp at hv; subst hv; exact ⟨rfl, rfl⟩
  | 6, _, hv => simp at hv; subst hv; exact ⟨rfl, rfl⟩
  | 7, _, hv => simp at hv; subst hv; exact ⟨rfl, rfl⟩
  | 8, _, hv => simp at hv; subst hv; exact ⟨rfl, rfl⟩
  | 9, _, hv => simp at hv; subst hv; exact ⟨rfl, rfl⟩
  | n + 10, _, hv => simp at hv

theorem allocproc_found_ok (c : consts) (n : Int) (kstack : Nat) (p : proc) (hk : kstack ≠ 0) :
    allocproc_found c n kstack p =
      { p with state := EMBRYO, pid := n, vm := vm_init p.vm, mqmask := 0, slot := c.SLOT,
               priority := 10, shm := c.KERNBASE, shmkeymask := 0, kstack := kstack } := by
  unfold allocproc_found
  simp [hk]

/-- C9: from a table whose records are all UNUSED and `nextpid = 1`, after any
    sequence of allocproc, fork, clone, exit, wait, join, kill, chpri and
    wakeup steps (callers being processes), two distinct records in use have
    distinct pids, every pid in use is positive and below `nextpid`, and the
    pids handed out by successful allocations are strictly increasing,
    positive and below `nextpid`. -/
theorem pid_unique (c : consts) (k0 k : kernel) (ops : List Op) (pids : List Int)
    (h0 : ∀ p ∈ k0.ptable, p.state = UNUSED) (hn : k0.nextpid = 1)
    (hrun : run c k0 ops = some (k, pids)) :
    (∀ (i j : Nat) (p q : proc), i ≠ j → k.ptable[i]? = some p → k.ptable[j]? = some q →
      p.state ≠ UNUSED → q.state ≠ UNUSED → p.pid ≠ q.pid) ∧
    (∀ p ∈ k.ptable, p.state ≠ UNUSED → 0 < p.pid ∧ p.pid < k.nextpid) ∧
    pids.Pairwise (fun a b => a < b) ∧ (∀ x ∈ pids, 0 < x ∧ x < k.nextpid) := by
  have hinv0 : PidInv k0 := by
    refine ⟨by rw [hn]; decide, ?_, ?_⟩
    · intro i p hp hs
      exact absurd (h0 p (List.getElem?_mem hp)) hs
    · intro i j p q _ hp _ hs
      exact absurd (h0 p (List.getElem?_mem hp)) hs
  obtain ⟨⟨_, hrange, hdist⟩, _, hlog, hsorted⟩ := run_inv c ops k0 k pids hinv0 hrun
  refine ⟨hdist, ?_, hsorted, ?_⟩
  · intro p hp hs
    obtain ⟨i, hi⟩ := List.getElem?_of_mem hp
    exact hrange i p hi hs
  · intro x hx
    have := hlog x hx
    rw [hn] at this
    omega

theorem pid_unique_witness :
    (∀ p ∈ exBoot.ptable, p.state = UNUSED) ∧ exBoot.nextpid = 1 ∧
    run exConsts exBoot exOps = some (exAfter, [1, 2, 4, 5]) ∧
    ((∀ (i j : Nat) (p q : proc), i ≠ j → exAfter.ptable[i]? = some p →
        exAfter.ptable[j]? = some q → p.state ≠ UNUSED → q.state ≠ UNUSED → p.pid ≠ q.pid) ∧
      (∀ p ∈ exAfter.ptable, p.state ≠ UNUSED → 0 < p.pid ∧ p.pid < exAfter.nextpid) ∧
      ([1, 2, 4, 5] : List Int).Pairwise (fun a b => a < b) ∧
      (∀ x ∈ ([1, 2, 4, 5] : List Int), 0 < x ∧ x < exAfter.nextpid)) :=
  ⟨by decide, by decide, by decide,
    pid_unique exConsts exBoot exAfter exOps [1, 2, 4, 5] (by decide) (by decide) (by decide)⟩

/-- C10: if record `i` is the lowest-index UNUSED record (with a ten-record
    directory) and `kalloc` succeeds, `allocproc` returns record `i`, sets
    `nextpid` one higher and replaces record `i` only; the new record is
    EMBRYO with pid the previous `nextpid`, priority 10, `mqmask` and
    `shmkeymask` 0, the kernel stack from `kalloc`, and a directory in which
    `vm[0].next = 0`, every other record has `next = -1`, all lengths are 0
    and the walk from the sentinel is empty; if no record is UNUSED it
    returns null and leaves the globals unchanged. -/
theorem allocproc_spec (c : consts) (k : kernel) (kstack : Nat) :
    (∀ (i : Nat) (p : proc), k.ptable[i]? = some p → p.state = UNUSED →
        (∀ j q, j < i → k.ptable[j]? = some q → q.state ≠ UNUSED) →
        kstack ≠ 0 → p.vm.length = NVMA →
        ∃ p2, allocproc c k kstack =
            ({ k with ptable := k.ptable.set i p2, nextpid := k.nextpid + 1 }, some i) ∧
          p2.state = EMBRYO ∧ p2.pid = k.nextpid ∧ p2.priority = 10 ∧ p2.mqmask = 0 ∧
          p2.shmkeymask = 0 ∧ p2.kstack = kstack ∧ p2.vm.length = NVMA ∧
          (∃ v, p2.vm[0]? = some v ∧ v.next = 0 ∧ v.length = 0) ∧
          (∀ j v, 1 ≤ j → p2.vm[j]? = some v → v.next = -1 ∧ v.length = 0) ∧
          nodes p2.vm = some []) ∧
    ((∀ p ∈ k.ptable, p.state ≠ UNUSED) → allocproc c k kstack = (k, none)) := by
  constructor
  · intro i p hp hfree hmin hk hlen
    have hrun := allocproc_hit c k kstack i p hp hfree hmin
    simp only [hk, if_false] at hrun
    obtain ⟨h1, h2, h3⟩ := vm_init_spec p.vm hlen
    have hok := allocproc_found_ok c k.nextpid kstack p hk
    have hvm : (allocproc_found c k.nextpid kstack p).vm = vm_init p.vm := by rw [hok]
    refine ⟨allocproc_found c k.nextpid kstack p, hrun, by rw [hok], by rw [hok], by rw [hok],
      by rw [hok], by rw [hok], by rw [hok], ?_, ?_, ?_, ?_⟩
    · rw [hvm]; exact h1
    · rw [hvm]; exact h2
    · rw [hvm]; exact h3
    · rw [hvm]; exact wf_nodes (vm_init_wf p.vm hlen)
  · intro h
    exact allocproc_miss c k kstack h

theorem allocproc_spec_witness :
    ∃ p2, allocproc exConsts exTable 7 =
        ({ exTable with ptable := exTable.ptable.set 1 p2, nextpid := exTable.nextpid + 1 },
          some 1) ∧
      p2.state = EMBRYO ∧ p2.pid = exTable.nextpid ∧ p2.priority = 10 ∧ p2.mqmask = 0 ∧
      p2.shmkeymask = 0 ∧ p2.kstack = 7 ∧ p2.vm.length = NVMA ∧
      (∃ v, p2.vm[0]? = some v ∧ v.next = 0 ∧ v.length = 0) ∧
      (∀ j v, 1 ≤ j → p2.vm[j]? = some v → v.next = -1 ∧ v.length = 0) ∧
      nodes p2.vm = some [] :=
  (allocproc_spec exConsts exTable 7).1 1 blank (by decide) (by decide)
    (by
      intro j q hj hq
      have hj0 : j = 0 := by omega
      subst hj0
      have : q = { blank with state := RUNNING, pid := 1, priority := 10, kstack := 1 } := by
        simpa [exTable] using hq.symm
      subst this
      decide)
    (by decide) (by decide)

/-! ## Lemmas on the structure of the heap directory -/

theorem mygrowproc_total {p : proc} {l : List Nat} (n : Int) (h : WF p.vm l) :
    ∃ r, mygrowproc p n = some r := by
  cases hf : findFree p.vm (NVMA - 1) 1 with
  | none => exact ⟨_, mygrowproc_full n h hf⟩
  | some i =>
    obtain ⟨vm2, start, _, _, hrun, _⟩ := mygrowproc_free n h hf
    exact ⟨_, hrun⟩

theorem myreduceproc_total {p : proc} {l : List Nat} (a : Int) (h : WF p.vm l) :
    ∃ r, myreduceproc p a = some r := by
  rcases first_hit p.vm a l with hmiss | ⟨l1, j, l2, hl, hmiss, vj, hvj, ha, hlen⟩
  · exact ⟨_, myreduceproc_miss a (wf_nodes h) hmiss⟩
  · subst hl
    obtain ⟨prev, vq, _, _, _, _, hrun, _⟩ := myreduceproc_hit a (wf_nodes h) hmiss hvj ha hlen
    exact ⟨_, hrun⟩

/-- C17: from the directory set up by `allocproc`, every sequence of
    `mygrowproc(n)` (any integer `n`) and `myreduceproc(a)` calls runs to
    completion, and afterwards the walk from `vm[0].next` reaches the
    terminator after at most 9 records, all of them in `vm[1..9]` and none
    twice, a record of `vm[1..9]` being on the walk exactly if its `next` is
    not -1; the walks of `mygrowproc` and `myreduceproc` terminate for every
    argument, and the slot `mygrowproc` claims is not on the walk. -/
theorem heap_structure (p0 : proc) (vm0 : List vma) (ops : List HeapOp)
    (hlen : vm0.length = NVMA) (hinit : p0.vm = vm_init vm0) :
    ∃ p rets l, runHeap p0 ops = some (p, rets) ∧ nodes p.vm = some l ∧
      l.length ≤ 9 ∧ l.Nodup ∧ (∀ i ∈ l, 1 ≤ i ∧ i ≤ 9) ∧
      (∀ i, 1 ≤ i → i ≤ 9 → ∃ v, p.vm[i]? = some v ∧ (i ∈ l ↔ v.next ≠ -1)) ∧
      (∀ n, ∃ r, mygrowproc p n = some r) ∧ (∀ a, ∃ r, myreduceproc p a = some r) ∧
      (∀ i, findFree p.vm (NVMA - 1) 1 = some i → i ∉ l) := by
  have h0 : WF p0.vm [] := by
    rw [hinit]
    exact vm_init_wf vm0 hlen
  obtain ⟨p, rets, l, hrun, hwf⟩ := runHeap_wf ops p0 [] h0
  refine ⟨p, rets, l, hrun, wf_nodes hwf, ?_, (List.nodup_cons.1 (wf_nodup hwf)).2, ?_, ?_,
    fun n => mygrowproc_total n hwf, fun a => myreduceproc_total a hwf, ?_⟩
  · have := wf_length hwf
    simpa [NVMA] using this
  · intro i hi
    have := wf_mem_range hwf i hi
    simp [NVMA] at this
    omega
  · intro i h1 h9
    have hil : i < p.vm.length := by rw [hwf.len]; simp [NVMA]; omega
    refine ⟨p.vm[i], List.getElem?_eq_getElem hil, ?_⟩
    have := hwf.free i _ h1 (List.getElem?_eq_getElem hil)
    constructor
    · intro hi hn
      exact (this.1 hn) hi
    · intro hn
      by_contra hi
      exact hn (this.2 hi)
  · intro i hf
    obtain ⟨h1, _, v, hv, hvn⟩ := findFree_some _ _ _ hf
    exact (hwf.free i v h1 hv).1 hvn

theorem heap_structure_witness :
    ∃ p rets l,
      runHeap exProc [HeapOp.grow 10, HeapOp.grow (-3), HeapOp.grow 0, HeapOp.reduce 4096,
        HeapOp.grow 7] = some (p, rets) ∧ nodes p.vm = some l ∧
      l.length ≤ 9 ∧ l.Nodup ∧ (∀ i ∈ l, 1 ≤ i ∧ i ≤ 9) ∧
      (∀ i, 1 ≤ i → i ≤ 9 → ∃ v, p.vm[i]? = some v ∧ (i ∈ l ↔ v.next ≠ -1)) ∧
      (∀ n, ∃ r, mygrowproc p n = some r) ∧ (∀ a, ∃ r, myreduceproc p a = some r) ∧
      (∀ i, findFree p.vm (NVMA - 1) 1 = some i → i ∉ l) :=
  heap_structure exProc blank.vm _ (by decide) (by decide)


/-! ## Allocation followed by release -/

theorem growWalk_spec2 {vm : List vma} (n : Int) (i : Nat) (hi : i < vm.length) (hi0 : i ≠ 0) :
    ∀ (l : List Nat) (p : Nat) (start : Int) (fuel : Nat) (vp : vma),
      l.length < fuel → seg vm p l → i ∉ p :: l → vm[p]? = some vp →
      ∃ (index start2 : Int) (prev : Nat) (vq : vma) (l1 l2 : List Nat),
        growWalk vm n fuel vp.next start (p : Int) = some (index, start2, (prev : Int)) ∧
        vm[prev]? = some vq ∧ prev ≠ i ∧ prev ∈ p :: l ∧ l = l1 ++ l2 ∧
        index = ((l2.headD 0 : Nat) : Int) ∧ (p :: l1).getLast? = some prev ∧
        seg ((vm.set i ⟨index, start2, n⟩).set prev { vq with next := (i : Int) }) p
          (l1 ++ i :: l2) ∧
        (sortedNN vm l →
          (∀ x ∈ l1, ∀ vx, vm[x]? = some vx → vx.address + vx.length ≤ start2) ∧
          ((∀ q ∈ l, ∀ vq, vm[q]? = some vq → start ≤ vq.address) → start ≤ start2)) := by
  intro l
  induction l with
  | nil =>
    intro p start fuel vp hf hs hni hp
    obtain ⟨v, hv, hn⟩ := hs
    rw [hp] at hv
    cases hv
    have hpi : p ≠ i := by
      intro h; apply hni; simp [h]
    have hpl : p < vm.length := (List.getElem?_eq_some.1 hp).1
    cases fuel with
    | zero => simp at hf
    | succ f =>
      refine ⟨0, start, p, vp, [], [], by simp [growWalk, hn], hp, hpi, by simp, rfl, rfl, rfl,
        ?_, ?_⟩
      · refine ⟨hi0, ⟨_, set2_at_prev _ _ hpl, rfl⟩, ⟨_, set2_at_new _ _ hi hpi, rfl⟩⟩
      · intro _
        exact ⟨fun x hx => absurd hx (List.not_mem_nil x), fun _ => le_refl _⟩
  | cons j l ih =>
    intro p start fuel vp hf hs hni hp
    have hpnot : p ∉ j :: l := seg_not_mem p _ hs
    obtain ⟨hj0, ⟨v, hv, hn⟩, hrest⟩ := hs
    rw [hp] at hv
    cases hv
    obtain ⟨vj, hvj⟩ := seg_head hrest
    have hpi : p ≠ i := by
      intro h; apply hni; simp [h]
    have hji : j ≠ i := by
      intro h; apply hni; simp [h]
    have hil : i ∉ l := by
      intro h; apply hni; simp [h]
    have hpj : p ≠ j := by
      intro h; apply hpnot; simp [h]
    have hpl2 : p ∉ l := by
      intro h; apply hpnot; simp [h]
    have hpl : p < vm.length := (List.getElem?_eq_some.1 hp).1
    cases fuel with
    | zero => simp at hf
    | succ f =>
      have hf2 : l.length < f := by simp at hf; omega
      have hne : ¬ ((j : Int) = 0) := by omega
      by_cases hbr : start + n < vj.address
      · -- the loop breaks in front of record j
        refine ⟨(j : Int), start, p, vp, [], j :: l,
          by simp [growWalk, hn, hne, vmAt_cast, hvj, hbr], hp, hpi, by simp, rfl, rfl, rfl,
          ?_, ?_⟩
        · refine ⟨hi0, ⟨_, set2_at_prev _ _ hpl, rfl⟩, hj0, ⟨_, set2_at_new _ _ hi hpi, rfl⟩, ?_⟩
          apply seg_congr l j _ hrest
          intro x hx w hw
          have hxi : x ≠ i := by
            intro h; subst h; exact hni (List.mem_cons_of_mem _ hx)
          have hxp : x ≠ p := by
            intro h; subst h; exact hpnot hx
          exact ⟨w, by rw [set2_other _ _ hxi hxp]; exact hw, rfl⟩
        · intro _
          exact ⟨fun x hx => absurd hx (List.not_mem_nil x), fun _ => le_refl _⟩
      · -- the loop moves on past record j
        obtain ⟨index, start2, prev, vq, l1, l2, hg, hq, hqi, hqm, hl, hidx, hlast, hseg, hord⟩ :=
          ih j (vj.address + vj.length) f vj hf2 hrest (by simp [Ne.symm hji, hil]) hvj
        have hpq : p ≠ prev := by
          intro h; subst h; exact hpnot hqm
        have hql : prev < vm.length := (List.getElem?_eq_some.1 hq).1
        refine ⟨index, start2, prev, vq, j :: l1, l2,
          by simp [growWalk, hn, hne, vmAt_cast, hvj, hbr, hg], hq, hqi,
          List.mem_cons_of_mem _ hqm, by simp [hl], hidx,
          by rw [List.getLast?_cons_cons]; exact hlast, ?_, ?_⟩
        · exact ⟨hj0, ⟨vp, by rw [set2_other _ _ hpi hpq]; exact hp, hn⟩, hseg⟩
        · intro hsort
          obtain ⟨hj, hrest2⟩ := hsort
          obtain ⟨hjnn, hjbelow⟩ := hj vj hvj
          obtain ⟨hb1, hb2⟩ := hord hrest2
          have hmono : vj.address + vj.length ≤ start2 := hb2 hjbelow
          constructor
          · intro x hx vx hvx
            rcases List.mem_cons.1 hx with hx | hx
            · subst hx
              rw [hvj] at hvx
              cases hvx
              exact hmono
            · exact hb1 x hx vx hvx
          · intro hlow
            have := hlow j (by simp) vj hvj
            omega

theorem mygrowproc_free2 {p : proc} {l : List Nat} (n : Int) (h : WF p.vm l) {i : Nat}
    (hfree : findFree p.vm (NVMA - 1) 1 = some i) :
    ∃ (vm2 : List vma) (start : Int) (l1 l2 : List Nat),
      mygrowproc p n = some ({ p with vm := vm2 }, start) ∧ l = l1 ++ l2 ∧
      WF vm2 (l1 ++ i :: l2) ∧ i ∉ l ∧
      vm2[i]? = some ⟨((l2.headD 0 : Nat) : Int), start, n⟩ ∧
      (∀ x v, x ≠ i → p.vm[x]? = some v →
        ∃ w, vm2[x]? = some w ∧ w.address = v.address ∧ w.length = v.length) ∧
      (sortedNN p.vm l →
        ∀ x ∈ l1, ∀ vx, p.vm[x]? = some vx → vx.address + vx.length ≤ start) := by
  obtain ⟨v0, hv0⟩ := seg_head h.chain
  have hl := wf_length h
  obtain ⟨hi1, hi2, vi, hvi, hvin⟩ := findFree_some _ _ _ hfree
  have hilt : i < p.vm.length := (List.getElem?_eq_some.1 hvi).1
  have hi0 : i ≠ 0 := by omega
  have hil : i ∉ l := ((h.free i vi hi1 hvi).1 hvin)
  have hni : i ∉ (0 :: l) := by
    intro hm
    rcases List.mem_cons.1 hm with hm | hm
    · exact hi0 hm
    · exact hil hm
  obtain ⟨index, start, prev, vq, l1, l2, hg, hq, hqi, hqm, hlsplit, hidx, _, hseg, hord⟩ :=
    growWalk_spec2 n i hilt hi0 l 0 p.sz WALKFUEL v0
      (by simp [WALKFUEL, NVMA] at *; omega) h.chain hni hv0
  have hql : prev < p.vm.length := (List.getElem?_eq_some.1 hq).1
  have hg2 : growWalk p.vm n WALKFUEL v0.next p.sz 0 = some (index, start, (prev : Int)) := by
    simpa using hg
  have hq2 : (p.vm.set i ⟨index, start, n⟩)[prev]? = some vq := by
    rw [List.getElem?_set_ne (Ne.symm hqi)]; exact hq
  refine ⟨(p.vm.set i ⟨index, start, n⟩).set prev { vq with next := (i : Int) }, start, l1, l2,
    ?_, hlsplit, ⟨?_, hseg, ?_⟩, hil, ?_, ?_, fun hs => (hord hs).1⟩
  · unfold mygrowproc
    rw [vmAt_zero, hv0]
    simp only [hg2, hfree, vmAt_cast, hq2, Int.toNat_ofNat]
  · simp [h.len]
  · intro x v hx hxv
    by_cases hxi : x = i
    · subst hxi
      rw [set2_at_new _ _ hilt hqi] at hxv
      cases hxv
      simp only [List.mem_append, List.mem_cons, true_or, or_true, not_true_eq_false, iff_false]
      rw [hidx]
      omega
    · by_cases hxq : x = prev
      · subst hxq
        rw [set2_at_prev _ _ hql] at hxv
        cases hxv
        have hxl : x ∈ l := by
          rcases List.mem_cons.1 hqm with hm | hm
          · omega
          · exact hm
        rw [hlsplit] at hxl
        have : x ∈ l1 ++ i :: l2 := by
          simp only [List.mem_append, List.mem_cons] at hxl ⊢
          tauto
        simp only [this, not_true_eq_false, iff_false]
        show ¬ ((i : Int) = -1)
        omega
      · rw [set2_other _ _ hxi hxq] at hxv
        rw [h.free x v hx hxv, hlsplit]
        simp only [List.mem_append, List.mem_cons, hxi, false_or]
  · rw [hidx]; exact set2_at_new _ _ hilt hqi
  · intro x v hxi hxv
    by_cases hxq : x = prev
    · subst hxq
      rw [hq] at hxv
      cases hxv
      exact ⟨_, set2_at_prev _ _ hql, rfl, rfl⟩
    · exact ⟨v, by rw [set2_other _ _ hxi hxq]; exact hxv, rfl, rfl⟩

theorem pairAt_some {vm : List vma} {x : Nat} {v : vma} (h : vm[x]? = some v) :
    pairAt vm x = (v.address, v.length) := by
  simp [pairAt, h]

theorem sortedNN_of_pairs {vm : List vma} :
    ∀ (l : List Nat),
      (l.map (pairAt vm)).Pairwise (fun x y => x.1 < y.1 ∧ x.1 + x.2 ≤ y.1) →
      (∀ x ∈ l.map (pairAt vm), 0 ≤ x.2) → sortedNN vm l := by
  intro l
  induction l with
  | nil => intro _ _; trivial
  | cons j l ih =>
    intro hord hnn
    rw [List.map_cons, List.pairwise_cons] at hord
    refine ⟨?_, ih hord.2 (fun x hx => hnn x (by rw [List.map_cons]; exact List.mem_cons_of_mem _ hx))⟩
    intro vj hvj
    have hj := pairAt_some hvj
    constructor
    · have := hnn (pairAt vm j) (by simp)
      rw [hj] at this
      exact this
    · intro q hq vq hvq
      have := (hord.1 (pairAt vm q) (List.mem_map_of_mem _ hq)).2
      rw [hj, pairAt_some hvq] at this
      exact this

theorem findFree_of_free {p : proc} {l : List Nat} (h : WF p.vm l)
    (hfree : ∃ j v, 1 ≤ j ∧ p.vm[j]? = some v ∧ v.next = -1) :
    ∃ i, findFree p.vm (NVMA - 1) 1 = some i := by
  cases hf : findFree p.vm (NVMA - 1) 1 with
  | some i => exact ⟨i, rfl⟩
  | none =>
    exfalso
    obtain ⟨j, v, hj1, hv, hvn⟩ := hfree
    have hjl : j < p.vm.length := (List.getElem?_eq_some.1 hv).1
    rw [h.len] at hjl
    exact findFree_none (NVMA - 1) 1 (by rw [h.len]; simp [NVMA]) hf j v hj1
      (by simp [NVMA] at *; omega) hv hvn

theorem wf_of_run_nodes (p0 : proc) (vm0 : List vma) (ops : List HeapOp) (p : proc)
    (rets : List Int) (l : List Nat) (hlen : vm0.length = NVMA) (hinit : p0.vm = vm_init vm0)
    (hrun : runHeap p0 ops = some (p, rets)) (hnodes : nodes p.vm = some l) : WF p.vm l := by
  have h0 : WF p0.vm [] := by
    rw [hinit]
    exact vm_init_wf vm0 hlen
  obtain ⟨p2, rets2, l2, hrun2, hwf⟩ := runHeap_wf ops p0 [] h0
  rw [hrun] at hrun2
  have hp : p = p2 := congrArg Prod.fst (Option.some.inj hrun2)
  subst hp
  have := wf_nodes hwf
  rw [hnodes] at this
  rw [Option.some.inj this]
  exact hwf

/-- C18 (amended): on a well-formed directory whose allocated records have lengths that
    are not negative, strictly increasing addresses and no overlap, and that
    has a free record, for `n > 0` the call `mygrowproc(n)` followed by
    `myreduceproc` on the address it returned leaves the walk from the
    sentinel visiting the same records with the same `(address, length)`
    pairs, and the same records of `vm[1..9]` free, as before. -/
theorem grow_reduce_roundtrip (p : proc) (l : List Nat) (n : Int) (hwf : WF p.vm l)
    (hord : (l.map (pairAt p.vm)).Pairwise (fun x y => x.1 < y.1 ∧ x.1 + x.2 ≤ y.1))
    (hnn : ∀ x ∈ l.map (pairAt p.vm), 0 ≤ x.2)
    (hfree : ∃ j v, 1 ≤ j ∧ p.vm[j]? = some v ∧ v.next = -1) (hn : 0 < n) :
    ∃ p1 start p2, mygrowproc p n = some (p1, start) ∧
      myreduceproc p1 start = some (p2, 0) ∧
      nodes p.vm = some l ∧ nodes p2.vm = some l ∧ allocs p2.vm = allocs p.vm ∧
      (∀ j, 1 ≤ j → j ≤ 9 → ∃ v w, p.vm[j]? = some v ∧ p2.vm[j]? = some w ∧
        (w.next = -1 ↔ v.next = -1)) := by
  obtain ⟨i, hf⟩ := findFree_of_free hwf hfree
  obtain ⟨vm2, start, l1, l2, hrun, hl, hwf2, hil, hnew, hkeep, hbelow⟩ :=
    mygrowproc_free2 n hwf hf
  have hsort := sortedNN_of_pairs l hord hnn
  have hb := hbelow hsort
  have hi1 : i ∉ l1 := fun h => hil (by rw [hl]; exact List.mem_append_left _ h)
  have hmiss : ∀ x ∈ l1, ¬ hit vm2 start x := by
    intro x hx hhit
    obtain ⟨w, hw, hwa, hwl⟩ := hhit
    have hxl : x ∈ l := by rw [hl]; exact List.mem_append_left _ hx
    have hxlt : x < p.vm.length := by
      have := (wf_mem_range hwf x hxl).2
      rw [hwf.len]; exact this
    have hxi : x ≠ i := fun h => hi1 (h ▸ hx)
    obtain ⟨w2, hw2, ha2, hl2⟩ := hkeep x _ hxi (List.getElem?_eq_getElem hxlt)
    rw [hw] at hw2
    cases hw2
    have := hb x hx _ (List.getElem?_eq_getElem hxlt)
    omega
  obtain ⟨prev, vq, _, hqm, hq, hqi, hrun2, hseg⟩ :=
    @myreduceproc_hit { p with vm := vm2 } l1 l2 i _ start (wf_nodes hwf2) hmiss hnew rfl hn
  have hwf3 := wf_reduce hwf2 hnew hq hqm hqi hseg
  rw [← hl] at hwf3
  have hpair : ∀ x ∈ l, pairAt (unlinked vm2 prev vq i
      { next := ((l2.headD 0 : Nat) : Int), address := start, length := n }) x
        = pairAt p.vm x := by
    intro x hx
    have hxlt : x < p.vm.length := by
      have := (wf_mem_range hwf x hx).2
      rw [hwf.len]; exact this
    have hxi : x ≠ i := fun h => hil (h ▸ hx)
    obtain ⟨w2, hw2, ha2, hl2⟩ := hkeep x _ hxi (List.getElem?_eq_getElem hxlt)
    obtain ⟨w3, hw3, ha3, hl3⟩ := @unlinked_other vm2 prev i x vq
      { next := ((l2.headD 0 : Nat) : Int), address := start, length := n } w2 hq hxi hw2
    rw [pairAt_some hw3, pairAt_some (List.getElem?_eq_getElem hxlt), ha3, hl3, ha2, hl2]
  refine ⟨_, start, _, hrun, hrun2, wf_nodes hwf, wf_nodes hwf3, ?_, ?_⟩
  · rw [allocs_eq (wf_nodes hwf3), allocs_eq (wf_nodes hwf)]
    exact congrArg some (List.map_congr_left hpair)
  · intro j h1 h9
    have hjl : j < p.vm.length := by rw [hwf.len]; simp [NVMA]; omega
    have hjl3 : j < (unlinked vm2 prev vq i
        { next := ((l2.headD 0 : Nat) : Int), address := start, length := n }).length := by
      rw [hwf3.len]; simp [NVMA]; omega
    refine ⟨_, _, List.getElem?_eq_getElem hjl, List.getElem?_eq_getElem hjl3, ?_⟩
    rw [hwf.free j _ h1 (List.getElem?_eq_getElem hjl),
      hwf3.free j _ h1 (List.getElem?_eq_getElem hjl3)]

theorem grow_reduce_roundtrip_witness :
    ∃ p1 start p2, mygrowproc exProc3 7 = some (p1, start) ∧
      myreduceproc p1 start = some (p2, 0) ∧
      nodes exProc3.vm = some [1, 2, 3] ∧ nodes p2.vm = some [1, 2, 3] ∧
      allocs p2.vm = allocs exProc3.vm ∧
      (∀ j, 1 ≤ j → j ≤ 9 → ∃ v w, exProc3.vm[j]? = some v ∧ p2.vm[j]? = some w ∧
        (w.next = -1 ↔ v.next = -1)) :=
  grow_reduce_roundtrip exProc3 [1, 2, 3] 7
    (wf_of_run_nodes exProc blank.vm [HeapOp.grow 10, HeapOp.grow 20, HeapOp.grow 5] exProc3
      [4096, 4106, 4126] [1, 2, 3] (by decide) (by decide) (by decide) (by decide))
    (by decide) (by decide) ⟨4, ⟨-1, 0, 0⟩, by decide, by decide, by decide⟩ (by decide)

/-- C18 (as stated, refuted): the directory of `exProcNeg`, built by
    `mygrowproc(10)`, `growproc(10)` and `mygrowproc(-10)`, is well formed with
    records `(4096, 10)` and `(4106, -10)`, in strictly increasing address
    order with no overlap, and has a free record.  `mygrowproc(5)` returns
    4096 and `myreduceproc(4096)` then unlinks the older record `(4096, 10)`:
    the walk afterwards is `(4106, -10)`, `(4096, 5)`, not the one before. -/
theorem roundtrip_unlinks_older_record :
    nodes exProcNeg.vm = some [1, 2] ∧
    [1, 2].map (pairAt exProcNeg.vm) = [(4096, 10), (4106, -10)] ∧
    ([1, 2].map (pairAt exProcNeg.vm)).Pairwise (fun x y => x.1 < y.1 ∧ x.1 + x.2 ≤ y.1) ∧
    exProcNeg.vm.map (fun v => decide (v.next = -1)) =
      [false, false, false, true, true, true, true, true, true, true] ∧
    allocs exProcNeg.vm = some [(4096, 10), (4106, -10)] ∧
    (mygrowproc exProcNeg 5).map (fun r => (allocs r.1.vm, r.2)) =
      some (some [(4096, 10), (4106, -10), (4096, 5)], 4096) ∧
    ((mygrowproc exProcNeg 5).bind (fun r => myreduceproc r.1 r.2)).map
        (fun r => (allocs r.1.vm, r.2)) =
      some (some [(4106, -10), (4096, 5)], 0) := by
  decide


/-! ## Lemmas and theorems on fork, exit, wait and join -/

theorem fork_cases (c : consts) (k : kernel) (cur kstack pgdir : Nat) (pr : proc)
    (hpr : k.ptable[cur]? = some pr) :
    ((∀ p ∈ k.ptable, p.state ≠ UNUSED) ∧ fork c k cur kstack pgdir = some (k, -1)) ∨
    ∃ i u, k.ptable[i]? = some u ∧ u.state = UNUSED ∧
      (∀ j q, j < i → k.ptable[j]? = some q → q.state ≠ UNUSED) ∧
      ((kstack = 0 ∧ fork c k cur kstack pgdir =
          some (⟨k.ptable.set i (allocproc_found c k.nextpid kstack u), k.nextpid + 1,
            k.initproc⟩, -1)) ∨
       (kstack ≠ 0 ∧ pgdir = 0 ∧ fork c k cur kstack pgdir =
          some (⟨k.ptable.set i (fork_undo (allocproc_found c k.nextpid kstack u)),
            k.nextpid + 1, k.initproc⟩, -1)) ∨
       (kstack ≠ 0 ∧ pgdir ≠ 0 ∧ fork c k cur kstack pgdir =
          some (⟨k.ptable.set i
              (fork_child (if cur = i then allocproc_found c k.nextpid kstack u else pr)
                cur pgdir (allocproc_found c k.nextpid kstack u)),
            k.nextpid + 1, k.initproc⟩, k.nextpid))) := by
  rcases allocproc_cases c k kstack with ⟨hall, h⟩ | ⟨i, u, hu, hfree, hmin, h⟩
  · left
    refine ⟨hall, ?_⟩
    unfold fork
    rw [h]
  · right
    refine ⟨i, u, hu, hfree, hmin, ?_⟩
    have hil : i < k.ptable.length := (List.getElem?_eq_some.1 hu).1
    by_cases hk : kstack = 0
    · left
      refine ⟨hk, ?_⟩
      unfold fork
      rw [h]
      simp [hk]
    · right
      have hnp : (k.ptable.set i (allocproc_found c k.nextpid kstack u))[i]?
          = some (allocproc_found c k.nextpid kstack u) := List.getElem?_set_self hil
      have hcur : (k.ptable.set i (allocproc_found c k.nextpid kstack u))[cur]?
          = some (if cur = i then allocproc_found c k.nextpid kstack u else pr) := by
        by_cases hci : cur = i
        · subst hci
          simp [hnp]
        · rw [List.getElem?_set_ne (Ne.symm hci), hpr]
          simp [hci]
      by_cases hpg : pgdir = 0
      · left
        refine ⟨hk, hpg, ?_⟩
        unfold fork
        rw [h]
        simp only [hk, if_false, hcur, hnp, hpg, if_true, List.set_set]
      · right
        refine ⟨hk, hpg, ?_⟩
        unfold fork
        rw [h]
        simp only [hk, if_false, hcur, hnp, hpg, List.set_set, allocproc_found_pid]

theorem clone_cases (c : consts) (k : kernel) (cur kstack : Nat) (fcn : Int) (stack : Nat)
    (pr : proc) (hpr : k.ptable[cur]? = some pr) :
    ((∀ p ∈ k.ptable, p.state ≠ UNUSED) ∧ clone c k cur kstack fcn stack = some (k, -1)) ∨
    ∃ i u, k.ptable[i]? = some u ∧ u.state = UNUSED ∧
      (∀ j q, j < i → k.ptable[j]? = some q → q.state ≠ UNUSED) ∧
      ((kstack = 0 ∧ clone c k cur kstack fcn stack =
          some (⟨k.ptable.set i (allocproc_found c k.nextpid kstack u), k.nextpid + 1,
            k.initproc⟩, -1)) ∨
       (kstack ≠ 0 ∧ clone c k cur kstack fcn stack =
          some (⟨k.ptable.set i
              (clone_child (if cur = i then allocproc_found c k.nextpid kstack u else pr)
                cur fcn stack (allocproc_found c k.nextpid kstack u)),
            k.nextpid + 1, k.initproc⟩, k.nextpid))) := by
  rcases allocproc_cases c k kstack with ⟨hall, h⟩ | ⟨i, u, hu, hfree, hmin, h⟩
  · left
    refine ⟨hall, ?_⟩
    unfold clone
    rw [h]
  · right
    refine ⟨i, u, hu, hfree, hmin, ?_⟩
    have hil : i < k.ptable.length := (List.getElem?_eq_some.1 hu).1
    by_cases hk : kstack = 0
    · left
      refine ⟨hk, ?_⟩
      unfold clone
      rw [h]
      simp [hk]
    · right
      have hnp : (k.ptable.set i (allocproc_found c k.nextpid kstack u))[i]?
          = some (allocproc_found c k.nextpid kstack u) := List.getElem?_set_self hil
      have hcur : (k.ptable.set i (allocproc_found c k.nextpid kstack u))[cur]?
          = some (if cur = i then allocproc_found c k.nextpid kstack u else pr) := by
        by_cases hci : cur = i
        · subst hci
          simp [hnp]
        · rw [List.getElem?_set_ne (Ne.symm hci), hpr]
          simp [hci]
      refine ⟨hk, ?_⟩
      unfold clone
      rw [h]
      simp only [hk, if_false, hcur, hnp, List.set_set, allocproc_found_pid]

theorem allocproc_found_sz (c : consts) (n : Int) (kstack : Nat) (p : proc) :
    (allocproc_found c n kstack p).sz = p.sz := by
  unfold allocproc_found
  by_cases h : kstack = 0 <;> simp [h]

theorem allocproc_found_kstack (c : consts) (n : Int) (kstack : Nat) (p : proc) :
    (allocproc_found c n kstack p).kstack = kstack := by
  unfold allocproc_found
  by_cases h : kstack = 0 <;> simp [h]

theorem first_unused_unique {t : List proc} {i i2 : Nat} {u u2 : proc}
    (hu : t[i]? = some u) (hfree : u.state = UNUSED)
    (hmin : ∀ j q, j < i → t[j]? = some q → q.state ≠ UNUSED)
    (hu2 : t[i2]? = some u2) (hfree2 : u2.state = UNUSED)
    (hmin2 : ∀ j q, j < i2 → t[j]? = some q → q.state ≠ UNUSED) : i2 = i := by
  rcases Nat.lt_trichotomy i2 i with h | h | h
  · exact absurd hfree2 (hmin i2 u2 h hu2)
  · exact h
  · exact absurd hfree (hmin2 i u h hu)

theorem set_states {t : List proc} {i : Nat} {u q : proc} (hu : t[i]? = some u)
    (hq : q.state = u.state) :
    ∀ (j : Nat) (p : proc), t[j]? = some p → ∃ q2, (t.set i q)[j]? = some q2 ∧ q2.state = p.state := by
  intro j p hp
  have hil : i < t.length := (List.getElem?_eq_some.1 hu).1
  by_cases hij : i = j
  · subst hij
    rw [hu] at hp
    cases hp
    exact ⟨q, List.getElem?_set_self hil, hq⟩
  · exact ⟨p, by rw [List.getElem?_set_ne hij]; exact hp, rfl⟩

/-- C11: for a caller in the table (with `nextpid` positive) `fork` returns;
    it returns -1 exactly when no record is UNUSED, `kalloc` fails or
    `copyuvm` fails, and then every record has the state it had before and
    the record that was tried (the first UNUSED one) has `kstack = 0`;
    otherwise it returns the pid of the new record, which is RUNNABLE with
    `parent` the caller, `sz` the caller's `sz` and `tf->eax = 0`, every
    other record being unchanged. -/
theorem fork_spec (c : consts) (k : kernel) (cur kstack pgdir : Nat) (pr : proc)
    (hpr : k.ptable[cur]? = some pr) (hpos : 0 < k.nextpid) :
    ∃ k2 r, fork c k cur kstack pgdir = some (k2, r) ∧
      (r = -1 ↔ ((∀ p ∈ k.ptable, p.state ≠ UNUSED) ∨ kstack = 0 ∨ pgdir = 0)) ∧
      (r = -1 →
        k2.ptable.length = k.ptable.length ∧
        (∀ (j : Nat) (p : proc), k.ptable[j]? = some p →
          ∃ q, k2.ptable[j]? = some q ∧ q.state = p.state) ∧
        (∀ (i : Nat) (u : proc), k.ptable[i]? = some u → u.state = UNUSED →
          (∀ j q, j < i → k.ptable[j]? = some q → q.state ≠ UNUSED) →
          ∃ q, k2.ptable[i]? = some q ∧ q.kstack = 0)) ∧
      (r ≠ -1 →
        ∃ (np : Nat) (q : proc), k2.ptable[np]? = some q ∧ q.pid = r ∧ q.state = RUNNABLE ∧
          q.parent = Ptr.proc cur ∧ q.sz = pr.sz ∧ q.tf.eax = 0 ∧
          ∀ j, j ≠ np → k2.ptable[j]? = k.ptable[j]?) := by
  rcases fork_cases c k cur kstack pgdir pr hpr with
    ⟨hall, h⟩ | ⟨i, u, hu, hfree, hmin, h | h | h⟩
  · refine ⟨k, -1, h, ⟨fun _ => Or.inl hall, fun _ => rfl⟩, fun _ => ⟨rfl, ?_, ?_⟩,
      fun hr => absurd rfl hr⟩
    · intro j p hp
      exact ⟨p, hp, rfl⟩
    · intro i u hu hfree _
      exact absurd hfree (hall u (List.getElem?_mem hu))
  · obtain ⟨hk, h⟩ := h
    have hil : i < k.ptable.length := (List.getElem?_eq_some.1 hu).1
    refine ⟨_, -1, h, ⟨fun _ => Or.inr (Or.inl hk), fun _ => rfl⟩,
      fun _ => ⟨by simp, ?_, ?_⟩, fun hr => absurd rfl hr⟩
    · apply set_states hu
      rw [allocproc_found_state, hfree]
      simp [hk]
    · intro i2 u2 hu2 hfree2 hmin2
      have := first_unused_unique hu hfree hmin hu2 hfree2 hmin2
      subst this
      refine ⟨_, List.getElem?_set_self hil, ?_⟩
      rw [allocproc_found_kstack]
      exact hk
  · obtain ⟨hk, hpg, h⟩ := h
    have hil : i < k.ptable.length := (List.getElem?_eq_some.1 hu).1
    refine ⟨_, -1, h, ⟨fun _ => Or.inr (Or.inr hpg), fun _ => rfl⟩,
      fun _ => ⟨by simp, ?_, ?_⟩, fun hr => absurd rfl hr⟩
    · apply set_states hu
      rw [hfree]
      rfl
    · intro i2 u2 hu2 hfree2 hmin2
      have := first_unused_unique hu hfree hmin hu2 hfree2 hmin2
      subst this
      exact ⟨_, List.getElem?_set_self hil, rfl⟩
  · obtain ⟨hk, hpg, h⟩ := h
    have hil : i < k.ptable.length := (List.getElem?_eq_some.1 hu).1
    have hne : k.nextpid ≠ -1 := by omega
    refine ⟨_, k.nextpid, h, ⟨fun hr => absurd hr hne, ?_⟩, fun hr => absurd hr hne, fun _ => ?_⟩
    · intro hcase
      rcases hcase with hall | hk0 | hpg0
      · exact absurd hfree (hall u (List.getElem?_mem hu))
      · exact absurd hk0 hk
      · exact absurd hpg0 hpg
    · refine ⟨i, _, List.getElem?_set_self hil, ?_, rfl, rfl, ?_, rfl, ?_⟩
      · show (allocproc_found c k.nextpid kstack u).pid = k.nextpid
        exact allocproc_found_pid c _ _ _
      · show (if cur = i then allocproc_found c k.nextpid kstack u else pr).sz = pr.sz
        by_cases hci : cur = i
        · subst hci
          rw [hpr] at hu
          cases hu
          simp [allocproc_found_sz]
        · simp [hci]
      · intro j hj
        exact List.getElem?_set_ne (Ne.symm hj)

theorem fork_spec_witness :
    exTable.ptable[0]? = some { blank with state := RUNNING, pid := 1, priority := 10, kstack := 1 } ∧
    0 < exTable.nextpid ∧
    ∃ k2 r, fork exConsts exTable 0 7 0 = some (k2, r) ∧
      (r = -1 ↔ ((∀ p ∈ exTable.ptable, p.state ≠ UNUSED) ∨ 7 = 0 ∨ 0 = 0)) ∧
      (r = -1 →
        k2.ptable.length = exTable.ptable.length ∧
        (∀ (j : Nat) (p : proc), exTable.ptable[j]? = some p →
          ∃ q, k2.ptable[j]? = some q ∧ q.state = p.state) ∧
        (∀ (i : Nat) (u : proc), exTable.ptable[i]? = some u → u.state = UNUSED →
          (∀ j q, j < i → exTable.ptable[j]? = some q → q.state ≠ UNUSED) →
          ∃ q, k2.ptable[i]? = some q ∧ q.kstack = 0)) ∧
      (r ≠ -1 →
        ∃ (np : Nat) (q : proc), k2.ptable[np]? = some q ∧ q.pid = r ∧ q.state = RUNNABLE ∧
          q.parent = Ptr.proc 0 ∧
          q.sz = ({ blank with state := RUNNING, pid := 1, priority := 10, kstack := 1 } : proc).sz ∧
          q.tf.eax = 0 ∧
          ∀ j, j ≠ np → k2.ptable[j]? = exTable.ptable[j]?) :=
  ⟨by decide, by decide, fork_spec exConsts exTable 0 7 0 _ (by decide) (by decide)⟩

theorem setPS_self (p : proc) : setPS p p.parent p.state = p := rfl

theorem setPS_setPS (p : proc) (a a2 : Ptr) (b b2 : procstate) :
    setPS (setPS p a b) a2 b2 = setPS p a2 b2 := rfl

theorem setPS_congr (p : proc) {a a2 : Ptr} {b b2 : procstate} (ha : a = a2) (hb : b = b2) :
    setPS p a b = setPS p a2 b2 := by
  subst ha hb
  rfl

theorem wake_eq (chan : Ptr) (p : proc) :
    (if p.state = SLEEPING ∧ p.chan = chan then { p with state := RUNNABLE } else p) =
      setPS p p.parent (if p.state = SLEEPING ∧ p.chan = chan then RUNNABLE else p.state) := by
  by_cases h : p.state = SLEEPING ∧ p.chan = chan
  · rw [if_pos h, if_pos h]
    rfl
  · rw [if_neg h, if_neg h]
    rfl

theorem wakeup1_get2 (chan : Ptr) (t : List proc) (i : Nat) (p : proc) (h : t[i]? = some p) :
    (wakeup1 chan t)[i]? =
      some (setPS p p.parent (if p.state = SLEEPING ∧ p.chan = chan then RUNNABLE else p.state)) := by
  rw [wakeup1_get chan t i p h, wake_eq]

theorem exit_loop_length (cur init : Ptr) :
    ∀ (fuel i : Nat) (t : List proc), (exit_loop cur init fuel i t).length = t.length :=
  fun fuel i t => (PW_exit_loop cur init fuel i t).1

theorem exit_loop_get (cur init : Ptr) :
    ∀ (fuel i : Nat) (t : List proc) (z : Bool), t.length ≤ i + fuel →
      (z = true ↔ ∃ (m : Nat) (q : proc), i ≤ m ∧ t[m]? = some q ∧ q.parent = cur ∧
        q.state = ZOMBIE) →
      ∀ (j : Nat) (p : proc), t[j]? = some p →
        (exit_loop cur init fuel i t)[j]? =
          some (setPS p (if i ≤ j ∧ p.parent = cur then init else p.parent)
            (if z = true ∧ p.state = SLEEPING ∧ p.chan = init then RUNNABLE else p.state)) := by
  intro fuel
  induction fuel with
  | zero =>
    intro i t z hlen hz j p hp
    have hj : j < t.length := (List.getElem?_eq_some.1 hp).1
    have hzf : z = false := by
      cases z with
      | false => rfl
      | true =>
        obtain ⟨m, q, hm, hq, _⟩ := hz.1 rfl
        have := (List.getElem?_eq_some.1 hq).1
        omega
    have hij : ¬ (i ≤ j ∧ p.parent = cur) := fun h => by omega
    simp only [exit_loop, hp, hzf, hij, if_false, Bool.false_eq_true, false_and, setPS_self]
  | succ f ih =>
    intro i t z hlen hz j p hp
    have hj : j < t.length := (List.getElem?_eq_some.1 hp).1
    unfold exit_loop
    cases hpi : t[i]? with
    | none =>
      have hil : t.length ≤ i := List.getElem?_eq_none_iff.1 hpi
      have hzf : z = false := by
        cases z with
        | false => rfl
        | true =>
          obtain ⟨m, q, hm, hq, _⟩ := hz.1 rfl
          have := (List.getElem?_eq_some.1 hq).1
          omega
      have hij : ¬ (i ≤ j ∧ p.parent = cur) := fun h => by omega
      simp only [hp, hzf, hij, if_false, Bool.false_eq_true, false_and, setPS_self]
    | some pi =>
      have hil : i < t.length := (List.getElem?_eq_some.1 hpi).1
      simp only
      -- the record at index j after the assignment to record i
      have hset : (t.set i { pi with parent := init })[j]? =
          some (setPS p (if i = j then init else p.parent) p.state) := by
        by_cases hij : i = j
        · subst hij
          rw [hpi] at hp
          cases hp
          rw [List.getElem?_set_self hil, if_pos rfl]
          rfl
        · rw [List.getElem?_set_ne hij, hp, if_neg hij, setPS_self]
      by_cases hpar : pi.parent = cur
      · rw [if_pos hpar]
        by_cases hzomb : pi.state = ZOMBIE
        · rw [if_pos hzomb]
          have hzt : z = true := hz.2 ⟨i, pi, le_refl _, hpi, hpar, hzomb⟩
          have hw := wakeup1_get2 init _ j _ hset
          -- pick the flag for the rest of the loop
          by_cases hZ : ∃ (m : Nat) (q : proc), i + 1 ≤ m ∧
              (wakeup1 init (t.set i { pi with parent := init }))[m]? = some q ∧
              q.parent = cur ∧ q.state = ZOMBIE
          · rw [ih (i + 1) _ true (by rw [wakeup1_length]; simp; omega)
              ⟨fun _ => hZ, fun _ => rfl⟩ j _ hw, setPS_setPS]
            apply congrArg some
            apply setPS_congr
            · by_cases hij : i = j
              · subst hij
                rw [hpi] at hp
                cases hp
                simp [setPS, hpar]
              · have h1 : (i + 1 ≤ j) ↔ (i ≤ j) := by omega
                simp [setPS, hij, h1]
            · by_cases hs : p.state = SLEEPING ∧ p.chan = init
              · simp [setPS, hs, hzt]
              · simp [setPS, hs, hzt]
          · rw [ih (i + 1) _ false (by rw [wakeup1_length]; simp; omega)
              ⟨fun h => Bool.noConfusion h, fun h => absurd h hZ⟩ j _ hw, setPS_setPS]
            apply congrArg some
            apply setPS_congr
            · by_cases hij : i = j
              · subst hij
                rw [hpi] at hp
                cases hp
                simp [setPS, hpar]
              · have h1 : (i + 1 ≤ j) ↔ (i ≤ j) := by omega
                simp [setPS, hij, h1]
            · by_cases hs : p.state = SLEEPING ∧ p.chan = init
              · simp [setPS, hs, hzt]
              · simp [setPS, hs, hzt]
        · rw [if_neg hzomb]
          have hz2 : z = true ↔ ∃ (m : Nat) (q : proc), i + 1 ≤ m ∧
              (t.set i { pi with parent := init })[m]? = some q ∧
              q.parent = cur ∧ q.state = ZOMBIE := by
            rw [hz]
            constructor
            · rintro ⟨m, q, hm, hq, h1, h2⟩
              have hmi : i ≠ m := by
                intro h
                subst h
                rw [hpi] at hq
                cases hq
                exact hzomb h2
              exact ⟨m, q, by omega, by rw [List.getElem?_set_ne hmi]; exact hq, h1, h2⟩
            · rintro ⟨m, q, hm, hq, h1, h2⟩
              have hmi : i ≠ m := by omega
              rw [List.getElem?_set_ne hmi] at hq
              exact ⟨m, q, by omega, hq, h1, h2⟩
          rw [ih (i + 1) _ z (by simp; omega) hz2 j _ hset, setPS_setPS]
          apply congrArg some
          apply setPS_congr
          · by_cases hij : i = j
            · subst hij
              rw [hpi] at hp
              cases hp
              simp [setPS, hpar]
            · have h1 : (i + 1 ≤ j) ↔ (i ≤ j) := by omega
              simp [setPS, hij, h1]
          · rfl
      · rw [if_neg hpar]
        have hz2 : z = true ↔ ∃ (m : Nat) (q : proc), i + 1 ≤ m ∧ t[m]? = some q ∧
            q.parent = cur ∧ q.state = ZOMBIE := by
          rw [hz]
          constructor
          · rintro ⟨m, q, hm, hq, h1, h2⟩
            have hmi : i ≠ m := by
              intro h
              subst h
              rw [hpi] at hq
              cases hq
              exact hpar h1
            exact ⟨m, q, by omega, hq, h1, h2⟩
          · rintro ⟨m, q, hm, hq, h1, h2⟩
            exact ⟨m, q, by omega, hq, h1, h2⟩
        rw [ih (i + 1) t z (by omega) hz2 j p hp]
        apply congrArg some
        apply setPS_congr
        · by_cases hij : i = j
          · subst hij
            rw [hpi] at hp
            cases hp
            simp [hpar]
          · have h1 : (i + 1 ≤ j) ↔ (i ≤ j) := by omega
            simp [h1]
        · rfl

theorem zombie_child_iff (cur : Nat) (t : List proc) :
    zombie_child cur t = true ↔
      ∃ (m : Nat) (q : proc), t[m]? = some q ∧ q.parent = Ptr.proc cur ∧ q.state = ZOMBIE := by
  unfold zombie_child
  rw [List.any_eq_true]
  constructor
  · rintro ⟨q, hq, h⟩
    obtain ⟨m, hm⟩ := List.getElem?_of_mem hq
    have h2 : q.parent = Ptr.proc cur ∧ q.state = ZOMBIE := by simpa using h
    exact ⟨m, q, hm, h2.1, h2.2⟩
  · rintro ⟨m, q, hm, h1, h2⟩
    exact ⟨q, List.getElem?_mem hm, by simp [h1, h2]⟩

theorem exit_get (k : kernel) (cur : Nat) (pr : proc) (hpr : k.ptable[cur]? = some pr)
    (hinit : Ptr.proc cur ≠ k.initproc) :
    ∃ k2, exit k cur = some k2 ∧ k2.nextpid = k.nextpid ∧ k2.initproc = k.initproc ∧
      k2.ptable.length = k.ptable.length ∧
      ∀ (j : Nat) (p : proc), k.ptable[j]? = some p →
        k2.ptable[j]? = some (setPS p
          (if p.parent = Ptr.proc cur then k.initproc else p.parent)
          (if j = cur then ZOMBIE
           else if p.state = SLEEPING ∧
              (p.chan = pr.parent ∨ (p.chan = k.initproc ∧ zombie_child cur k.ptable = true))
            then RUNNABLE else p.state)) := by
  have hex : exit k cur = some ⟨upd (exit_loop (Ptr.proc cur) k.initproc
      (wakeup1 pr.parent k.ptable).length 0 (wakeup1 pr.parent k.ptable)) cur
      (fun q => { q with state := ZOMBIE }), k.nextpid, k.initproc⟩ := by
    unfold exit
    simp only [hinit, if_false, hpr]
  refine ⟨_, hex, rfl, rfl, ?_, ?_⟩
  · simp only [upd_length, exit_loop_length, wakeup1_length]
  · intro j p hp
    have hz : zombie_child cur k.ptable = true ↔
        ∃ (m : Nat) (q : proc), 0 ≤ m ∧ (wakeup1 pr.parent k.ptable)[m]? = some q ∧
          q.parent = Ptr.proc cur ∧ q.state = ZOMBIE := by
      rw [zombie_child_iff]
      constructor
      · rintro ⟨m, q, hq, h1, h2⟩
        refine ⟨m, _, Nat.zero_le _, wakeup1_get2 pr.parent _ m q hq, h1, ?_⟩
        simp [setPS, h2]
      · rintro ⟨m, q, _, hq, h1, h2⟩
        have hm : m < k.ptable.length := by
          rw [← wakeup1_length pr.parent]; exact (List.getElem?_eq_some.1 hq).1
        have hq0 := List.getElem?_eq_getElem hm
        rw [wakeup1_get2 pr.parent _ m _ hq0] at hq
        have hq2 := Option.some.inj hq
        refine ⟨m, _, hq0, ?_, ?_⟩
        · rw [← hq2] at h1
          exact h1
        · rw [← hq2] at h2
          by_cases hs : (k.ptable[m]).state = SLEEPING ∧ (k.ptable[m]).chan = pr.parent
          · simp [setPS, hs] at h2
          · simpa [setPS, hs] using h2
    have h1 := wakeup1_get2 pr.parent k.ptable j p hp
    have h2 := exit_loop_get (Ptr.proc cur) k.initproc (wakeup1 pr.parent k.ptable).length 0
      (wakeup1 pr.parent k.ptable) (zombie_child cur k.ptable) (by omega) hz j _ h1
    rw [setPS_setPS] at h2
    by_cases hjc : j = cur
    · subst hjc
      show (upd _ j _)[j]? = _
      rw [upd_get_self _ h2]
      apply congrArg some
      simp [setPS]
    · show (upd _ cur _)[j]? = _
      rw [upd_get_ne _ _ (Ne.symm hjc), h2]
      apply congrArg some
      apply setPS_congr
      · simp [setPS]
      · by_cases hs1 : p.state = SLEEPING ∧ p.chan = pr.parent
        · simp [setPS, hs1, hjc]
        · by_cases hs2 : p.state = SLEEPING
          · have hc : p.chan ≠ pr.parent := fun h => hs1 ⟨hs2, h⟩
            simp [setPS, hs2, hc, hjc, and_comm]
          · simp [setPS, hs2, hjc]

/-- C12 (as stated, refuted): in `exExit` the process at index 2 has parent
    index 1 and a zombie child at index 3; the record at index 4 is not the
    init process, is not a child of the caller and sleeps on channel
    `initproc`, not on the channel of the caller's parent.  After `exit` by
    index 2 its state is RUNNABLE, not SLEEPING as before. -/
theorem exit_wakes_every_sleeper_on_init :
    exExit.initproc = Ptr.proc 0 ∧
    exExit.ptable.map (fun p => (p.state, p.parent, p.chan)) =
      [(SLEEPING, Ptr.null, Ptr.proc 0), (SLEEPING, Ptr.proc 0, Ptr.proc 1),
       (RUNNING, Ptr.proc 1, Ptr.null), (ZOMBIE, Ptr.proc 2, Ptr.null),
       (SLEEPING, Ptr.proc 0, Ptr.proc 0)] ∧
    (exit exExit 2).map (fun k => k.ptable.map (fun p => (p.state, p.parent, p.chan))) =
      some [(RUNNABLE, Ptr.null, Ptr.proc 0), (RUNNABLE, Ptr.proc 0, Ptr.proc 1),
       (ZOMBIE, Ptr.proc 1, Ptr.null), (ZOMBIE, Ptr.proc 0, Ptr.null),
       (RUNNABLE, Ptr.proc 0, Ptr.proc 0)] := by
  decide

/-- C12 (amended): for a caller `P` at index `cur` other than initproc, `exit`
    returns a table of the same length in which every record differs from
    the old one in `parent` and `state` only; the parent is initproc if it
    was `P` and unchanged otherwise, so no record has parent `P`; the state
    of `P` is ZOMBIE, the state of every other record that was SLEEPING on
    channel `P->parent`, or SLEEPING on channel initproc while some child of
    `P` is ZOMBIE, is RUNNABLE, and the state of every remaining record is
    unchanged. -/
theorem exit_spec (k : kernel) (cur : Nat) (pr : proc) (hpr : k.ptable[cur]? = some pr)
    (hinit : Ptr.proc cur ≠ k.initproc) :
    ∃ k2, exit k cur = some k2 ∧ k2.nextpid = k.nextpid ∧ k2.initproc = k.initproc ∧
      k2.ptable.length = k.ptable.length ∧
      ∀ (j : Nat) (p : proc), k.ptable[j]? = some p →
        ∃ q, k2.ptable[j]? = some q ∧
          q = { p with parent := q.parent, state := q.state } ∧
          q.parent = (if p.parent = Ptr.proc cur then k.initproc else p.parent) ∧
          q.parent ≠ Ptr.proc cur ∧
          q.state = (if j = cur then ZOMBIE
            else if p.state = SLEEPING ∧ (p.chan = pr.parent ∨
              (p.chan = k.initproc ∧ ∃ ch ∈ k.ptable, ch.parent = Ptr.proc cur ∧ ch.state = ZOMBIE))
            then RUNNABLE else p.state) := by
  obtain ⟨k2, hex, hn, hi, hl, hget⟩ := exit_get k cur pr hpr hinit
  refine ⟨k2, hex, hn, hi, hl, ?_⟩
  intro j p hp
  refine ⟨_, hget j p hp, rfl, rfl, ?_, ?_⟩
  · show (if p.parent = Ptr.proc cur then k.initproc else p.parent) ≠ Ptr.proc cur
    by_cases h : p.parent = Ptr.proc cur
    · rw [if_pos h]; exact fun h2 => hinit h2.symm
    · rw [if_neg h]; exact h
  · show (if j = cur then ZOMBIE else if p.state = SLEEPING ∧ (p.chan = pr.parent ∨
        (p.chan = k.initproc ∧ zombie_child cur k.ptable = true)) then RUNNABLE else p.state) = _
    have hz : zombie_child cur k.ptable = true ↔
        ∃ ch ∈ k.ptable, ch.parent = Ptr.proc cur ∧ ch.state = ZOMBIE := by
      unfold zombie_child
      simp [List.any_eq_true]
    by_cases hj : j = cur
    · rw [if_pos hj, if_pos hj]
    · rw [if_neg hj, if_neg hj]
      by_cases hc : p.state = SLEEPING ∧ (p.chan = pr.parent ∨
          (p.chan = k.initproc ∧ zombie_child cur k.ptable = true))
      · rw [if_pos hc, if_pos]
        exact ⟨hc.1, hc.2.imp id (fun h => ⟨h.1, hz.1 h.2⟩)⟩
      · rw [if_neg hc, if_neg]
        exact fun h => hc ⟨h.1, h.2.imp id (fun h => ⟨h.1, hz.2 h.2⟩)⟩

theorem exit_spec_witness :
    exExit.ptable[2]? =
        some { blank with state := RUNNING, pid := 3, parent := Ptr.proc 1, kstack := 1 } ∧
      Ptr.proc 2 ≠ exExit.initproc ∧
    ∃ k2, exit exExit 2 = some k2 ∧ k2.nextpid = exExit.nextpid ∧
      k2.initproc = exExit.initproc ∧ k2.ptable.length = exExit.ptable.length ∧
      ∀ (j : Nat) (p : proc), exExit.ptable[j]? = some p →
        ∃ q, k2.ptable[j]? = some q ∧
          q = { p with parent := q.parent, state := q.state } ∧
          q.parent = (if p.parent = Ptr.proc 2 then exExit.initproc else p.parent) ∧
          q.parent ≠ Ptr.proc 2 ∧
          q.state = (if j = 2 then ZOMBIE
            else if p.state = SLEEPING ∧ (p.chan =
                ({ blank with state := RUNNING, pid := 3, parent := Ptr.proc 1, kstack := 1 } : proc).parent ∨
              (p.chan = exExit.initproc ∧
                ∃ ch ∈ exExit.ptable, ch.parent = Ptr.proc 2 ∧ ch.state = ZOMBIE))
            then RUNNABLE else p.state) :=
  ⟨by decide, by decide, exit_spec exExit 2 _ (by decide) (by decide)⟩

theorem wait_result (k k2 : kernel) (cur : Nat) (r : Option Int)
    (h : wait k cur = some (k2, r)) :
    (k2 = k ∧ r = some (-1) ∧
      ∀ p ∈ k.ptable, ¬ (p.parent = Ptr.proc cur ∧ p.state = ZOMBIE)) ∨
    (∃ i ch, k.ptable[i]? = some ch ∧ ch.parent = Ptr.proc cur ∧ ch.state = ZOMBIE ∧
      (∀ j q, j < i → k.ptable[j]? = some q → ¬ (q.parent = Ptr.proc cur ∧ q.state = ZOMBIE)) ∧
      k2 = { k with ptable := k.ptable.set i (wait_reap ch) } ∧ r = some ch.pid) ∨
    (r = none ∧ k2 = { k with ptable := upd k.ptable cur (sleep_enter (Ptr.proc cur)) } ∧
      ∀ p ∈ k.ptable, ¬ (p.parent = Ptr.proc cur ∧ p.state = ZOMBIE)) := by
  unfold wait at h
  cases hpr : k.ptable[cur]? with
  | none => simp [hpr] at h
  | some pr =>
    simp only [hpr] at h
    cases hs : scan (fun p => decide (p.parent = Ptr.proc cur ∧ p.state = ZOMBIE)) k.ptable with
    | some i =>
      simp only [hs] at h
      obtain ⟨ch, hch, ht, hmin⟩ := scan_some _ i hs
      simp only [hch, Option.some.injEq, Prod.mk.injEq] at h
      obtain ⟨h1, h2⟩ := h
      right; left
      have ht2 : ch.parent = Ptr.proc cur ∧ ch.state = ZOMBIE := by simpa using ht
      refine ⟨i, ch, hch, ht2.1, ht2.2, ?_, h1.symm, h2.symm⟩
      intro j q hj hq
      have := hmin j q hj hq
      simpa using this
    | none =>
      simp only [hs] at h
      have hnone : ∀ p ∈ k.ptable, ¬ (p.parent = Ptr.proc cur ∧ p.state = ZOMBIE) := by
        intro p hp
        have := (scan_none _).1 hs p hp
        simpa using this
      by_cases hc : (¬ k.ptable.any (fun p => p.parent = Ptr.proc cur)) ∨ pr.killed ≠ 0
      · rw [if_pos hc] at h
        simp only [Option.some.injEq, Prod.mk.injEq] at h
        exact Or.inl ⟨h.1.symm, h.2.symm, hnone⟩
      · rw [if_neg hc] at h
        simp only [Option.some.injEq, Prod.mk.injEq] at h
        exact Or.inr (Or.inr ⟨h.2.symm, h.1.symm, hnone⟩)

theorem join_result (k k2 : kernel) (cur : Nat) (r : Option Int) (out : Option Nat)
    (h : join k cur = some (k2, r, out)) :
    (k2 = k ∧ r = some (-1) ∧ out = none ∧
      ∀ p ∈ k.ptable, ¬ (p.pthread = Ptr.proc cur ∧ p.state = ZOMBIE)) ∨
    (∃ i th, k.ptable[i]? = some th ∧ th.pthread = Ptr.proc cur ∧ th.state = ZOMBIE ∧
      (∀ j q, j < i → k.ptable[j]? = some q → ¬ (q.pthread = Ptr.proc cur ∧ q.state = ZOMBIE)) ∧
      k2 = { k with ptable := k.ptable.set i (join_reap th) } ∧ r = some th.pid ∧
      out = some th.ustack) ∨
    (r = none ∧ out = none ∧
      k2 = { k with ptable := upd k.ptable cur (sleep_enter (Ptr.proc cur)) } ∧
      ∀ p ∈ k.ptable, ¬ (p.pthread = Ptr.proc cur ∧ p.state = ZOMBIE)) := by
  unfold join at h
  cases hpr : k.ptable[cur]? with
  | none => simp [hpr] at h
  | some pr =>
    simp only [hpr] at h
    cases hs : scan (fun p => decide (p.pthread = Ptr.proc cur ∧ p.state = ZOMBIE)) k.ptable with
    | some i =>
      simp only [hs] at h
      obtain ⟨th, hth, ht, hmin⟩ := scan_some _ i hs
      simp only [hth, Option.some.injEq, Prod.mk.injEq] at h
      obtain ⟨h1, h2, h3⟩ := h
      right; left
      have ht2 : th.pthread = Ptr.proc cur ∧ th.state = ZOMBIE := by simpa using ht
      refine ⟨i, th, hth, ht2.1, ht2.2, ?_, h1.symm, h2.symm, h3.symm⟩
      intro j q hj hq
      have := hmin j q hj hq
      simpa using this
    | none =>
      simp only [hs] at h
      have hnone : ∀ p ∈ k.ptable, ¬ (p.pthread = Ptr.proc cur ∧ p.state = ZOMBIE) := by
        intro p hp
        have := (scan_none _).1 hs p hp
        simpa using this
      by_cases hc : (¬ k.ptable.any (fun p => p.pthread = Ptr.proc cur)) ∨ pr.killed ≠ 0
      · rw [if_pos hc] at h
        simp only [Option.some.injEq, Prod.mk.injEq] at h
        exact Or.inl ⟨h.1.symm, h.2.1.symm, h.2.2.symm, hnone⟩
      · rw [if_neg hc] at h
        simp only [Option.some.injEq, Prod.mk.injEq] at h
        exact Or.inr (Or.inr ⟨h.2.1.symm, h.2.2.symm, h.1.symm, hnone⟩)

theorem wait_reaps (k : kernel) (cur i : Nat) (pr ch : proc) (hpr : k.ptable[cur]? = some pr)
    (hch : k.ptable[i]? = some ch) (hpar : ch.parent = Ptr.proc cur) (hz : ch.state = ZOMBIE)
    (hmin : ∀ j q, j < i → k.ptable[j]? = some q →
      ¬ (q.parent = Ptr.proc cur ∧ q.state = ZOMBIE)) :
    wait k cur = some ({ k with ptable := k.ptable.set i (wait_reap ch) }, some ch.pid) := by
  have hs : scan (fun p => decide (p.parent = Ptr.proc cur ∧ p.state = ZOMBIE)) k.ptable
      = some i := by
    apply scan_first _ i ch hch (by simp [hpar, hz])
    intro j q hj hq
    simpa using hmin j q hj hq
  unfold wait
  simp only [hpr, hs, hch]

theorem wait_fails (k : kernel) (cur : Nat) (pr : proc) (hpr : k.ptable[cur]? = some pr)
    (hnone : ∀ p ∈ k.ptable, ¬ (p.parent = Ptr.proc cur ∧ p.state = ZOMBIE))
    (hc : (∀ p ∈ k.ptable, p.parent ≠ Ptr.proc cur) ∨ pr.killed ≠ 0) :
    wait k cur = some (k, some (-1)) := by
  have hs : scan (fun p => decide (p.parent = Ptr.proc cur ∧ p.state = ZOMBIE)) k.ptable
      = none := by
    rw [scan_none]
    intro p hp
    simpa using hnone p hp
  have hc2 : (¬ k.ptable.any (fun p => p.parent = Ptr.proc cur)) ∨ pr.killed ≠ 0 := by
    rcases hc with hc | hc
    · left
      simp only [List.any_eq_true, decide_eq_true_eq, not_exists, not_and]
      exact hc
    · right; exact hc
  unfold wait
  simp only [hpr, hs]
  rw [if_pos hc2]

theorem join_reaps (k : kernel) (cur i : Nat) (pr th : proc) (hpr : k.ptable[cur]? = some pr)
    (hth : k.ptable[i]? = some th) (hpt : th.pthread = Ptr.proc cur) (hz : th.state = ZOMBIE)
    (hmin : ∀ j q, j < i → k.ptable[j]? = some q →
      ¬ (q.pthread = Ptr.proc cur ∧ q.state = ZOMBIE)) :
    join k cur =
      some ({ k with ptable := k.ptable.set i (join_reap th) }, some th.pid, some th.ustack) := by
  have hs : scan (fun p => decide (p.pthread = Ptr.proc cur ∧ p.state = ZOMBIE)) k.ptable
      = some i := by
    apply scan_first _ i th hth (by simp [hpt, hz])
    intro j q hj hq
    simpa using hmin j q hj hq
  unfold join
  simp only [hpr, hs, hth]

theorem join_fails (k : kernel) (cur : Nat) (pr : proc) (hpr : k.ptable[cur]? = some pr)
    (hnone : ∀ p ∈ k.ptable, ¬ (p.pthread = Ptr.proc cur ∧ p.state = ZOMBIE))
    (hc : (∀ p ∈ k.ptable, p.pthread ≠ Ptr.proc cur) ∨ pr.killed ≠ 0) :
    join k cur = some (k, some (-1), none) := by
  have hs : scan (fun p => decide (p.pthread = Ptr.proc cur ∧ p.state = ZOMBIE)) k.ptable
      = none := by
    rw [scan_none]
    intro p hp
    simpa using hnone p hp
  have hc2 : (¬ k.ptable.any (fun p => p.pthread = Ptr.proc cur)) ∨ pr.killed ≠ 0 := by
    rcases hc with hc | hc
    · left
      simp only [List.any_eq_true, decide_eq_true_eq, not_exists, not_and]
      exact hc
    · right; exact hc
  unfold join
  simp only [hpr, hs]
  rw [if_pos hc2]

theorem join_sleeps (k : kernel) (cur : Nat) (pr : proc) (hpr : k.ptable[cur]? = some pr)
    (hnone : ∀ p ∈ k.ptable, ¬ (p.pthread = Ptr.proc cur ∧ p.state = ZOMBIE))
    (hkids : ∃ p ∈ k.ptable, p.pthread = Ptr.proc cur) (hk : pr.killed = 0) :
    join k cur =
      some ({ k with ptable := upd k.ptable cur (sleep_enter (Ptr.proc cur)) }, none, none) := by
  have hs : scan (fun p => decide (p.pthread = Ptr.proc cur ∧ p.state = ZOMBIE)) k.ptable
      = none := by
    rw [scan_none]
    intro p hp
    simpa using hnone p hp
  have hc2 : ¬ ((¬ k.ptable.any (fun p => p.pthread = Ptr.proc cur)) ∨ pr.killed ≠ 0) := by
    intro hc
    rcases hc with hc | hc
    · apply hc
      simp only [List.any_eq_true, decide_eq_true_eq]
      exact hkids
    · exact hc hk
  unfold join
  simp only [hpr, hs]
  rw [if_neg hc2]

theorem exit_init_ne (k k2 : kernel) (cur : Nat) (h : exit k cur = some k2) :
    Ptr.proc cur ≠ k.initproc := by
  intro hc
  unfold exit at h
  rw [if_pos hc] at h
  cases h

/-- C13: let `P` (index `cur`) be a process without children and `np` the
    first UNUSED record, where no `parent` field refers to record `np` or `P`
    is not initproc; if `fork` by `P` succeeds with pid `c` and the child then
    runs `exit`, the next `wait` by `P` returns `c` and replaces the child's
    record only, by one with state UNUSED, pid 0, parent null, killed 0 and
    kstack 0, and a second `wait` by `P` returns -1 and changes nothing. -/
theorem fork_exit_wait (c : consts) (k k1 k2 : kernel) (cur kstack pgdir np : Nat)
    (pr : proc) (cpid : Int)
    (hpr : k.ptable[cur]? = some pr) (hlive : pr.state ≠ UNUSED)
    (hnokids : ∀ p ∈ k.ptable, p.parent ≠ Ptr.proc cur)
    (hnp : scan (fun p => p.state = UNUSED) k.ptable = some np)
    (hfresh : (∀ p ∈ k.ptable, p.parent ≠ Ptr.proc np) ∨ k.initproc ≠ Ptr.proc cur)
    (hfork : fork c k cur kstack pgdir = some (k1, cpid)) (hok : cpid ≠ -1)
    (hexit : exit k1 np = some k2) :
    ∃ ch, k2.ptable[np]? = some ch ∧ ch.state = ZOMBIE ∧ ch.pid = cpid ∧
      wait k2 cur = some (⟨k2.ptable.set np (wait_reap ch), k2.nextpid, k2.initproc⟩, some cpid) ∧
      (wait_reap ch).state = UNUSED ∧ (wait_reap ch).pid = 0 ∧
      (wait_reap ch).parent = Ptr.null ∧ (wait_reap ch).killed = 0 ∧
      (wait_reap ch).kstack = 0 ∧
      wait ⟨k2.ptable.set np (wait_reap ch), k2.nextpid, k2.initproc⟩ cur =
        some (⟨k2.ptable.set np (wait_reap ch), k2.nextpid, k2.initproc⟩, some (-1)) := by
  obtain ⟨u, hu, htest, hminb⟩ := scan_some _ np hnp
  have hfree : u.state = UNUSED := by simpa using htest
  have hmin : ∀ j q, j < np → k.ptable[j]? = some q → q.state ≠ UNUSED := by
    intro j q hj hq
    simpa using hminb j q hj hq
  have hcn : cur ≠ np := by
    intro h
    subst h
    rw [hpr] at hu
    cases hu
    exact hlive hfree
  have hnl : np < k.ptable.length := (List.getElem?_eq_some.1 hu).1
  -- the table after fork
  have hk1 : k1 = ⟨k.ptable.set np
      (fork_child pr cur pgdir (allocproc_found c k.nextpid kstack u)),
      k.nextpid + 1, k.initproc⟩ ∧ cpid = k.nextpid := by
    rcases fork_cases c k cur kstack pgdir pr hpr with
      ⟨hall, _⟩ | ⟨i, u2, hu2, hfree2, hmin2, h | h | h⟩
    · exact absurd hfree (hall u (List.getElem?_mem hu))
    · rw [h.2] at hfork
      exact absurd (congrArg Prod.snd (Option.some.inj hfork)).symm hok
    · rw [h.2.2] at hfork
      exact absurd (congrArg Prod.snd (Option.some.inj hfork)).symm hok
    · have hi := first_unused_unique hu hfree hmin hu2 hfree2 hmin2
      subst hi
      rw [hu] at hu2
      cases hu2
      rw [h.2.2] at hfork
      have h2 := Option.some.inj hfork
      rw [if_neg hcn] at h2
      exact ⟨(congrArg Prod.fst h2).symm, (congrArg Prod.snd h2).symm⟩
  obtain ⟨hk1, hcpid⟩ := hk1
  subst hk1
  -- the table after the child's exit
  have hchild : (k.ptable.set np (fork_child pr cur pgdir
      (allocproc_found c k.nextpid kstack u)))[np]? =
      some (fork_child pr cur pgdir (allocproc_found c k.nextpid kstack u)) :=
    List.getElem?_set_self hnl
  obtain ⟨k2b, hexit2, hnext, hinitp, hlen2, hget⟩ :=
    exit_get _ np _ hchild (exit_init_ne _ _ _ hexit)
  rw [hexit] at hexit2
  have hk2 : k2 = k2b := Option.some.inj hexit2
  subst hk2
  have hlen : k2.ptable.length = k.ptable.length := by
    rw [hlen2]
    simp
  have hnp2 := hget np _ hchild
  rw [if_pos rfl] at hnp2
  have hother : ∀ (j : Nat) (q : proc), j ≠ np → k2.ptable[j]? = some q →
      q.parent ≠ Ptr.proc cur := by
    intro j q hj hq
    have hjl : j < k.ptable.length := by
      rw [← hlen]; exact (List.getElem?_eq_some.1 hq).1
    have hp0 := List.getElem?_eq_getElem hjl
    have hp1 : (k.ptable.set np (fork_child pr cur pgdir
        (allocproc_found c k.nextpid kstack u)))[j]? = some k.ptable[j] := by
      rw [List.getElem?_set_ne (Ne.symm hj)]; exact hp0
    have := hget j _ hp1
    rw [hq] at this
    rw [Option.some.inj this]
    have hn := hnokids _ (List.getElem?_mem hp0)
    show (if k.ptable[j].parent = Ptr.proc np then k.initproc else k.ptable[j].parent)
      ≠ Ptr.proc cur
    by_cases hf : k.ptable[j].parent = Ptr.proc np
    · rw [if_pos hf]
      rcases hfresh with h | h
      · exact absurd hf (h _ (List.getElem?_mem hp0))
      · exact h
    · rw [if_neg hf]
      exact hn
  have hcur2 : ∃ pr2, k2.ptable[cur]? = some pr2 := by
    have hcl : cur < k2.ptable.length := by
      rw [hlen]; exact (List.getElem?_eq_some.1 hpr).1
    exact ⟨_, List.getElem?_eq_getElem hcl⟩
  obtain ⟨pr2, hpr2⟩ := hcur2
  have hnl2 : np < k2.ptable.length := by rw [hlen]; exact hnl
  refine ⟨_, hnp2, rfl, ?_, ?_, rfl, rfl, rfl, rfl, rfl, ?_⟩
  · show (allocproc_found c k.nextpid kstack u).pid = cpid
    rw [allocproc_found_pid, hcpid]
  · have hw := wait_reaps k2 cur np pr2 _ hpr2 hnp2
      (by simp [setPS, fork_child, hcn]) rfl
      (fun j q hj hq hc => hother j q (by omega) hq hc.1)
    rw [hw]
    have hp : (setPS (fork_child pr cur pgdir (allocproc_found c k.nextpid kstack u))
        (if (fork_child pr cur pgdir (allocproc_found c k.nextpid kstack u)).parent = Ptr.proc np
          then k.initproc
          else (fork_child pr cur pgdir (allocproc_found c k.nextpid kstack u)).parent)
        ZOMBIE).pid = cpid := by
      show (allocproc_found c k.nextpid kstack u).pid = cpid
      rw [allocproc_found_pid, hcpid]
    simp only [hinitp] at hp ⊢
    rw [hp]
  · have hall : ∀ p ∈ k2.ptable.set np (wait_reap (setPS
        (fork_child pr cur pgdir (allocproc_found c k.nextpid kstack u))
        (if (fork_child pr cur pgdir (allocproc_found c k.nextpid kstack u)).parent = Ptr.proc np
          then k2.initproc
          else (fork_child pr cur pgdir (allocproc_found c k.nextpid kstack u)).parent)
        ZOMBIE)), p.parent ≠ Ptr.proc cur := by
      intro p hp
      obtain ⟨j, hj⟩ := List.getElem?_of_mem hp
      by_cases hjn : np = j
      · subst hjn
        rw [List.getElem?_set_self hnl2] at hj
        rw [← Option.some.inj hj]
        simp [wait_reap]
      · rw [List.getElem?_set_ne hjn] at hj
        exact hother j p (Ne.symm hjn) hj
    have hpr3 : (k2.ptable.set np (wait_reap (setPS
        (fork_child pr cur pgdir (allocproc_found c k.nextpid kstack u))
        (if (fork_child pr cur pgdir (allocproc_found c k.nextpid kstack u)).parent = Ptr.proc np
          then k2.initproc
          else (fork_child pr cur pgdir (allocproc_found c k.nextpid kstack u)).parent)
        ZOMBIE)))[cur]? = some pr2 := by
      rw [List.getElem?_set_ne (Ne.symm hcn)]; exact hpr2
    simp only [hinitp] at hall hpr3 ⊢
    exact wait_fails _ cur pr2 hpr3 (fun p hp hc => hall p hp hc.1) (Or.inl hall)

theorem fork_exit_wait_witness :
    fork exConsts exTable 0 7 3 = some (exForked, 2) ∧ exit exForked 1 = some exExited ∧
    ∃ ch, exExited.ptable[1]? = some ch ∧ ch.state = ZOMBIE ∧ ch.pid = 2 ∧
      wait exExited 0 = some (⟨exExited.ptable.set 1 (wait_reap ch), exExited.nextpid,
        exExited.initproc⟩, some 2) ∧
      (wait_reap ch).state = UNUSED ∧ (wait_reap ch).pid = 0 ∧
      (wait_reap ch).parent = Ptr.null ∧ (wait_reap ch).killed = 0 ∧
      (wait_reap ch).kstack = 0 ∧
      wait ⟨exExited.ptable.set 1 (wait_reap ch), exExited.nextpid, exExited.initproc⟩ 0 =
        some (⟨exExited.ptable.set 1 (wait_reap ch), exExited.nextpid, exExited.initproc⟩,
          some (-1)) :=
  ⟨by decide, by decide,
    fork_exit_wait exConsts exTable exForked exExited 0 7 3 1 _ 2 rfl (by decide)
      (by decide) (by decide) (Or.inl (by decide)) (by decide) (by decide) (by decide)⟩

/-- C14: evaluation at the failing input.  In `exThreads` the process with pid
    2 (index 1) creates the thread `T` (pid 3, index 2, `pthread` = index 1)
    and exits; the init process reaps it with `wait` and `fork` then places a
    new process, pid 4, in record 1.  `T` exits.  `join` called by pid 4,
    which never called `clone`, returns 3, stores the `ustack` of `T` and
    resets the record of `T` (state UNUSED, `kstack = 0`): `T.pthread` still
    names record 1. -/
theorem join_reaps_thread_of_former_slot_owner :
    (run exConsts exThreads [Op.clone 1 7 64 8192]).map
        (fun r => r.1.ptable.map (fun p => (p.state, p.pid, p.pthread, p.kstack))) =
      some [(RUNNABLE, 1, Ptr.null, 1), (RUNNING, 2, Ptr.null, 1),
        (RUNNABLE, 3, Ptr.proc 1, 7)] ∧
    (run exConsts exThreads
        [Op.clone 1 7 64 8192, Op.exit 1, Op.wait 0, Op.fork 0 5 6, Op.exit 2]).map
        (fun r => r.1.ptable.map (fun p => (p.state, p.pid, p.pthread, p.kstack))) =
      some [(RUNNABLE, 1, Ptr.null, 1), (RUNNABLE, 4, Ptr.null, 5),
        (ZOMBIE, 3, Ptr.proc 1, 7)] ∧
    (run exConsts exThreads
        [Op.clone 1 7 64 8192, Op.exit 1, Op.wait 0, Op.fork 0 5 6, Op.exit 2]).map
        (fun r => r.2) = some [3, 4] ∧
    ((run exConsts exThreads
        [Op.clone 1 7 64 8192, Op.exit 1, Op.wait 0, Op.fork 0 5 6, Op.exit 2]).bind
        (fun r => join r.1 1)).map
        (fun r => r.1.ptable.map (fun p => (p.state, p.pid, p.pthread, p.kstack))) =
      some [(RUNNABLE, 1, Ptr.null, 1), (RUNNABLE, 4, Ptr.null, 5),
        (UNUSED, 0, Ptr.null, 0)] ∧
    ((run exConsts exThreads
        [Op.clone 1 7 64 8192, Op.exit 1, Op.wait 0, Op.fork 0 5 6, Op.exit 2]).bind
        (fun r => join r.1 1)).map (fun r => r.2) = some (some 3, some 8192) := by
  refine ⟨?_, ?_, ?_, ?_, ?_⟩ <;> decide


/-- C15 (as stated, refuted): in `exJoin` the caller at index 1 has its
    `killed` flag set and its thread at index 2 is a zombie; `join` does not
    fail: it returns the thread's pid 3, stores its `ustack` and resets the
    thread's record. -/
theorem join_killed_caller_reaps :
    exJoin.ptable.map (fun p => (p.state, p.pid, p.killed, p.pthread)) =
      [(RUNNABLE, 1, 0, Ptr.null), (RUNNING, 2, 1, Ptr.null), (ZOMBIE, 3, 0, Ptr.proc 1)] ∧
    (join exJoin 1).map
        (fun r => (r.1.ptable.map (fun p => (p.state, p.pid, p.killed, p.pthread)), r.2)) =
      some ([(RUNNABLE, 1, 0, Ptr.null), (RUNNING, 2, 1, Ptr.null), (UNUSED, 0, 0, Ptr.null)],
        some 3, some 8192) := by
  decide

/-- C15 (amended): for a caller `C` at index `cur`, if some record with
    `pthread = C` is ZOMBIE then `join` stores the `ustack` of the lowest-index
    such record in the out parameter, returns its pid and resets that record
    only (state UNUSED, pid 0, parent null, pthread null, killed 0, kstack 0),
    whether or not `C` is killed; if no record with `pthread = C` is ZOMBIE
    and either no record has `pthread = C` or `C` is killed, `join` returns
    -1 without sleeping and leaves the table unchanged. -/
theorem join_spec (k : kernel) (cur : Nat) (pr : proc) (hpr : k.ptable[cur]? = some pr) :
    ((∃ p ∈ k.ptable, p.pthread = Ptr.proc cur ∧ p.state = ZOMBIE) →
      ∃ (i : Nat) (th : proc), k.ptable[i]? = some th ∧ th.pthread = Ptr.proc cur ∧
        th.state = ZOMBIE ∧
        (∀ (j : Nat) (q : proc), j < i → k.ptable[j]? = some q →
          ¬ (q.pthread = Ptr.proc cur ∧ q.state = ZOMBIE)) ∧
        join k cur = some (⟨k.ptable.set i (join_reap th), k.nextpid, k.initproc⟩,
          some th.pid, some th.ustack) ∧
        join_reap th = setReaped th ∧
        ∀ (j : Nat), j ≠ i → (k.ptable.set i (join_reap th))[j]? = k.ptable[j]?) ∧
    ((∀ p ∈ k.ptable, ¬ (p.pthread = Ptr.proc cur ∧ p.state = ZOMBIE)) →
      ((∀ p ∈ k.ptable, p.pthread ≠ Ptr.proc cur) ∨ pr.killed ≠ 0) →
      join k cur = some (k, some (-1), none)) := by
  constructor
  · intro hz
    cases hs : scan (fun p => decide (p.pthread = Ptr.proc cur ∧ p.state = ZOMBIE)) k.ptable with
    | none =>
      rw [scan_none] at hs
      obtain ⟨p, hp, h⟩ := hz
      have := hs p hp
      simp [h.1, h.2] at this
    | some i =>
      obtain ⟨th, hth, ht, hmin⟩ := scan_some _ i hs
      have ht2 : th.pthread = Ptr.proc cur ∧ th.state = ZOMBIE := by simpa using ht
      have hmin2 : ∀ (j : Nat) (q : proc), j < i → k.ptable[j]? = some q →
          ¬ (q.pthread = Ptr.proc cur ∧ q.state = ZOMBIE) := by
        intro j q hj hq
        simpa using hmin j q hj hq
      refine ⟨i, th, hth, ht2.1, ht2.2, hmin2, ?_, rfl, ?_⟩
      · exact join_reaps k cur i pr th hpr hth ht2.1 ht2.2 hmin2
      · intro j hj
        exact List.getElem?_set_ne (Ne.symm hj)
  · intro hnone hc
    exact join_fails k cur pr hpr hnone hc

theorem join_spec_witness :
    exJoin.ptable[1]? = some exKilled ∧
    (((∃ p ∈ exJoin.ptable, p.pthread = Ptr.proc 1 ∧ p.state = ZOMBIE) →
      ∃ (i : Nat) (th : proc), exJoin.ptable[i]? = some th ∧ th.pthread = Ptr.proc 1 ∧
        th.state = ZOMBIE ∧
        (∀ (j : Nat) (q : proc), j < i → exJoin.ptable[j]? = some q →
          ¬ (q.pthread = Ptr.proc 1 ∧ q.state = ZOMBIE)) ∧
        join exJoin 1 = some (⟨exJoin.ptable.set i (join_reap th), exJoin.nextpid,
          exJoin.initproc⟩, some th.pid, some th.ustack) ∧
        join_reap th = setReaped th ∧
        ∀ (j : Nat), j ≠ i → (exJoin.ptable.set i (join_reap th))[j]? = exJoin.ptable[j]?) ∧
    ((∀ p ∈ exJoin.ptable, ¬ (p.pthread = Ptr.proc 1 ∧ p.state = ZOMBIE)) →
      ((∀ p ∈ exJoin.ptable, p.pthread ≠ Ptr.proc 1) ∨
        exKilled.killed ≠ 0) →
      join exJoin 1 = some (exJoin, some (-1), none))) :=
  ⟨by decide, join_spec exJoin 1 exKilled (by decide)⟩

/-- C16: evaluation at the failing input.  From `exThreads` the process `C`
    at index 1 creates a thread `T` (index 2) with `clone` and blocks in
    `join`, SLEEPING on channel `C`; `T` has `parent` null and `pthread = C`.
    After `exit` by `T` the thread is ZOMBIE and `C` is still SLEEPING: `exit`
    wakes the sleepers on channel `T->parent`, which is null, not those on
    `T->pthread`.  A further scan of `join` by `C` would return the pid of
    `T`. -/
theorem thread_exit_leaves_joiner_asleep :
    (run exConsts exThreads [Op.clone 1 7 64 8192, Op.join 1]).map
        (fun r => r.1.ptable.map (fun p => (p.state, p.parent, p.pthread, p.chan))) =
      some [(RUNNABLE, Ptr.null, Ptr.null, Ptr.null),
        (SLEEPING, Ptr.proc 0, Ptr.null, Ptr.proc 1),
        (RUNNABLE, Ptr.null, Ptr.proc 1, Ptr.null)] ∧
    (run exConsts exThreads [Op.clone 1 7 64 8192, Op.join 1, Op.exit 2]).map
        (fun r => r.1.ptable.map (fun p => (p.state, p.parent, p.pthread, p.chan))) =
      some [(RUNNABLE, Ptr.null, Ptr.null, Ptr.null),
        (SLEEPING, Ptr.proc 0, Ptr.null, Ptr.proc 1),
        (ZOMBIE, Ptr.null, Ptr.proc 1, Ptr.null)] ∧
    ((run exConsts exThreads [Op.clone 1 7 64 8192, Op.join 1, Op.exit 2]).bind
        (fun r => join r.1 1)).map (fun r => r.2) = some (some 3, some 8192) := by
  decide

/-- C19: evaluation at the failing input.  From the all-UNUSED table `exBoot`
    with every `killed` flag clear, `kill(0)` leaves record 0 UNUSED with
    `killed = 1`; and after the first process is created, `kill(0)` followed
    by `fork` gives a RUNNABLE child (pid 2) with `killed = 1`. -/
theorem kill_zero_then_fork_born_killed :
    (∀ p ∈ exBoot.ptable, p.state = UNUSED ∧ p.killed = 0) ∧
    (run exConsts exBoot [Op.kill 0]).map
        (fun r => r.1.ptable.map (fun p => (p.state, p.pid, p.killed))) =
      some [(UNUSED, 0, 1), (UNUSED, 0, 0), (UNUSED, 0, 0), (UNUSED, 0, 0)] ∧
    (run exConsts exBoot [Op.allocproc 1, Op.kill 0, Op.fork 0 2 3]).map
        (fun r => r.1.ptable.map (fun p => (p.state, p.pid, p.killed))) =
      some [(EMBRYO, 1, 0), (RUNNABLE, 2, 1), (UNUSED, 0, 0), (UNUSED, 0, 0)] := by
  decide

end Proc
